import Mathlib

/-! The R1CS solver of gnark (`representations/r1cs.go`).

A shallow embedding of the constraint-solving engine generated from the template
`internal/generators/backend/template/representations/r1cs.go`, followed by theorems about it.

* `fr.Element` is an element of `ZMod p`, where `p` is the modulus of the scalar field the
  template is instantiated for.  An element is stored in `limbs` machine words of 64 bits.
* Go slices are lists; an index outside a slice aborts the call (`Fault.indexOutOfRange`).
* A Go `panic` is the `Except.error` outcome of a function; an `error` value returned by `Solve`
  is the field `err` of its (normal) result.
* `int` fields of the `R1CS` struct are integers, so that the offsets computed from them may be
  negative, as in the source.
-/

namespace Gnark

/-! ## Data model -/

/-- The ways a call can abort (Go `panic`), as opposed to returning an `error` value. -/
inductive Fault where
  | indexOutOfRange
  | moreThanOneWire
  | unimplementedSolvingMethod
  | wireNotInstantiated
  | lenOutOfRange
deriving DecidableEq, Repr

/-- Modelled from the spec: `r1c.Term` (package `backend/r1cs/r1c` is not part of the sources).
A term is a wire index (`ConstraintID()`), the result of `CoeffValue()` (one of the fast-path
values `1`, `-1`, `0`, `2`, anything else meaning "look the coefficient up"), and the index
`CoeffID()` into the coefficient table. -/
structure Term where
  ConstraintID : ℕ
  CoeffValue : ℤ
  CoeffID : ℕ
deriving DecidableEq, Repr, Inhabited

/-- Modelled from the spec: `r1c.SolvingMethod`; every tag other than the two defined strategies
is `unimplemented`. -/
inductive SolvingMethod where
  | SingleOutput
  | BinaryDec
  | unimplemented
deriving DecidableEq, Repr

/-- Modelled from the spec: `r1c.R1C`, a triple of linear expressions and a solving strategy. -/
structure R1C where
  L : List Term
  R : List Term
  O : List Term
  Solver : SolvingMethod
deriving DecidableEq, Repr

/-- Modelled from the spec: `backend.LogEntry`, a format string and the wires whose values fill
it. -/
structure LogEntry where
  Format : String
  ToResolve : List ℕ
deriving DecidableEq, Repr

/-- Modelled from the spec: the constant `backend.OneWire`, the reserved name of the wire fixed to
one. -/
def OneWire : String := "ONE_WIRE"

/-- The `R1CS` struct.  The debug map `WireTags`, read by `Inspect` only, is the list of its
entries in the order `Inspect` ranges over them (Go leaves that order open); a circuit without
tags leaves it empty. -/
structure R1CS (p : ℕ) where
  NbWires : ℤ
  NbPublicWires : ℤ
  NbSecretWires : ℤ
  SecretWires : List String
  PublicWires : List String
  Logs : List LogEntry
  NbConstraints : ℤ
  NbCOConstraints : ℤ
  Constraints : List R1C
  Coefficients : List (ZMod p)
  WireTags : List (ℕ × List String) := []

/-- The `error` values `Solve` returns. -/
inductive SolveError where
  | invalidInputSize
  | inputNotSet (name : String)
  | unsatisfiedConstraint (a b c : String)
deriving DecidableEq, Repr

/-- The assignment `map[string]interface{}`: a name is absent (`none`) or bound to a number. -/
abbrev Assignment := String → Option ℤ

/-! ## The field element interface -/

/-- Modelled from the spec: `Element.SetInterface`, the conversion of an external number to a
field element. -/
def SetInterface {p : ℕ} (v : ℤ) : ZMod p := (v : ZMod p)

/-- Modelled from the spec: `Element.SetUint64`. -/
def SetUint64 {p : ℕ} (v : ℕ) : ZMod p := (v : ZMod p)

/-- Modelled from the spec: `Element.Div`, multiplication by the inverse, where the inverse of
zero is zero. -/
def Div {p : ℕ} (x y : ZMod p) : ZMod p := x * y⁻¹

/-- Modelled from the spec: `Element.String`, the decimal string of the regular (canonical)
representative. -/
def ElementString {p : ℕ} (x : ZMod p) : String := toString x.val

/-- Modelled from the spec: `Element.ToRegular`, the `limbs` 64-bit words of the regular
(non-Montgomery) representative, least significant first. -/
def ToRegular {p : ℕ} (limbs : ℕ) (x : ZMod p) : List ℕ :=
  (List.range limbs).map fun i => x.val / 2 ^ (64 * i) % 2 ^ 64

/-! ## Slices -/

/-- Read `l[i]`. -/
def readAt {α : Type} (l : List α) (i : ℕ) : Except Fault α :=
  match l[i]? with
  | some v => .ok v
  | none => .error .indexOutOfRange

/-- Store `l[i] = v`. -/
def writeAt {α : Type} (l : List α) (i : ℕ) (v : α) : Except Fault (List α) :=
  if i < l.length then .ok (l.set i v) else .error .indexOutOfRange

/-- Store `l[i] = v` for an index computed in `int`. -/
def writeAtInt {α : Type} (l : List α) (i : ℤ) (v : α) : Except Fault (List α) :=
  if 0 ≤ i then writeAt l i.toNat v else .error .indexOutOfRange

/-! ## Linear expressions -/

/-- The method `AddTerm`: `res += value * term.Coefficient`, with the fast paths of the source. -/
def AddTerm {p : ℕ} (r1cs : R1CS p) (res : ZMod p) (t : Term) (value : ZMod p) :
    Except Fault (ZMod p) :=
  if t.CoeffValue = 1 then .ok (res + value)
  else if t.CoeffValue = -1 then .ok (res - value)
  else if t.CoeffValue = 0 then .ok res
  else if t.CoeffValue = 2 then .ok (res + 2 * value)
  else
    match r1cs.Coefficients[t.CoeffID]? with
    | some k => .ok (res + k * value)
    | none => .error .indexOutOfRange

/-- The method `mulWireByCoeff`: `res *= term.Coefficient`, with the fast paths of the source. -/
def mulWireByCoeff {p : ℕ} (r1cs : R1CS p) (res : ZMod p) (t : Term) : Except Fault (ZMod p) :=
  if t.CoeffValue = 1 then .ok res
  else if t.CoeffValue = -1 then .ok (-res)
  else if t.CoeffValue = 0 then .ok 0
  else if t.CoeffValue = 2 then .ok (2 * res)
  else
    match r1cs.Coefficients[t.CoeffID]? with
    | some k => .ok (res * k)
    | none => .error .indexOutOfRange

/-- One of the three loops of `instantiateR1C`: add every term of a linear expression to the
accumulator, reading the wire of each term. -/
def accumulate {p : ℕ} (r1cs : R1CS p) (wireValues : List (ZMod p)) :
    List Term → ZMod p → Except Fault (ZMod p)
  | [], acc => .ok acc
  | t :: ts, acc =>
    match readAt wireValues t.ConstraintID with
    | .error e => .error e
    | .ok v =>
      match AddTerm r1cs acc t v with
      | .error e => .error e
      | .ok acc1 => accumulate r1cs wireValues ts acc1

/-- The function `instantiateR1C`: the values of `L`, `R` and `O` on the wire vector. -/
def instantiateR1C {p : ℕ} (r : R1C) (r1cs : R1CS p) (wireValues : List (ZMod p)) :
    Except Fault (ZMod p × ZMod p × ZMod p) :=
  match accumulate r1cs wireValues r.L 0 with
  | .error e => .error e
  | .ok a =>
    match accumulate r1cs wireValues r.R 0 with
    | .error e => .error e
    | .ok b =>
      match accumulate r1cs wireValues r.O 0 with
      | .error e => .error e
      | .ok c => .ok (a, b, c)

/-! ## Solving one constraint -/

/-- What the closure `processTerm` of `solveR1C` reads and writes besides the accumulator it is
passed: the variables `loc` and `termToCompute`. -/
structure Unknown where
  loc : ℕ
  termToCompute : Term
deriving DecidableEq, Repr

/-- The closure `processTerm`: add the term to `val` when its wire has a value, else record it as
the wire to compute; abort when one was recorded already. -/
def processTerm {p : ℕ} (r1cs : R1CS p) (wireInstantiated : List Bool)
    (wireValues : List (ZMod p)) (t : Term) (val : ZMod p) (locValue : ℕ) (u : Unknown) :
    Except Fault (ZMod p × Unknown) :=
  match readAt wireInstantiated t.ConstraintID with
  | .error e => .error e
  | .ok true =>
    match readAt wireValues t.ConstraintID with
    | .error e => .error e
    | .ok v =>
      match AddTerm r1cs val t v with
      | .error e => .error e
      | .ok val1 => .ok (val1, u)
  | .ok false =>
    if u.loc ≠ 0 then .error .moreThanOneWire
    else .ok (val, { loc := locValue, termToCompute := t })

/-- One of the three scanning loops of `solveR1C`: `processTerm` on every term of a linear
expression. -/
def processTerms {p : ℕ} (r1cs : R1CS p) (wireInstantiated : List Bool)
    (wireValues : List (ZMod p)) (locValue : ℕ) :
    List Term → ZMod p → Unknown → Except Fault (ZMod p × Unknown)
  | [], val, u => .ok (val, u)
  | t :: ts, val, u =>
    match processTerm r1cs wireInstantiated wireValues t val locValue u with
    | .error e => .error e
    | .ok (val1, u1) => processTerms r1cs wireInstantiated wireValues locValue ts val1 u1

/-- The end of the `SingleOutput` case of `solveR1C`, after the three scans: compute the value of
the recorded wire from the partial sums `a`, `b`, `c`, store it, and mark the wire. -/
def solveSingleOutput {p : ℕ} (r1cs : R1CS p) (wireInstantiated : List Bool)
    (wireValues : List (ZMod p)) (a b c : ZMod p) (u : Unknown) :
    Except Fault (List Bool × List (ZMod p)) :=
  if u.loc = 0 then .ok (wireInstantiated, wireValues)
  else
    let cID := u.termToCompute.ConstraintID
    let stored : Except Fault (List (ZMod p)) :=
      if u.loc = 1 then
        if b ≠ 0 then
          match mulWireByCoeff r1cs (Div c b - a) u.termToCompute with
          | .error e => .error e
          | .ok v => writeAt wireValues cID v
        else .ok wireValues
      else if u.loc = 2 then
        if a ≠ 0 then
          match mulWireByCoeff r1cs (Div c a - b) u.termToCompute with
          | .error e => .error e
          | .ok v => writeAt wireValues cID v
        else .ok wireValues
      else if u.loc = 3 then
        match mulWireByCoeff r1cs (a * b - c) u.termToCompute with
        | .error e => .error e
        | .ok v => writeAt wireValues cID v
      else .ok wireValues
    match stored with
    | .error e => .error e
    | .ok wireValues1 =>
      match writeAt wireInstantiated cID true with
      | .error e => .error e
      | .ok wireInstantiated1 => .ok (wireInstantiated1, wireValues1)

/-- The loops of the `BinaryDec` case of `solveR1C`.  The source visits the positions
`k = i*64 + j` of `r.L` in increasing order (`i` the word, `j < 64` the bit inside it); at each it
reads bit `j` of the word `n[i]` and stores it in the wire of `r.L[k]` unless that wire has a
value. -/
def binaryDecLoop {p : ℕ} (n : List ℕ) :
    ℕ → List Term → List Bool → List (ZMod p) → Except Fault (List Bool × List (ZMod p))
  | _, [], wireInstantiated, wireValues => .ok (wireInstantiated, wireValues)
  | k, t :: ts, wireInstantiated, wireValues =>
    match readAt n (k / 64) with
    | .error e => .error e
    | .ok word =>
      let ithbit := (word >>> (k % 64)) &&& 1
      match readAt wireInstantiated t.ConstraintID with
      | .error e => .error e
      | .ok true => binaryDecLoop n (k + 1) ts wireInstantiated wireValues
      | .ok false =>
        match writeAt wireValues t.ConstraintID (SetUint64 ithbit) with
        | .error e => .error e
        | .ok wireValues1 =>
          binaryDecLoop n (k + 1) ts (wireInstantiated.set t.ConstraintID true) wireValues1

/-- The method `solveR1C`: compute the wire (or the bit wires) a constraint determines. -/
def solveR1C {p : ℕ} (limbs : ℕ) (r1cs : R1CS p) (r : R1C) (wireInstantiated : List Bool)
    (wireValues : List (ZMod p)) : Except Fault (List Bool × List (ZMod p)) :=
  match r.Solver with
  | .SingleOutput =>
    match processTerms r1cs wireInstantiated wireValues 1 r.L 0 ⟨0, default⟩ with
    | .error e => .error e
    | .ok (a, u1) =>
      match processTerms r1cs wireInstantiated wireValues 2 r.R 0 u1 with
      | .error e => .error e
      | .ok (b, u2) =>
        match processTerms r1cs wireInstantiated wireValues 3 r.O 0 u2 with
        | .error e => .error e
        | .ok (c, u3) => solveSingleOutput r1cs wireInstantiated wireValues a b c u3
  | .BinaryDec =>
    match r.O with
    | [] => .error .indexOutOfRange
    | o :: _ =>
      match readAt wireValues o.ConstraintID with
      | .error e => .error e
      | .ok v => binaryDecLoop (ToRegular limbs v) 0 r.L wireInstantiated wireValues
  | .unimplemented => .error .unimplementedSolvingMethod

/-! ## Solve -/

/-- The buffers a call of `Solve` works on: the caller's `a`, `b`, `c`, `wireValues` and the local
flag vector `wireInstantiated`. -/
structure Buffers (p : ℕ) where
  a : List (ZMod p)
  b : List (ZMod p)
  c : List (ZMod p)
  wireValues : List (ZMod p)
  wireInstantiated : List Bool

/-- The closure `instantiateInputs` of `Solve`, from position `i` of `inputNames` on: bind the
wires `i + offset`; the result carries the name that is not set, if there is one. -/
def instantiateInputs {p : ℕ} (assignment : Assignment) (offset : ℤ) :
    ℕ → List String → List Bool → List (ZMod p) →
      Except Fault (Option String × List Bool × List (ZMod p))
  | _, [], wireInstantiated, wireValues => .ok (none, wireInstantiated, wireValues)
  | i, name :: rest, wireInstantiated, wireValues =>
    if name = OneWire then
      match writeAtInt wireValues (i + offset) 1 with
      | .error e => .error e
      | .ok wireValues1 =>
        match writeAtInt wireInstantiated (i + offset) true with
        | .error e => .error e
        | .ok wireInstantiated1 =>
          instantiateInputs assignment offset (i + 1) rest wireInstantiated1 wireValues1
    else
      match assignment name with
      | some val =>
        match writeAtInt wireValues (i + offset) (SetInterface val) with
        | .error e => .error e
        | .ok wireValues1 =>
          match writeAtInt wireInstantiated (i + offset) true with
          | .error e => .error e
          | .ok wireInstantiated1 =>
            instantiateInputs assignment offset (i + 1) rest wireInstantiated1 wireValues1
      | none => .ok (some name, wireInstantiated, wireValues)

/-- The two calls of `instantiateInputs` in `Solve`: the secret inputs (when `NbSecretWires` is
not zero), then the public inputs. -/
def bindInputs {p : ℕ} (r1cs : R1CS p) (assignment : Assignment) (wireInstantiated : List Bool)
    (wireValues : List (ZMod p)) : Except Fault (Option String × List Bool × List (ZMod p)) :=
  let secret : Except Fault (Option String × List Bool × List (ZMod p)) :=
    if r1cs.NbSecretWires ≠ 0 then
      instantiateInputs assignment (r1cs.NbWires - r1cs.NbPublicWires - r1cs.NbSecretWires) 0
        r1cs.SecretWires wireInstantiated wireValues
    else .ok (none, wireInstantiated, wireValues)
  match secret with
  | .error e => .error e
  | .ok (some name, wireInstantiated1, wireValues1) => .ok (some name, wireInstantiated1, wireValues1)
  | .ok (none, wireInstantiated1, wireValues1) =>
    instantiateInputs assignment (r1cs.NbWires - r1cs.NbPublicWires) 0 r1cs.PublicWires
      wireInstantiated1 wireValues1

/-- The first statement of the body of the main loop of `Solve`: constraint `i` is solved when it
is one of the first `NbCOConstraints`. -/
def solveComputed {p : ℕ} (limbs : ℕ) (r1cs : R1CS p) (i : ℕ) (r : R1C)
    (wireInstantiated : List Bool) (wireValues : List (ZMod p)) :
    Except Fault (List Bool × List (ZMod p)) :=
  if (i : ℤ) < r1cs.NbCOConstraints then solveR1C limbs r1cs r wireInstantiated wireValues
  else .ok (wireInstantiated, wireValues)

/-- The body of the main loop of `Solve` for constraint `i`: solve it when it is one of the first
`NbCOConstraints`, evaluate it into `a[i]`, `b[i]`, `c[i]`, and check the product; the result
carries the error of an unsatisfied constraint, if any. -/
def solveStep {p : ℕ} (limbs : ℕ) (r1cs : R1CS p) (i : ℕ) (r : R1C) (s : Buffers p) :
    Except Fault (Option SolveError × Buffers p) :=
  match solveComputed limbs r1cs i r s.wireInstantiated s.wireValues with
  | .error e => .error e
  | .ok (wireInstantiated1, wireValues1) =>
    match instantiateR1C r r1cs wireValues1 with
    | .error e => .error e
    | .ok (va, vb, vc) =>
      match writeAt s.a i va with
      | .error e => .error e
      | .ok a1 =>
        match writeAt s.b i vb with
        | .error e => .error e
        | .ok b1 =>
          match writeAt s.c i vc with
          | .error e => .error e
          | .ok c1 =>
            let s1 : Buffers p :=
              { a := a1, b := b1, c := c1, wireValues := wireValues1,
                wireInstantiated := wireInstantiated1 }
            if va * vb ≠ vc then
              .ok (some (.unsatisfiedConstraint (ElementString va) (ElementString vb)
                (ElementString vc)), s1)
            else .ok (none, s1)

/-- The main loop of `Solve`, from constraint `i` on; it stops at the first unsatisfied
constraint. -/
def solveLoop {p : ℕ} (limbs : ℕ) (r1cs : R1CS p) :
    ℕ → List R1C → Buffers p → Except Fault (Option SolveError × Buffers p)
  | _, [], s => .ok (none, s)
  | i, r :: rest, s =>
    match solveStep limbs r1cs i r s with
    | .error e => .error e
    | .ok (some err, s1) => .ok (some err, s1)
    | .ok (none, s1) => solveLoop limbs r1cs (i + 1) rest s1

/-- The inner loop of `printLogs`: the decimal strings of the wires of one log entry; a wire
without a value aborts. -/
def resolveWires {p : ℕ} (wireValues : List (ZMod p)) (wireInstantiated : List Bool) :
    List ℕ → Except Fault (List String)
  | [] => .ok []
  | wireID :: rest =>
    match readAt wireInstantiated wireID with
    | .error e => .error e
    | .ok false => .error .wireNotInstantiated
    | .ok true =>
      match readAt wireValues wireID with
      | .error e => .error e
      | .ok v =>
        match resolveWires wireValues wireInstantiated rest with
        | .error e => .error e
        | .ok strs => .ok (ElementString v :: strs)

/-- The method `printLogs`: what is written to the standard output, one pair of a format and its
arguments for each log entry. -/
def printLogs {p : ℕ} (wireValues : List (ZMod p)) (wireInstantiated : List Bool) :
    List LogEntry → Except Fault (List (String × List String))
  | [] => .ok []
  | entry :: rest =>
    match resolveWires wireValues wireInstantiated entry.ToResolve with
    | .error e => .error e
    | .ok toResolve =>
      match printLogs wireValues wireInstantiated rest with
      | .error e => .error e
      | .ok out => .ok ((entry.Format, toResolve) :: out)

/-- What a call of `Solve` that does not abort leaves behind: the returned `error` (`none` for
`nil`), the buffers, and the output of the deferred `printLogs` (`none` when `Solve` returned
before the call was deferred). -/
structure SolveResult (p : ℕ) where
  err : Option SolveError
  buffers : Buffers p
  logs : Option (List (String × List String))

/-- The method `Solve`. -/
def Solve {p : ℕ} (limbs : ℕ) (r1cs : R1CS p) (assignment : Assignment)
    (a b c wireValues : List (ZMod p)) : Except Fault (SolveResult p) :=
  if (a.length : ℤ) ≠ r1cs.NbConstraints ∨ (b.length : ℤ) ≠ r1cs.NbConstraints ∨
      (c.length : ℤ) ≠ r1cs.NbConstraints ∨ (wireValues.length : ℤ) ≠ r1cs.NbWires then
    .ok { err := some .invalidInputSize,
          buffers := { a := a, b := b, c := c, wireValues := wireValues, wireInstantiated := [] },
          logs := none }
  else
    match bindInputs r1cs assignment (List.replicate r1cs.NbWires.toNat false) wireValues with
    | .error e => .error e
    | .ok (some name, wireInstantiated1, wireValues1) =>
      .ok { err := some (.inputNotSet name),
            buffers := { a := a, b := b, c := c, wireValues := wireValues1,
                         wireInstantiated := wireInstantiated1 },
            logs := none }
    | .ok (none, wireInstantiated1, wireValues1) =>
      match solveLoop limbs r1cs 0 r1cs.Constraints
          { a := a, b := b, c := c, wireValues := wireValues1,
            wireInstantiated := wireInstantiated1 } with
      | .error e => .error e
      | .ok (err, s) =>
        match printLogs s.wireValues s.wireInstantiated r1cs.Logs with
        | .error e => .error e
        | .ok out => .ok { err := err, buffers := s, logs := some out }

/-! ## Inspect -/

/-- Modelled from the spec: `Element.ToBigIntRegular`, the canonical big integer of an element. -/
def ToBigIntRegular {p : ℕ} (x : ZMod p) : ℕ := x.val

/-- The `error` values `Inspect` returns: the error of `Solve`, or a duplicate tag. -/
inductive InspectError where
  | solveError (err : SolveError)
  | duplicateTag (tag : String)
deriving DecidableEq, Repr

/-- The map `res` of `Inspect`, as the list of its insertions, latest first: `res[k] = v` puts
`(k, v)` in front, and `res[k]` is the first entry with key `k` (`List.lookup`). -/
abbrev ResultMap := List (String × ℕ)

/-- The allocation `make([]fr.Element, n)`: `n` zero elements; a negative length aborts. -/
def makeElements {p : ℕ} (n : ℤ) : Except Fault (List (ZMod p)) :=
  if 0 ≤ n then .ok (List.replicate n.toNat 0) else .error .lenOutOfRange

/-- Read `l[i]` for an index computed in `int`. -/
def readAtInt {α : Type} (l : List α) (i : ℤ) : Except Fault α :=
  if 0 ≤ i then readAt l i.toNat else .error .indexOutOfRange

/-- One of the two loops of `Inspect` over the input names, from position `i` on:
`res[names[i]] = wireValues[i + offset]`. -/
def inspectInputs {p : ℕ} (wireValues : List (ZMod p)) (offset : ℤ) :
    ℕ → List String → ResultMap → Except Fault ResultMap
  | _, [], res => .ok res
  | i, name :: rest, res =>
    match readAtInt wireValues (i + offset) with
    | .error e => .error e
    | .ok v => inspectInputs wireValues offset (i + 1) rest ((name, ToBigIntRegular v) :: res)

/-- The inner loop of `Inspect` over the tags of one wire: a tag that is a key of `res` already
stops the loop and is reported; else `res[tag] = wireValues[wireID]`. -/
def inspectWireTags {p : ℕ} (wireValues : List (ZMod p)) (wireID : ℕ) :
    List String → ResultMap → Except Fault (Option String × ResultMap)
  | [], res => .ok (none, res)
  | tag :: rest, res =>
    if (res.lookup tag).isSome then .ok (some tag, res)
    else
      match readAt wireValues wireID with
      | .error e => .error e
      | .ok v => inspectWireTags wireValues wireID rest ((tag, ToBigIntRegular v) :: res)

/-- The outer loop of `Inspect` over the entries of `WireTags`. -/
def inspectTags {p : ℕ} (wireValues : List (ZMod p)) :
    List (ℕ × List String) → ResultMap → Except Fault (Option String × ResultMap)
  | [], res => .ok (none, res)
  | (wireID, tags) :: rest, res =>
    match inspectWireTags wireValues wireID tags res with
    | .error e => .error e
    | .ok (some tag, res1) => .ok (some tag, res1)
    | .ok (none, res1) => inspectTags wireValues rest res1

/-- The method `Inspect`: the map it returns (`none` for `nil`) and the error it returns (`none`
for `nil`). -/
def Inspect {p : ℕ} (limbs : ℕ) (r1cs : R1CS p) (solution : Assignment) (showsInputs : Bool) :
    Except Fault (Option ResultMap × Option InspectError) :=
  match makeElements (p := p) r1cs.NbWires with
  | .error e => .error e
  | .ok wireValues =>
    match makeElements (p := p) r1cs.NbConstraints with
    | .error e => .error e
    | .ok abc =>
      match Solve limbs r1cs solution abc abc abc wireValues with
      | .error e => .error e
      | .ok solved =>
        let withInputs : Except Fault ResultMap :=
          if showsInputs then
            match inspectInputs solved.buffers.wireValues
                (r1cs.NbWires - r1cs.NbPublicWires - r1cs.NbSecretWires) 0 r1cs.SecretWires [] with
            | .error e => .error e
            | .ok res1 =>
              inspectInputs solved.buffers.wireValues (r1cs.NbWires - r1cs.NbPublicWires) 0
                r1cs.PublicWires res1
          else .ok []
        match withInputs with
        | .error e => .error e
        | .ok res1 =>
          match inspectTags solved.buffers.wireValues r1cs.WireTags res1 with
          | .error e => .error e
          | .ok (some tag, _) => .ok (none, some (.duplicateTag tag))
          | .ok (none, res2) => .ok (some res2, solved.err.map .solveError)

/-! ## Torus exponentiation and sparse multiplication (`fields_bn254/e12_pairing.go`) -/

/-- The loop of `nSquareTorus`: `k` more squarings of `z`. -/
def nSquareLoop {E : Type} (SquareTorus : E → E) : ℕ → E → E
  | 0, z => z
  | k + 1, z => nSquareLoop SquareTorus k (SquareTorus z)

/-- The method `nSquareTorus`: `for i := 0; i < n; i++ { z = e.SquareTorus(z) }`. -/
def nSquareTorus {E : Type} (SquareTorus : E → E) (z : E) (n : ℤ) : E :=
  nSquareLoop SquareTorus n.toNat z

/-- The method `ExptTorus`, over the two operations it calls. -/
def ExptTorus {E : Type} (SquareTorus : E → E) (MulTorus : E → E → E) (x : E) : E :=
  let t3 := SquareTorus x
  let t5 := SquareTorus t3
  let result := SquareTorus t5
  let t0 := SquareTorus result
  let t2 := MulTorus x t0
  let t0 := MulTorus t3 t2
  let t1 := MulTorus x t0
  let t4 := MulTorus result t2
  let t6 := SquareTorus t2
  let t1 := MulTorus t0 t1
  let t0 := MulTorus t3 t1
  let t6 := nSquareTorus SquareTorus t6 6
  let t5 := MulTorus t5 t6
  let t5 := MulTorus t4 t5
  let t5 := nSquareTorus SquareTorus t5 7
  let t4 := MulTorus t4 t5
  let t4 := nSquareTorus SquareTorus t4 8
  let t4 := MulTorus t0 t4
  let t3 := MulTorus t3 t4
  let t3 := nSquareTorus SquareTorus t3 6
  let t2 := MulTorus t2 t3
  let t2 := nSquareTorus SquareTorus t2 8
  let t2 := MulTorus t0 t2
  let t2 := nSquareTorus SquareTorus t2 6
  let t2 := MulTorus t0 t2
  let t2 := nSquareTorus SquareTorus t2 10
  let t1 := MulTorus t1 t2
  let t1 := nSquareTorus SquareTorus t1 6
  let t0 := MulTorus t0 t1
  let z := MulTorus result t0
  z

/-- The seed `t` of the curve, the exponent `ExptTorus` is documented to raise to. -/
def seed : ℕ := 4965661367192848881

/-- The type `E6`: an element `B0 + B1*v + B2*v^2` of the cubic extension of `E2` (the ring `R`)
by `v` with `v^3` the non-residue. -/
structure E6 (R : Type) where
  B0 : R
  B1 : R
  B2 : R
deriving DecidableEq, Repr

/-- The type `E12`: an element `C0 + C1*w` of the quadratic extension of `E6` by `w` with
`w^2 = v`. -/
structure E12 (R : Type) where
  C0 : E6 R
  C1 : E6 R
deriving DecidableEq, Repr

namespace Ext6

/-- Modelled from the spec: `Ext6.Add`, the sum of two elements of `E6`. -/
def Add {R : Type} [CommRing R] (x y : E6 R) : E6 R :=
  { B0 := x.B0 + y.B0, B1 := x.B1 + y.B1, B2 := x.B2 + y.B2 }

/-- Modelled from the spec: `Ext6.Neg`, the opposite of an element of `E6`. -/
def Neg {R : Type} [CommRing R] (x : E6 R) : E6 R :=
  { B0 := -x.B0, B1 := -x.B1, B2 := -x.B2 }

/-- The product of two elements of `E6`, where `v^3 = ξ`. -/
def Mul {R : Type} [CommRing R] (ξ : R) (x y : E6 R) : E6 R :=
  { B0 := x.B0 * y.B0 + ξ * (x.B1 * y.B2 + x.B2 * y.B1),
    B1 := x.B0 * y.B1 + x.B1 * y.B0 + ξ * (x.B2 * y.B2),
    B2 := x.B0 * y.B2 + x.B1 * y.B1 + x.B2 * y.B0 }

/-- Modelled from the spec: `Ext6.MulBy01`, the product of `z` and `c0 + c1*v`. -/
def MulBy01 {R : Type} [CommRing R] (ξ : R) (z : E6 R) (c0 c1 : R) : E6 R :=
  Mul ξ z { B0 := c0, B1 := c1, B2 := 0 }

/-- Modelled from the spec: `Ext6.MulByNonResidue`, the product of `x` and `v`. -/
def MulByNonResidue {R : Type} [CommRing R] (ξ : R) (x : E6 R) : E6 R :=
  Mul ξ x { B0 := 0, B1 := 1, B2 := 0 }

end Ext6

namespace Ext12

/-- The product of two elements of `E12`, where `w^2 = v`. -/
def Mul {R : Type} [CommRing R] (ξ : R) (x y : E12 R) : E12 R :=
  { C0 := Ext6.Add (Ext6.Mul ξ x.C0 y.C0) (Ext6.MulByNonResidue ξ (Ext6.Mul ξ x.C1 y.C1)),
    C1 := Ext6.Add (Ext6.Mul ξ x.C0 y.C1) (Ext6.Mul ξ x.C1 y.C0) }

/-- The method `MulBy034`: the product of `z` and the sparse element with `C0 = (1, 0, 0)` and
`C1 = (c3, c4, 0)`. -/
def MulBy034 {R : Type} [CommRing R] (ξ : R) (z : E12 R) (c3 c4 : R) : E12 R :=
  let a := z.C0
  let b := Ext6.MulBy01 ξ z.C1 c3 c4
  let c3 := 1 + c3
  let d := Ext6.Add z.C0 z.C1
  let d := Ext6.MulBy01 ξ d c3 c4
  let zC1 := Ext6.Add a b
  let zC1 := Ext6.Neg zC1
  let zC1 := Ext6.Add zC1 d
  let zC0 := Ext6.MulByNonResidue ξ b
  let zC0 := Ext6.Add zC0 a
  { C0 := zC0, C1 := zC1 }

/-- The sparse element of `E12` with `C0 = (1, 0, 0)` and `C1 = (c3, c4, 0)`. -/
def sparse034 {R : Type} [CommRing R] (c3 c4 : R) : E12 R :=
  { C0 := { B0 := 1, B1 := 0, B2 := 0 }, C1 := { B0 := c3, B1 := c4, B2 := 0 } }

end Ext12

/-! ## The specification side -/

/-- The coefficient of a term as the specification describes it: `0`, `1`, `-1` or `2` for a
fast-path term, the entry `CoeffID` of the coefficient table otherwise. -/
def termCoefficient {p : ℕ} (r1cs : R1CS p) (t : Term) : Except Fault (ZMod p) :=
  if t.CoeffValue = 1 then .ok 1
  else if t.CoeffValue = -1 then .ok (-1)
  else if t.CoeffValue = 0 then .ok 0
  else if t.CoeffValue = 2 then .ok 2
  else readAt r1cs.Coefficients t.CoeffID

/-- The specification of `AddTerm`: the accumulator plus the coefficient times the wire value,
with a general field multiplication. -/
def addTermSpec {p : ℕ} (r1cs : R1CS p) (res : ZMod p) (t : Term) (value : ZMod p) :
    Except Fault (ZMod p) :=
  match termCoefficient r1cs t with
  | .error e => .error e
  | .ok k => .ok (res + k * value)

/-- The wire table is partitioned as `[internal | secret | public]`: the two name lists have the
lengths `NbSecretWires` and `NbPublicWires`, and the input wires fit in the `NbWires` wires. -/
def WireTableOK {p : ℕ} (r1cs : R1CS p) : Prop :=
  r1cs.NbSecretWires = r1cs.SecretWires.length ∧ r1cs.NbPublicWires = r1cs.PublicWires.length ∧
    r1cs.NbSecretWires + r1cs.NbPublicWires ≤ r1cs.NbWires

/-- The names of the input wires in the order `Solve` binds them: secret, then public. -/
def inputNames {p : ℕ} (r1cs : R1CS p) : List String := r1cs.SecretWires ++ r1cs.PublicWires

/-- The index of the first input wire (the first secret wire). -/
def inputOffset {p : ℕ} (r1cs : R1CS p) : ℕ :=
  (r1cs.NbWires - r1cs.NbPublicWires - r1cs.NbSecretWires).toNat

/-- The value an input wire is bound to: one for the reserved name, else the conversion of what
the assignment gives for the name (nothing when the name is absent). -/
def inputValue {p : ℕ} (assignment : Assignment) (name : String) : Option (ZMod p) :=
  if name = OneWire then some 1 else (assignment name).map SetInterface

/-- The state `(wI1, wV1)` of the flags and the wire values extends the state `(wI, wV)`: the
vectors have the same lengths, and every wire marked in `wI` is marked in `wI1` and holds in
`wV1` the value it holds in `wV`. -/
def Extends {p : ℕ} (wI : List Bool) (wV : List (ZMod p)) (wI1 : List Bool)
    (wV1 : List (ZMod p)) : Prop :=
  wI1.length = wI.length ∧ wV1.length = wV.length ∧
    ∀ q : ℕ, wI[q]? = some true → wI1[q]? = some true ∧ wV1[q]? = wV[q]?

/-- The wire recorded by the scan of `solveR1C`, if any, is not marked. -/
def UnknownOK (wI : List Bool) (u : Unknown) : Prop :=
  u.loc ≠ 0 → wI[u.termToCompute.ConstraintID]? = some false

/-- The bit the `BinaryDec` loop reads at position `k` of `r.L` from the words `n`. -/
def wordBit (n : List ℕ) (k : ℕ) : ℕ := ((n[k / 64]?.getD 0) >>> (k % 64)) &&& 1

/-- Every wire of the terms `ts` is marked as having a value. -/
def Known (wI : List Bool) (ts : List Term) : Prop :=
  ∀ t ∈ ts, wI[t.ConstraintID]? = some true

instance Known.decidable (wI : List Bool) (ts : List Term) : Decidable (Known wI ts) :=
  inferInstanceAs (Decidable (∀ t ∈ ts, wI[t.ConstraintID]? = some true))

/-- The flags and the wire values before the main loop visits constraint `k`, when the loop
starts from `(wI0, wV0)` and goes on whatever the checks say: the state after the solving steps
of the constraints before `k`. -/
def stateBefore {p : ℕ} (limbs : ℕ) (r1cs : R1CS p) (wI0 : List Bool) (wV0 : List (ZMod p)) :
    ℕ → Except Fault (List Bool × List (ZMod p))
  | 0 => .ok (wI0, wV0)
  | k + 1 =>
    match stateBefore limbs r1cs wI0 wV0 k with
    | .error e => .error e
    | .ok (wI, wV) =>
      match r1cs.Constraints[k]? with
      | none => .ok (wI, wV)
      | some r => solveComputed limbs r1cs k r wI wV

/-- The evaluated triple of constraint `k`: the values of its `L`, `R`, `O` on the wire values
left by the solving steps of the constraints up to `k`. -/
def evaluatedTriple {p : ℕ} (limbs : ℕ) (r1cs : R1CS p) (wI0 : List Bool) (wV0 : List (ZMod p))
    (k : ℕ) : Except Fault (ZMod p × ZMod p × ZMod p) :=
  match stateBefore limbs r1cs wI0 wV0 (k + 1) with
  | .error e => .error e
  | .ok (_, wV) =>
    match r1cs.Constraints[k]? with
    | none => .error .indexOutOfRange
    | some r => instantiateR1C r r1cs wV

/-- The state `(wI, wV)` agrees with the wire vector `w`: the three vectors have the same length
and every marked wire holds in `wV` the value it has in `w`. -/
def Agree {p : ℕ} (wI : List Bool) (wV w : List (ZMod p)) : Prop :=
  wI.length = wV.length ∧ w.length = wV.length ∧
    ∀ q : ℕ, wI[q]? = some true → wV[q]? = w[q]?

/-- The linear expression `pre ++ t :: post` has exactly one term on a wire without a value, the
term `t`, and the coefficient of `t` is the fast-path `1` or `-1`. -/
def OneUnknown (wI : List Bool) (pre : List Term) (t : Term) (post : List Term) : Prop :=
  Known wI pre ∧ Known wI post ∧ wI[t.ConstraintID]? = some false ∧
    (t.CoeffValue = 1 ∨ t.CoeffValue = -1)

/-- The conditions under which the solving step of constraint `r`, visited with the flags `wI`,
computes the values the wire vector `w` has.
* `SingleOutput`: every term is on a wire with a value; or exactly one term is not, its
  coefficient is `1` or `-1`, and when it is in `L` (in `R`) the value of `R` (of `L`) on `w` is
  not zero.
* `BinaryDec`: `O` starts with a term on a wire with a value, `L` lists pairwise distinct wires,
  no more of them than the limbs have bits, and `w` holds bit `j` of that value in every wire of
  `L` at a position `j` that has no value yet.
* No other strategy. -/
def StepOK {p : ℕ} (limbs : ℕ) (r1cs : R1CS p) (w : List (ZMod p)) (r : R1C)
    (wI : List Bool) : Prop :=
  match r.Solver with
  | .SingleOutput =>
    (Known wI r.L ∧ Known wI r.R ∧ Known wI r.O) ∨
    (∃ pre t post, r.L = pre ++ t :: post ∧ OneUnknown wI pre t post ∧ Known wI r.R ∧
      Known wI r.O ∧ accumulate r1cs w r.R 0 ≠ .ok 0) ∨
    (∃ pre t post, r.R = pre ++ t :: post ∧ OneUnknown wI pre t post ∧ Known wI r.L ∧
      Known wI r.O ∧ accumulate r1cs w r.L 0 ≠ .ok 0) ∨
    (∃ pre t post, r.O = pre ++ t :: post ∧ OneUnknown wI pre t post ∧ Known wI r.L ∧
      Known wI r.R)
  | .BinaryDec =>
    ∃ o os n, r.O = o :: os ∧ wI[o.ConstraintID]? = some true ∧ w[o.ConstraintID]? = some n ∧
      r.L.length ≤ 64 * limbs ∧ (∀ t ∈ r.L, t.ConstraintID < wI.length) ∧
      (r.L.map Term.ConstraintID).Nodup ∧
      ∀ j t, r.L[j]? = some t → wI[t.ConstraintID]? = some false →
        w[t.ConstraintID]? = some ((n.val / 2 ^ j % 2 : ℕ) : ZMod p)
  | .unimplemented => False

/-- The wire vector `w` satisfies constraint `r`: its three linear expressions evaluate on `w`,
and the product of the first two values is the third. -/
def Satisfies {p : ℕ} (r1cs : R1CS p) (w : List (ZMod p)) (r : R1C) : Prop :=
  ∃ x y z, instantiateR1C r r1cs w = .ok (x, y, z) ∧ x * y = z

/-- The terms of `L`, `R`, `O` that are on a wire without a value, in the order of the scan. -/
def unknownTerms (wI : List Bool) (r : R1C) : List Term :=
  (r.L ++ r.R ++ r.O).filter fun t => wI[t.ConstraintID]? = some false

/-- The wires without a value that the terms of `L`, `R`, `O` reference, each listed once. -/
def unknownWires (wI : List Bool) (r : R1C) : List ℕ :=
  ((unknownTerms wI r).map Term.ConstraintID).dedup

/-- The terms `ts` are well formed: their wires are below `n` and their coefficients exist. -/
def TermsValid {p : ℕ} (r1cs : R1CS p) (n : ℕ) (ts : List Term) : Prop :=
  ∀ t ∈ ts, t.ConstraintID < n ∧ ∃ k, termCoefficient r1cs t = .ok k

/-- All the debug tags of the circuit, in the order `Inspect` reads them. -/
def allTags {p : ℕ} (r1cs : R1CS p) : List String := (r1cs.WireTags.map Prod.snd).flatten

/-! ## Concrete circuits -/

/-- The modulus of the scalar field of the curve BN256, one of the curves the template is
instantiated for; an element takes four words of 64 bits. -/
def frModulus : ℕ :=
  21888242871839275222246405745257275088548364400416034343698204186575808495617

/-- The circuit `x * x = y` on the wires `[y | x | ONE_WIRE]`: `y` is internal and computed by
the only constraint, `x` is the secret input; a log entry prints `y`. -/
def squareR1CS : R1CS frModulus :=
  { NbWires := 3, NbPublicWires := 1, NbSecretWires := 1,
    SecretWires := ["x"], PublicWires := ["ONE_WIRE"],
    Logs := [{ Format := "y = %s", ToResolve := [0] }],
    NbConstraints := 1, NbCOConstraints := 1,
    Constraints := [{ L := [⟨1, 1, 0⟩], R := [⟨1, 1, 0⟩], O := [⟨0, 1, 0⟩],
                      Solver := .SingleOutput }],
    Coefficients := [] }

/-- The assignment `x = 3`. -/
def squareAssignment : Assignment := fun name => if name = "x" then some 3 else none

/-- The circuit `x * z = y` on the wires `[y | x, z | ONE_WIRE]`, with two secret inputs. -/
def productR1CS : R1CS frModulus :=
  { NbWires := 4, NbPublicWires := 1, NbSecretWires := 2,
    SecretWires := ["x", "z"], PublicWires := ["ONE_WIRE"], Logs := [],
    NbConstraints := 1, NbCOConstraints := 1,
    Constraints := [{ L := [⟨1, 1, 0⟩], R := [⟨2, 1, 0⟩], O := [⟨0, 1, 0⟩],
                      Solver := .SingleOutput }],
    Coefficients := [] }

/-- The empty assignment. -/
def emptyAssignment : Assignment := fun _ => none

/-- What `Solve` leaves on `squareR1CS` with `x = 3`. -/
def squareResult : SolveResult frModulus :=
  { err := none,
    buffers := { a := [3], b := [3], c := [9], wireValues := [9, 3, 1],
                 wireInstantiated := [true, true, true] },
    logs := some [("y = %s", ["9"])] }

/-- The constraint `x * 1 = 2 * y`, to be solved for `y`: the term of `y` has the fast-path
coefficient two. -/
def doubleConstraint : R1C :=
  { L := [⟨1, 1, 0⟩], R := [⟨2, 1, 0⟩], O := [⟨0, 2, 0⟩], Solver := .SingleOutput }

/-- The circuit of `doubleConstraint` alone on the wires `[y | x | ONE_WIRE]`. -/
def doubleR1CS : R1CS frModulus :=
  { NbWires := 3, NbPublicWires := 1, NbSecretWires := 1,
    SecretWires := ["x"], PublicWires := ["ONE_WIRE"], Logs := [],
    NbConstraints := 1, NbCOConstraints := 1,
    Constraints := [doubleConstraint], Coefficients := [] }

/-- The assignment `x = 6`. -/
def doubleAssignment : Assignment := fun name => if name = "x" then some 6 else none

/-- The constraint `(y + 1) * x = 0`, to be solved for `y`, the first term of `L`. -/
def zeroConstraint : R1C :=
  { L := [⟨0, 1, 0⟩, ⟨2, 1, 0⟩], R := [⟨1, 1, 0⟩], O := [], Solver := .SingleOutput }

/-- The constraint `x * (y + 1) = 0`, to be solved for `y`, the first term of `R`. -/
def zeroConstraintR : R1C :=
  { L := [⟨1, 1, 0⟩], R := [⟨0, 1, 0⟩, ⟨2, 1, 0⟩], O := [], Solver := .SingleOutput }

/-- The circuit of `zeroConstraint` alone on the wires `[y | x | ONE_WIRE]`. -/
def zeroR1CS : R1CS frModulus :=
  { NbWires := 3, NbPublicWires := 1, NbSecretWires := 1,
    SecretWires := ["x"], PublicWires := ["ONE_WIRE"], Logs := [],
    NbConstraints := 1, NbCOConstraints := 1,
    Constraints := [zeroConstraint], Coefficients := [] }

/-- The constraint `(b0 + 2*b1 + 4*b2) * 1 = n` of a decomposition of `n` into three bits, on
the wires `[b0, b1, b2 | n | ONE_WIRE]`; `2` is a fast-path coefficient and `4` is entry `0` of
the coefficient table. -/
def bitsConstraint : R1C :=
  { L := [⟨0, 1, 0⟩, ⟨1, 2, 0⟩, ⟨2, 3, 0⟩], R := [⟨4, 1, 0⟩], O := [⟨3, 1, 0⟩],
    Solver := .BinaryDec }

/-- The circuit of `bitsConstraint` alone. -/
def bitsR1CS : R1CS frModulus :=
  { NbWires := 5, NbPublicWires := 1, NbSecretWires := 1,
    SecretWires := ["n"], PublicWires := ["ONE_WIRE"], Logs := [],
    NbConstraints := 1, NbCOConstraints := 1,
    Constraints := [bitsConstraint], Coefficients := [4] }

/-- A result of `CoeffValue()` that is none of the fast-path values: the coefficient of such a term
is looked up in the coefficient table. -/
def noSpecialValue : ℤ := 9223372036854775807

/-- The circuit `x * x = y` followed by the check `y * 1 = 10`, on the wires `[y | x | ONE_WIRE]`;
the first constraint computes `y`, the second one is only checked; a log entry prints `y`. -/
def checkR1CS : R1CS frModulus :=
  { NbWires := 3, NbPublicWires := 1, NbSecretWires := 1,
    SecretWires := ["x"], PublicWires := ["ONE_WIRE"],
    Logs := [{ Format := "y = %s", ToResolve := [0] }],
    NbConstraints := 2, NbCOConstraints := 1,
    Constraints := [{ L := [⟨1, 1, 0⟩], R := [⟨1, 1, 0⟩], O := [⟨0, 1, 0⟩],
                      Solver := .SingleOutput },
                    { L := [⟨0, 1, 0⟩], R := [⟨2, 1, 0⟩], O := [⟨2, noSpecialValue, 0⟩],
                      Solver := .SingleOutput }],
    Coefficients := [10] }

/-- The circuit `inv * x = 1`, `inv * inv = y` on the wires `[inv, y | x | ONE_WIRE]`: the first
constraint computes `inv`, the second one `y`; a log entry prints `y`. -/
def inverseR1CS : R1CS frModulus :=
  { NbWires := 4, NbPublicWires := 1, NbSecretWires := 1,
    SecretWires := ["x"], PublicWires := ["ONE_WIRE"],
    Logs := [{ Format := "y = %s", ToResolve := [1] }],
    NbConstraints := 2, NbCOConstraints := 2,
    Constraints := [{ L := [⟨0, 1, 0⟩], R := [⟨2, 1, 0⟩], O := [⟨3, 1, 0⟩],
                      Solver := .SingleOutput },
                    { L := [⟨0, 1, 0⟩], R := [⟨0, 1, 0⟩], O := [⟨1, 1, 0⟩],
                      Solver := .SingleOutput }],
    Coefficients := [] }

/-- The assignment `x = 0`. -/
def zeroAssignment : Assignment := fun name => if name = "x" then some 0 else none

/-- The circuit `y * x = 0` followed by the check `y * 1 = 5`, on the wires
`[y | x | ONE_WIRE]`: the first constraint is the one that computes `y`, the second one is only
checked; `5` is entry `0` of the coefficient table. -/
def guardR1CS : R1CS frModulus :=
  { NbWires := 3, NbPublicWires := 1, NbSecretWires := 1,
    SecretWires := ["x"], PublicWires := ["ONE_WIRE"], Logs := [],
    NbConstraints := 2, NbCOConstraints := 1,
    Constraints := [{ L := [⟨0, 1, 0⟩], R := [⟨1, 1, 0⟩], O := [], Solver := .SingleOutput },
                    { L := [⟨0, 1, 0⟩], R := [⟨2, 1, 0⟩], O := [⟨2, noSpecialValue, 0⟩],
                      Solver := .SingleOutput }],
    Coefficients := [5] }

/-- A small prime modulus, for circuits on which the theorems that need a field are applied. -/
def smallModulus : ℕ := 101

instance smallModulus_prime : Fact (Nat.Prime smallModulus) := ⟨by unfold smallModulus; norm_num⟩

/-- The circuit `x * x = y` followed by the check `y * 1 = 9`, on the wires `[y | x | ONE_WIRE]`
over the small field; a log entry prints `y`. -/
def smallR1CS : R1CS smallModulus :=
  { NbWires := 3, NbPublicWires := 1, NbSecretWires := 1,
    SecretWires := ["x"], PublicWires := ["ONE_WIRE"],
    Logs := [{ Format := "y = %s", ToResolve := [0] }],
    NbConstraints := 2, NbCOConstraints := 1,
    Constraints := [{ L := [⟨1, 1, 0⟩], R := [⟨1, 1, 0⟩], O := [⟨0, 1, 0⟩],
                      Solver := .SingleOutput },
                    { L := [⟨0, 1, 0⟩], R := [⟨2, 1, 0⟩], O := [⟨2, noSpecialValue, 0⟩],
                      Solver := .SingleOutput }],
    Coefficients := [9] }

/-- The circuit `x * x = y` on the wires `[x | ONE_WIRE, y]`: `x` is the secret input and `y` a
public input; the constraint is only checked. -/
def publicSquareR1CS : R1CS frModulus :=
  { NbWires := 3, NbPublicWires := 2, NbSecretWires := 1,
    SecretWires := ["x"], PublicWires := ["ONE_WIRE", "y"], Logs := [],
    NbConstraints := 1, NbCOConstraints := 0,
    Constraints := [{ L := [⟨0, 1, 0⟩], R := [⟨0, 1, 0⟩], O := [⟨2, 1, 0⟩],
                      Solver := .SingleOutput }],
    Coefficients := [] }

/-- The assignment `x = 3`, `y = 9`. -/
def squareFullAssignment : Assignment :=
  fun name => if name = "x" then some 3 else if name = "y" then some 9 else none

/-- The circuit `inv * x = 1` on the wires `[inv | x | ONE_WIRE]` over the small field. -/
def smallInverseR1CS : R1CS smallModulus :=
  { NbWires := 3, NbPublicWires := 1, NbSecretWires := 1,
    SecretWires := ["x"], PublicWires := ["ONE_WIRE"], Logs := [],
    NbConstraints := 1, NbCOConstraints := 1,
    Constraints := [{ L := [⟨0, 1, 0⟩], R := [⟨1, 1, 0⟩], O := [⟨2, 1, 0⟩],
                      Solver := .SingleOutput }],
    Coefficients := [] }

/-- The constraint `inv * x = 1`, to be solved for `inv`, the term of `L`. -/
def inverseConstraint : R1C :=
  { L := [⟨0, 1, 0⟩], R := [⟨1, 1, 0⟩], O := [⟨2, 1, 0⟩], Solver := .SingleOutput }

/-- The constraint `x * x = y` on the wires `[y | x | ONE_WIRE]`, visited when `y` has a value
and `x` has none. -/
def squareRootConstraint : R1C :=
  { L := [⟨1, 1, 0⟩], R := [⟨1, 1, 0⟩], O := [⟨0, 1, 0⟩], Solver := .SingleOutput }

/-- The circuit `x * 1 = 4`, `x * x = y` on the wires `[y | x | ONE_WIRE]`: both constraints are
in the computed prefix, the first one has no wire to compute, the second one computes `y`; a log
entry prints `y`; `4` is entry `0` of the coefficient table. -/
def assertR1CS : R1CS frModulus :=
  { NbWires := 3, NbPublicWires := 1, NbSecretWires := 1,
    SecretWires := ["x"], PublicWires := ["ONE_WIRE"],
    Logs := [{ Format := "y = %s", ToResolve := [0] }],
    NbConstraints := 2, NbCOConstraints := 2,
    Constraints := [{ L := [⟨1, 1, 0⟩], R := [⟨2, 1, 0⟩], O := [⟨2, noSpecialValue, 0⟩],
                      Solver := .SingleOutput },
                    { L := [⟨1, 1, 0⟩], R := [⟨1, 1, 0⟩], O := [⟨0, 1, 0⟩],
                      Solver := .SingleOutput }],
    Coefficients := [4] }

/-- The circuit `assertR1CS` without its log, with the tag `in` on the wire of `x` and the tag
`out` on the wire of `y`. -/
def taggedR1CS : R1CS frModulus :=
  { assertR1CS with Logs := [], WireTags := [(1, ["in"]), (0, ["out"])] }

/-- The circuit `assertR1CS` without its log, with the tag `t` on two wires. -/
def clashR1CS : R1CS frModulus :=
  { assertR1CS with Logs := [], WireTags := [(0, ["t"]), (1, ["t"])] }

/-- A `BinaryDec` constraint with `257` terms in `L`, on the wires `0` to `256`, and the
decomposed wire `257`: one term more than the `256` bits of four words. -/
def wideConstraint : R1C :=
  { L := (List.range 257).map fun i => ⟨i, 1, 0⟩, R := [⟨258, 1, 0⟩], O := [⟨257, 1, 0⟩],
    Solver := .BinaryDec }

/-- The circuit of `wideConstraint` alone, on `259` wires. -/
def wideR1CS : R1CS frModulus :=
  { NbWires := 259, NbPublicWires := 1, NbSecretWires := 1,
    SecretWires := ["n"], PublicWires := ["ONE_WIRE"], Logs := [],
    NbConstraints := 1, NbCOConstraints := 1,
    Constraints := [wideConstraint], Coefficients := [] }

/-! ## Slices: basic facts -/

theorem readAt_eq_ok {α : Type} {l : List α} {i : ℕ} {v : α} :
    readAt l i = .ok v ↔ l[i]? = some v := by
  unfold readAt
  cases h : l[i]? <;> simp

theorem readAt_of_getElem? {α : Type} {l : List α} {i : ℕ} {v : α} (h : l[i]? = some v) :
    readAt l i = .ok v := readAt_eq_ok.2 h

theorem readAt_eq_error {α : Type} {l : List α} {i : ℕ} {e : Fault} :
    readAt l i = .error e ↔ l.length ≤ i ∧ e = .indexOutOfRange := by
  unfold readAt
  cases h : l[i]? with
  | none =>
    have := List.getElem?_eq_none_iff.1 h
    simp [this, eq_comm]
  | some v =>
    have : i < l.length := by
      by_contra hc
      rw [List.getElem?_eq_none (by omega)] at h
      cases h
    simp
    intro h1
    omega

theorem writeAt_eq_ok {α : Type} {l l1 : List α} {i : ℕ} {v : α} :
    writeAt l i v = .ok l1 ↔ i < l.length ∧ l1 = l.set i v := by
  unfold writeAt
  by_cases h : i < l.length <;> simp [h, eq_comm]

theorem writeAt_of_lt {α : Type} {l : List α} {i : ℕ} (v : α) (h : i < l.length) :
    writeAt l i v = .ok (l.set i v) := by
  simp [writeAt, h]

theorem writeAtInt_eq_ok {α : Type} {l l1 : List α} {i : ℤ} {v : α} :
    writeAtInt l i v = .ok l1 ↔ 0 ≤ i ∧ i.toNat < l.length ∧ l1 = l.set i.toNat v := by
  unfold writeAtInt
  by_cases h : 0 ≤ i <;> simp [h, writeAt_eq_ok]

/-! ## AddTerm -/

/-- The method `AddTerm` adds the coefficient of the term times the value. -/
theorem AddTerm_eq {p : ℕ} (r1cs : R1CS p) (res : ZMod p) (t : Term) (value : ZMod p) :
    AddTerm r1cs res t value =
      match termCoefficient r1cs t with
      | .error e => .error e
      | .ok k => .ok (res + k * value) := by
  unfold AddTerm termCoefficient
  split_ifs with h1 h2 h3 h4
  · simp
  · simp [sub_eq_add_neg]
  · simp
  · rfl
  · unfold readAt
    cases r1cs.Coefficients[t.CoeffID]? <;> rfl

/-- Claim C7.  `AddTerm` refines its specification: for every accumulator, term and wire value,
the fast paths (no-op, add, subtract, double-then-add) and the table path return the accumulator
plus the coefficient of the term times the value, computed with a general multiplication; the two
abort together when the term has no fast-path value and its `CoeffID` is outside the table. -/
theorem AddTerm_eq_addTermSpec {p : ℕ} (r1cs : R1CS p) (res : ZMod p) (t : Term)
    (value : ZMod p) : AddTerm r1cs res t value = addTermSpec r1cs res t value := by
  unfold AddTerm addTermSpec termCoefficient
  by_cases h1 : t.CoeffValue = 1
  · simp [h1]
  by_cases h2 : t.CoeffValue = -1
  · simp [h2, sub_eq_add_neg]
  by_cases h3 : t.CoeffValue = 0
  · simp [h3]
  by_cases h4 : t.CoeffValue = 2
  · simp [h4]
  simp only [h1, h2, h3, h4, if_false, readAt]
  cases r1cs.Coefficients[t.CoeffID]? <;> rfl

/-! ## The main loop -/

/-- What one turn of the main loop does when it does not abort. -/
theorem solveStep_ok {p : ℕ} {limbs : ℕ} {r1cs : R1CS p} {i : ℕ} {r : R1C} {s s1 : Buffers p}
    {e : Option SolveError} (h : solveStep limbs r1cs i r s = .ok (e, s1)) :
    ∃ va vb vc,
      solveComputed limbs r1cs i r s.wireInstantiated s.wireValues
        = .ok (s1.wireInstantiated, s1.wireValues) ∧
      instantiateR1C r r1cs s1.wireValues = .ok (va, vb, vc) ∧
      i < s.a.length ∧ i < s.b.length ∧ i < s.c.length ∧
      s1.a = s.a.set i va ∧ s1.b = s.b.set i vb ∧ s1.c = s.c.set i vc ∧
      ((va * vb = vc ∧ e = none) ∨
        (va * vb ≠ vc ∧ e = some (.unsatisfiedConstraint (ElementString va) (ElementString vb)
          (ElementString vc)))) := by
  unfold solveStep at h
  cases h1 : solveComputed limbs r1cs i r s.wireInstantiated s.wireValues with
  | error e1 => simp [h1] at h
  | ok w =>
    obtain ⟨wI1, wV1⟩ := w
    simp only [h1] at h
    cases h2 : instantiateR1C r r1cs wV1 with
    | error e2 => simp [h2] at h
    | ok tr =>
      obtain ⟨va, vb, vc⟩ := tr
      simp only [h2] at h
      cases h3 : writeAt s.a i va with
      | error e3 => simp [h3] at h
      | ok a1 =>
        simp only [h3] at h
        cases h4 : writeAt s.b i vb with
        | error e4 => simp [h4] at h
        | ok b1 =>
          simp only [h4] at h
          cases h5 : writeAt s.c i vc with
          | error e5 => simp [h5] at h
          | ok c1 =>
            simp only [h5] at h
            obtain ⟨ha, rfl⟩ := writeAt_eq_ok.1 h3
            obtain ⟨hb, rfl⟩ := writeAt_eq_ok.1 h4
            obtain ⟨hc, rfl⟩ := writeAt_eq_ok.1 h5
            refine ⟨va, vb, vc, ?_⟩
            by_cases hprod : va * vb = vc
            · simp only [hprod, ne_eq, not_true_eq_false, if_false, Except.ok.injEq,
                Prod.mk.injEq] at h
              obtain ⟨rfl, rfl⟩ := h
              simp [h2, ha, hb, hc, hprod]
            · simp only [ne_eq, hprod, not_false_eq_true, if_true, Except.ok.injEq,
                Prod.mk.injEq] at h
              obtain ⟨rfl, rfl⟩ := h
              simp [h2, ha, hb, hc, hprod]

/-- The main loop unfolds one turn at a time. -/
theorem solveLoop_cons {p : ℕ} (limbs : ℕ) (r1cs : R1CS p) (i : ℕ) (r : R1C) (rest : List R1C)
    (s : Buffers p) :
    solveLoop limbs r1cs i (r :: rest) s =
      match solveStep limbs r1cs i r s with
      | .error e => .error e
      | .ok (some err, s1) => .ok (some err, s1)
      | .ok (none, s1) => solveLoop limbs r1cs (i + 1) rest s1 := rfl

/-- The main loop returns no error or the error of an unsatisfied constraint. -/
theorem solveLoop_err {p : ℕ} {limbs : ℕ} {r1cs : R1CS p} :
    ∀ (rs : List R1C) (i : ℕ) (s s1 : Buffers p) (e : Option SolveError),
      solveLoop limbs r1cs i rs s = .ok (e, s1) →
      e = none ∨ ∃ x y z, e = some (.unsatisfiedConstraint x y z) := by
  intro rs
  induction rs with
  | nil =>
    intro i s s1 e h
    simp only [solveLoop, Except.ok.injEq, Prod.mk.injEq] at h
    exact Or.inl h.1.symm
  | cons r rest ih =>
    intro i s s1 e h
    rw [solveLoop_cons] at h
    cases h1 : solveStep limbs r1cs i r s with
    | error e1 => simp [h1] at h
    | ok w =>
      obtain ⟨e2, s2⟩ := w
      obtain ⟨va, vb, vc, -, -, -, -, -, -, -, -, hcase⟩ := solveStep_ok h1
      rcases hcase with ⟨-, rfl⟩ | ⟨-, rfl⟩
      · simp only [h1] at h
        exact ih _ _ _ _ h
      · simp only [h1, Except.ok.injEq, Prod.mk.injEq] at h
        exact Or.inr ⟨_, _, _, h.1.symm⟩

/-- A run of the main loop that finds every constraint satisfied leaves the lengths of `a`, `b`,
`c` as they were, does not touch the entries below the start index, and leaves in every entry it
visited a triple whose product holds. -/
theorem solveLoop_none {p : ℕ} {limbs : ℕ} {r1cs : R1CS p} :
    ∀ (rs : List R1C) (i : ℕ) (s s1 : Buffers p),
      solveLoop limbs r1cs i rs s = .ok (none, s1) →
      (s1.a.length = s.a.length ∧ s1.b.length = s.b.length ∧ s1.c.length = s.c.length) ∧
      (∀ j, j < i → s1.a[j]? = s.a[j]? ∧ s1.b[j]? = s.b[j]? ∧ s1.c[j]? = s.c[j]?) ∧
      (∀ j, i ≤ j → j < i + rs.length →
        ∃ x y z, s1.a[j]? = some x ∧ s1.b[j]? = some y ∧ s1.c[j]? = some z ∧ x * y = z) := by
  intro rs
  induction rs with
  | nil =>
    intro i s s1 h
    simp only [solveLoop, Except.ok.injEq, Prod.mk.injEq, true_and] at h
    subst h
    refine ⟨⟨rfl, rfl, rfl⟩, fun j _ => ⟨rfl, rfl, rfl⟩, ?_⟩
    intro j h1 h2
    simp at h2
    omega
  | cons r rest ih =>
    intro i s s1 h
    rw [solveLoop_cons] at h
    cases h1 : solveStep limbs r1cs i r s with
    | error e1 => simp [h1] at h
    | ok w =>
      obtain ⟨e2, s2⟩ := w
      obtain ⟨va, vb, vc, -, -, ha, hb, hc, ea, eb, ec, hcase⟩ := solveStep_ok h1
      rcases hcase with ⟨hprod, rfl⟩ | ⟨-, rfl⟩
      · simp only [h1] at h
        obtain ⟨⟨la, lb, lc⟩, hlow, hhigh⟩ := ih _ _ _ h
        refine ⟨⟨?_, ?_, ?_⟩, ?_, ?_⟩
        · rw [la, ea, List.length_set]
        · rw [lb, eb, List.length_set]
        · rw [lc, ec, List.length_set]
        · intro j hj
          obtain ⟨h1a, h1b, h1c⟩ := hlow j (by omega)
          rw [h1a, h1b, h1c, ea, eb, ec]
          have hne : i ≠ j := by omega
          simp [List.getElem?_set_ne hne]
        · intro j hj1 hj2
          by_cases hji : j = i
          · subst hji
            obtain ⟨h1a, h1b, h1c⟩ := hlow j (by omega)
            refine ⟨va, vb, vc, ?_, ?_, ?_, hprod⟩
            · rw [h1a, ea, List.getElem?_set_self ha]
            · rw [h1b, eb, List.getElem?_set_self hb]
            · rw [h1c, ec, List.getElem?_set_self hc]
          · apply hhigh j (by omega)
            simp only [List.length_cons] at hj2
            omega
      · simp [h1] at h

/-! ## Input binding -/

theorem instantiateInputs_cons {p : ℕ} (assignment : Assignment) (offset : ℤ) (i : ℕ)
    (name : String) (rest : List String) (wI : List Bool) (wV : List (ZMod p)) :
    instantiateInputs assignment offset i (name :: rest) wI wV =
      match inputValue assignment name with
      | none => .ok (some name, wI, wV)
      | some v =>
        match writeAtInt wV (i + offset) v with
        | .error e => .error e
        | .ok wV1 =>
          match writeAtInt wI (i + offset) true with
          | .error e => .error e
          | .ok wI1 => instantiateInputs assignment offset (i + 1) rest wI1 wV1 := by
  rw [instantiateInputs]
  unfold inputValue
  by_cases h : name = OneWire
  · simp only [h, if_true]
  · simp only [h, if_false]
    cases assignment name <;> rfl

/-- Binding a list of names that is the concatenation of two lists binds the first list, then the
second one from the position the first one ended at. -/
theorem instantiateInputs_append {p : ℕ} (assignment : Assignment) (offset : ℤ) :
    ∀ (xs ys : List String) (i : ℕ) (wI : List Bool) (wV : List (ZMod p)),
    instantiateInputs assignment offset i (xs ++ ys) wI wV =
      match instantiateInputs assignment offset i xs wI wV with
      | .error e => .error e
      | .ok (some name, wI1, wV1) => .ok (some name, wI1, wV1)
      | .ok (none, wI1, wV1) => instantiateInputs assignment offset (i + xs.length) ys wI1 wV1 := by
  intro xs
  induction xs with
  | nil => intro ys i wI wV; simp [instantiateInputs]
  | cons x xs ih =>
    intro ys i wI wV
    rw [List.cons_append, instantiateInputs_cons, instantiateInputs_cons]
    cases inputValue (p := p) assignment x with
    | none => rfl
    | some v =>
      simp only
      cases writeAtInt wV (i + offset) v with
      | error e => rfl
      | ok wV1 =>
        simp only
        cases writeAtInt wI (i + offset) true with
        | error e => rfl
        | ok wI1 =>
          simp only
          rw [ih]
          have : i + 1 + xs.length = i + (x :: xs).length := by simp; omega
          rw [this]

/-- Only the sum of the position and the offset matters. -/
theorem instantiateInputs_shift {p : ℕ} (assignment : Assignment) (offset : ℤ) (k : ℕ) :
    ∀ (ys : List String) (i : ℕ) (wI : List Bool) (wV : List (ZMod p)),
    instantiateInputs assignment offset (i + k) ys wI wV =
      instantiateInputs assignment (offset + k) i ys wI wV := by
  intro ys
  induction ys with
  | nil => intro i wI wV; simp [instantiateInputs]
  | cons y ys ih =>
    intro i wI wV
    rw [instantiateInputs_cons, instantiateInputs_cons]
    have e1 : ((i + k : ℕ) : ℤ) + offset = (i : ℤ) + (offset + k) := by push_cast; ring
    rw [e1]
    have e2 : i + k + 1 = (i + 1) + k := by omega
    rw [e2]
    cases inputValue (p := p) assignment y with
    | none => rfl
    | some v =>
      simp only
      cases writeAtInt wV (i + (offset + k)) v with
      | error e => rfl
      | ok wV1 =>
        simp only
        cases writeAtInt wI (i + (offset + k)) true with
        | error e => rfl
        | ok wI1 =>
          simp only
          rw [ih]

/-- With a well-formed wire table, the two binding passes of `Solve` are one pass over the secret
names followed by the public names, from the first input wire on. -/
theorem bindInputs_eq {p : ℕ} (r1cs : R1CS p) (hwt : WireTableOK r1cs) (assignment : Assignment)
    (wI : List Bool) (wV : List (ZMod p)) :
    bindInputs r1cs assignment wI wV =
      instantiateInputs assignment (inputOffset r1cs) 0 (inputNames r1cs) wI wV := by
  obtain ⟨hs, hp, hle⟩ := hwt
  have hoff : ((inputOffset r1cs : ℕ) : ℤ) = r1cs.NbWires - r1cs.NbPublicWires - r1cs.NbSecretWires := by
    unfold inputOffset
    rw [Int.toNat_of_nonneg]
    omega
  unfold bindInputs inputNames
  rw [instantiateInputs_append, hoff]
  have hpub : r1cs.NbWires - r1cs.NbPublicWires =
      r1cs.NbWires - r1cs.NbPublicWires - r1cs.NbSecretWires + (r1cs.SecretWires.length : ℕ) := by
    rw [hs]; ring
  by_cases h0 : r1cs.NbSecretWires = 0
  · have hnil : r1cs.SecretWires = [] := by
      rw [h0] at hs
      have : r1cs.SecretWires.length = 0 := by omega
      exact List.length_eq_zero.1 this
    simp only [h0, ne_eq, not_true_eq_false, if_false, hnil, instantiateInputs, sub_zero,
      List.length_nil, add_zero]
  · simp only [ne_eq, h0, not_false_eq_true, if_true]
    cases instantiateInputs assignment
        (r1cs.NbWires - r1cs.NbPublicWires - r1cs.NbSecretWires) 0 r1cs.SecretWires wI wV with
    | error e => rfl
    | ok w =>
      obtain ⟨o, wI1, wV1⟩ := w
      cases o with
      | some name => rfl
      | none =>
        simp only
        rw [instantiateInputs_shift, ← hpub]

theorem writeAtInt_natCast {α : Type} (l : List α) (i off : ℕ) (v : α) :
    writeAtInt l ((i : ℤ) + (off : ℤ)) v = writeAt l (i + off) v := by
  unfold writeAtInt
  have h : (0 : ℤ) ≤ (i : ℤ) + (off : ℤ) := by omega
  rw [if_pos h]
  congr 1

theorem inputValue_eq_none {p : ℕ} {assignment : Assignment} {name : String} :
    inputValue (p := p) assignment name = none ↔ name ≠ OneWire ∧ assignment name = none := by
  unfold inputValue
  by_cases h : name = OneWire
  · simp [h]
  · simp [h]

/-- Binding does not abort when the wires of the names lie inside the two vectors. -/
theorem instantiateInputs_total {p : ℕ} (assignment : Assignment) (off : ℕ) :
    ∀ (names : List String) (i : ℕ) (wI : List Bool) (wV : List (ZMod p)),
      i + off + names.length ≤ wV.length → wI.length = wV.length →
      ∃ res, instantiateInputs assignment (off : ℤ) i names wI wV = .ok res := by
  intro names
  induction names with
  | nil => intro i wI wV _ _; exact ⟨_, rfl⟩
  | cons n rest ih =>
    intro i wI wV hlen heq
    rw [instantiateInputs_cons]
    simp only [List.length_cons] at hlen
    cases inputValue (p := p) assignment n with
    | none => exact ⟨_, rfl⟩
    | some v =>
      simp only [writeAtInt_natCast]
      rw [writeAt_of_lt v (by omega), writeAt_of_lt true (by omega)]
      simp only
      apply ih
      · rw [List.length_set]; omega
      · rw [List.length_set, List.length_set]; exact heq

/-- What binding leaves behind when it does not abort: a prefix of the names is bound, each wire
of the prefix holds the value of its name and is marked, every other wire and flag is as before;
the prefix is the whole list unless the name after it is not set, and then that name is
reported. -/
theorem instantiateInputs_result {p : ℕ} (assignment : Assignment) (off : ℕ) :
    ∀ (names : List String) (i : ℕ) (wI : List Bool) (wV : List (ZMod p))
      (o : Option String) (wI1 : List Bool) (wV1 : List (ZMod p)),
      instantiateInputs assignment (off : ℤ) i names wI wV = .ok (o, wI1, wV1) →
      ∃ k, k ≤ names.length ∧
        ((o = none ∧ k = names.length) ∨
          (∃ m, o = some m ∧ names[k]? = some m ∧ inputValue (p := p) assignment m = none)) ∧
        wI1.length = wI.length ∧ wV1.length = wV.length ∧
        (∀ j, j < k → ∃ n v, names[j]? = some n ∧ inputValue assignment n = some v ∧
          wV1[i + off + j]? = some v ∧ wI1[i + off + j]? = some true) ∧
        (∀ q, (q < i + off ∨ i + off + k ≤ q) → wV1[q]? = wV[q]? ∧ wI1[q]? = wI[q]?) := by
  intro names
  induction names with
  | nil =>
    intro i wI wV o wI1 wV1 h
    simp only [instantiateInputs, Except.ok.injEq, Prod.mk.injEq] at h
    obtain ⟨rfl, rfl, rfl⟩ := h
    exact ⟨0, le_refl _, Or.inl ⟨rfl, rfl⟩, rfl, rfl, fun j hj => absurd hj (Nat.not_lt_zero _),
      fun q _ => ⟨rfl, rfl⟩⟩
  | cons n rest ih =>
    intro i wI wV o wI1 wV1 h
    rw [instantiateInputs_cons] at h
    cases hv : inputValue (p := p) assignment n with
    | none =>
      simp only [hv, Except.ok.injEq, Prod.mk.injEq] at h
      obtain ⟨rfl, rfl, rfl⟩ := h
      exact ⟨0, Nat.zero_le _, Or.inr ⟨n, rfl, by simp, hv⟩, rfl, rfl,
        fun j hj => absurd hj (Nat.not_lt_zero _), fun q _ => ⟨rfl, rfl⟩⟩
    | some v =>
      simp only [hv, writeAtInt_natCast] at h
      cases hw1 : writeAt wV (i + off) v with
      | error e => simp [hw1] at h
      | ok wVa =>
        simp only [hw1] at h
        cases hw2 : writeAt wI (i + off) true with
        | error e => simp [hw2] at h
        | ok wIa =>
          simp only [hw2] at h
          obtain ⟨hlt1, rfl⟩ := writeAt_eq_ok.1 hw1
          obtain ⟨hlt2, rfl⟩ := writeAt_eq_ok.1 hw2
          obtain ⟨k, hk, hcase, hl1, hl2, hbound, hrest⟩ := ih _ _ _ _ _ _ h
          refine ⟨k + 1, by simp only [List.length_cons]; omega, ?_, ?_, ?_, ?_, ?_⟩
          · rcases hcase with ⟨rfl, rfl⟩ | ⟨m, rfl, hm, hmv⟩
            · exact Or.inl ⟨rfl, by simp⟩
            · exact Or.inr ⟨m, rfl, by simpa using hm, hmv⟩
          · rw [hl1, List.length_set]
          · rw [hl2, List.length_set]
          · intro j hj
            cases j with
            | zero =>
              obtain ⟨h1, h2⟩ := hrest (i + off) (Or.inl (by omega))
              refine ⟨n, v, by simp, hv, ?_, ?_⟩
              · rw [Nat.add_zero, h1, List.getElem?_set_self hlt1]
              · rw [Nat.add_zero, h2, List.getElem?_set_self hlt2]
            | succ j =>
              obtain ⟨n1, v1, hn1, hv1, h1, h2⟩ := hbound j (by omega)
              have e : i + off + (j + 1) = i + 1 + off + j := by omega
              exact ⟨n1, v1, by simpa using hn1, hv1, by rw [e]; exact h1, by rw [e]; exact h2⟩
          · intro q hq
            have hq1 : q < i + 1 + off ∨ i + 1 + off + k ≤ q := by omega
            obtain ⟨h1, h2⟩ := hrest q hq1
            have hne : i + off ≠ q := by omega
            rw [h1, h2, List.getElem?_set_ne hne, List.getElem?_set_ne hne]
            exact ⟨rfl, rfl⟩

/-! ## Solving steps never overwrite a wire that has a value -/

theorem Extends.refl {p : ℕ} (wI : List Bool) (wV : List (ZMod p)) : Extends wI wV wI wV :=
  ⟨rfl, rfl, fun _ h => ⟨h, rfl⟩⟩

theorem Extends.trans {p : ℕ} {wI wI1 wI2 : List Bool} {wV wV1 wV2 : List (ZMod p)}
    (h1 : Extends wI wV wI1 wV1) (h2 : Extends wI1 wV1 wI2 wV2) : Extends wI wV wI2 wV2 := by
  obtain ⟨a1, b1, c1⟩ := h1
  obtain ⟨a2, b2, c2⟩ := h2
  refine ⟨a2.trans a1, b2.trans b1, ?_⟩
  intro q hq
  obtain ⟨h3, h4⟩ := c1 q hq
  obtain ⟨h5, h6⟩ := c2 q h3
  exact ⟨h5, h6.trans h4⟩

/-- Marking an unmarked wire, and storing anything in it, extends the state. -/
theorem Extends.mark {p : ℕ} {wI : List Bool} {wV : List (ZMod p)} {cID : ℕ}
    (h : wI[cID]? = some false) (v : ZMod p) :
    Extends wI wV (wI.set cID true) (wV.set cID v) ∧ Extends wI wV (wI.set cID true) wV := by
  have key : ∀ q, wI[q]? = some true → cID ≠ q := by
    intro q hq hc
    subst hc
    rw [h] at hq
    cases hq
  refine ⟨⟨List.length_set .., List.length_set .., ?_⟩, ⟨List.length_set .., rfl, ?_⟩⟩
  · intro q hq
    rw [List.getElem?_set_ne (key q hq), List.getElem?_set_ne (key q hq)]
    exact ⟨hq, rfl⟩
  · intro q hq
    rw [List.getElem?_set_ne (key q hq)]
    exact ⟨hq, rfl⟩

theorem processTerm_unknownOK {p : ℕ} {r1cs : R1CS p} {wI : List Bool} {wV : List (ZMod p)}
    {t : Term} {val val1 : ZMod p} {lv : ℕ} {u u1 : Unknown}
    (h : processTerm r1cs wI wV t val lv u = .ok (val1, u1)) (hu : UnknownOK wI u) :
    UnknownOK wI u1 := by
  unfold processTerm at h
  cases h1 : readAt wI t.ConstraintID with
  | error e => simp [h1] at h
  | ok flag =>
    cases flag with
    | true =>
      simp only [h1] at h
      cases h2 : readAt wV t.ConstraintID with
      | error e => simp [h2] at h
      | ok v =>
        simp only [h2] at h
        cases h3 : AddTerm r1cs val t v with
        | error e => simp [h3] at h
        | ok val2 =>
          simp only [h3, Except.ok.injEq, Prod.mk.injEq] at h
          rw [← h.2]
          exact hu
    | false =>
      simp only [h1] at h
      by_cases hl : u.loc = 0
      · simp only [hl, ne_eq, not_true_eq_false, if_false, Except.ok.injEq, Prod.mk.injEq] at h
        rw [← h.2]
        intro _
        exact readAt_eq_ok.1 h1
      · simp [hl] at h

theorem processTerms_unknownOK {p : ℕ} {r1cs : R1CS p} {wI : List Bool} {wV : List (ZMod p)}
    {lv : ℕ} :
    ∀ (ts : List Term) (val val1 : ZMod p) (u u1 : Unknown),
      processTerms r1cs wI wV lv ts val u = .ok (val1, u1) → UnknownOK wI u → UnknownOK wI u1 := by
  intro ts
  induction ts with
  | nil =>
    intro val val1 u u1 h hu
    simp only [processTerms, Except.ok.injEq, Prod.mk.injEq] at h
    rw [← h.2]
    exact hu
  | cons t ts ih =>
    intro val val1 u u1 h hu
    rw [processTerms] at h
    cases h1 : processTerm r1cs wI wV t val lv u with
    | error e => simp [h1] at h
    | ok w =>
      obtain ⟨val2, u2⟩ := w
      simp only [h1] at h
      exact ih _ _ _ _ h (processTerm_unknownOK h1 hu)

/-- The end of the `SingleOutput` case leaves the state as it is, or marks the recorded wire and
leaves its value, or marks it and stores a value in it. -/
theorem solveSingleOutput_cases {p : ℕ} {r1cs : R1CS p} {wI wI1 : List Bool}
    {wV wV1 : List (ZMod p)} {a b c : ZMod p} {u : Unknown}
    (h : solveSingleOutput r1cs wI wV a b c u = .ok (wI1, wV1)) :
    (u.loc = 0 ∧ wI1 = wI ∧ wV1 = wV) ∨
    (u.loc ≠ 0 ∧ wI1 = wI.set u.termToCompute.ConstraintID true ∧
      (wV1 = wV ∨ ∃ v, wV1 = wV.set u.termToCompute.ConstraintID v)) := by
  unfold solveSingleOutput at h
  by_cases h0 : u.loc = 0
  · left
    simp only [h0, if_true, Except.ok.injEq, Prod.mk.injEq] at h
    exact ⟨h0, h.1.symm, h.2.symm⟩
  · right
    simp only [h0, if_false] at h
    have hstored : ∀ (st : Except Fault (List (ZMod p))),
        ((match st with
          | .error e => .error e
          | .ok wireValues1 =>
            match writeAt wI u.termToCompute.ConstraintID true with
            | .error e => .error e
            | .ok wireInstantiated1 => .ok (wireInstantiated1, wireValues1)) :
            Except Fault (List Bool × List (ZMod p))) = .ok (wI1, wV1) →
        st = .ok wV1 ∧ wI1 = wI.set u.termToCompute.ConstraintID true := by
      intro st hst
      cases st with
      | error e => simp at hst
      | ok w =>
        simp only at hst
        cases hw : writeAt wI u.termToCompute.ConstraintID true with
        | error e => simp [hw] at hst
        | ok wIa =>
          simp only [hw, Except.ok.injEq, Prod.mk.injEq] at hst
          obtain ⟨_, rfl⟩ := writeAt_eq_ok.1 hw
          exact ⟨by rw [hst.2], hst.1.symm⟩
    obtain ⟨hst, hwI⟩ := hstored _ h
    refine ⟨h0, hwI, ?_⟩
    have hmul : ∀ (x : ZMod p),
        ((match mulWireByCoeff r1cs x u.termToCompute with
          | .error e => .error e
          | .ok v => writeAt wV u.termToCompute.ConstraintID v) :
            Except Fault (List (ZMod p))) = .ok wV1 →
        ∃ v, wV1 = wV.set u.termToCompute.ConstraintID v := by
      intro x hx
      cases hm : mulWireByCoeff r1cs x u.termToCompute with
      | error e => simp [hm] at hx
      | ok v =>
        simp only [hm] at hx
        exact ⟨v, (writeAt_eq_ok.1 hx).2⟩
    by_cases hl1 : u.loc = 1
    · simp only [hl1, if_true] at hst
      by_cases hb : b = 0
      · simp only [hb, ne_eq, not_true_eq_false, if_false, Except.ok.injEq] at hst
        exact Or.inl hst.symm
      · simp only [ne_eq, hb, not_false_eq_true, if_true] at hst
        exact Or.inr (hmul _ hst)
    · simp only [hl1, if_false] at hst
      by_cases hl2 : u.loc = 2
      · simp only [hl2, if_true] at hst
        by_cases ha : a = 0
        · simp only [ha, ne_eq, not_true_eq_false, if_false, Except.ok.injEq] at hst
          exact Or.inl hst.symm
        · simp only [ne_eq, ha, not_false_eq_true, if_true] at hst
          exact Or.inr (hmul _ hst)
      · simp only [hl2, if_false] at hst
        by_cases hl3 : u.loc = 3
        · simp only [hl3, if_true] at hst
          exact Or.inr (hmul _ hst)
        · simp only [hl3, if_false, Except.ok.injEq] at hst
          exact Or.inl hst.symm

theorem binaryDecLoop_extends {p : ℕ} (n : List ℕ) :
    ∀ (ts : List Term) (k : ℕ) (wI wI1 : List Bool) (wV wV1 : List (ZMod p)),
      binaryDecLoop n k ts wI wV = .ok (wI1, wV1) → Extends wI wV wI1 wV1 := by
  intro ts
  induction ts with
  | nil =>
    intro k wI wI1 wV wV1 h
    simp only [binaryDecLoop, Except.ok.injEq, Prod.mk.injEq] at h
    obtain ⟨rfl, rfl⟩ := h
    exact Extends.refl _ _
  | cons t ts ih =>
    intro k wI wI1 wV wV1 h
    rw [binaryDecLoop] at h
    cases h1 : readAt n (k / 64) with
    | error e => simp [h1] at h
    | ok word =>
      simp only [h1] at h
      cases h2 : readAt wI t.ConstraintID with
      | error e => simp [h2] at h
      | ok flag =>
        cases flag with
        | true =>
          simp only [h2] at h
          exact ih _ _ _ _ _ h
        | false =>
          simp only [h2] at h
          split at h
          · cases h
          · rename_i wVa h3
            obtain ⟨_, rfl⟩ := writeAt_eq_ok.1 h3
            exact (Extends.mark (readAt_eq_ok.1 h2) _).1.trans (ih _ _ _ _ _ h)

/-- Solving a constraint extends the state: no wire that has a value is overwritten. -/
theorem solveR1C_extends {p : ℕ} {limbs : ℕ} {r1cs : R1CS p} {r : R1C} {wI wI1 : List Bool}
    {wV wV1 : List (ZMod p)} (h : solveR1C limbs r1cs r wI wV = .ok (wI1, wV1)) :
    Extends wI wV wI1 wV1 := by
  unfold solveR1C at h
  cases hs : r.Solver with
  | SingleOutput =>
    simp only [hs] at h
    cases h1 : processTerms r1cs wI wV 1 r.L 0 ⟨0, default⟩ with
    | error e => simp [h1] at h
    | ok w1 =>
      obtain ⟨a, u1⟩ := w1
      simp only [h1] at h
      cases h2 : processTerms r1cs wI wV 2 r.R 0 u1 with
      | error e => simp [h2] at h
      | ok w2 =>
        obtain ⟨b, u2⟩ := w2
        simp only [h2] at h
        cases h3 : processTerms r1cs wI wV 3 r.O 0 u2 with
        | error e => simp [h3] at h
        | ok w3 =>
          obtain ⟨c, u3⟩ := w3
          simp only [h3] at h
          have hu0 : UnknownOK wI ⟨0, default⟩ := fun hc => absurd rfl hc
          have hu3 : UnknownOK wI u3 :=
            processTerms_unknownOK _ _ _ _ _ h3
              (processTerms_unknownOK _ _ _ _ _ h2 (processTerms_unknownOK _ _ _ _ _ h1 hu0))
          rcases solveSingleOutput_cases h with ⟨-, rfl, rfl⟩ | ⟨hl, rfl, rfl | ⟨v, rfl⟩⟩
          · exact Extends.refl _ _
          · exact (Extends.mark (hu3 hl) 0).2
          · exact (Extends.mark (hu3 hl) v).1
  | BinaryDec =>
    simp only [hs] at h
    cases hO : r.O with
    | nil => simp [hO] at h
    | cons o os =>
      simp only [hO] at h
      cases h1 : readAt wV o.ConstraintID with
      | error e => simp [h1] at h
      | ok v =>
        simp only [h1] at h
        exact binaryDecLoop_extends _ _ _ _ _ _ _ h
  | unimplemented => simp [hs] at h

theorem solveComputed_extends {p : ℕ} {limbs : ℕ} {r1cs : R1CS p} {i : ℕ} {r : R1C}
    {wI wI1 : List Bool} {wV wV1 : List (ZMod p)}
    (h : solveComputed limbs r1cs i r wI wV = .ok (wI1, wV1)) : Extends wI wV wI1 wV1 := by
  unfold solveComputed at h
  by_cases hi : (i : ℤ) < r1cs.NbCOConstraints
  · rw [if_pos hi] at h
    exact solveR1C_extends h
  · rw [if_neg hi] at h
    simp only [Except.ok.injEq, Prod.mk.injEq] at h
    obtain ⟨rfl, rfl⟩ := h
    exact Extends.refl _ _

/-- The main loop extends the state it starts from, whether it ends with success or with an
unsatisfied constraint. -/
theorem solveLoop_extends {p : ℕ} {limbs : ℕ} {r1cs : R1CS p} :
    ∀ (rs : List R1C) (i : ℕ) (s s1 : Buffers p) (e : Option SolveError),
      solveLoop limbs r1cs i rs s = .ok (e, s1) →
      Extends s.wireInstantiated s.wireValues s1.wireInstantiated s1.wireValues := by
  intro rs
  induction rs with
  | nil =>
    intro i s s1 e h
    simp only [solveLoop, Except.ok.injEq, Prod.mk.injEq] at h
    rw [← h.2]
    exact Extends.refl _ _
  | cons r rest ih =>
    intro i s s1 e h
    rw [solveLoop_cons] at h
    cases h1 : solveStep limbs r1cs i r s with
    | error e1 => simp [h1] at h
    | ok w =>
      obtain ⟨e2, s2⟩ := w
      obtain ⟨va, vb, vc, hsc, -, -, -, -, -, -, -, hcase⟩ := solveStep_ok h1
      have hext := solveComputed_extends hsc
      rcases hcase with ⟨-, rfl⟩ | ⟨-, rfl⟩
      · simp only [h1] at h
        exact hext.trans (ih _ _ _ _ h)
      · simp only [h1, Except.ok.injEq, Prod.mk.injEq] at h
        rw [← h.2]
        exact hext

/-! ## Binary decomposition -/

/-- Bit `j` of word `i` of a number is bit `i*64 + j` of the number. -/
theorem word_bit (x k : ℕ) :
    ((x / 2 ^ (64 * (k / 64)) % 2 ^ 64) >>> (k % 64)) &&& 1 = x / 2 ^ k % 2 := by
  rw [Nat.shiftRight_eq_div_pow, Nat.and_one_is_mod]
  have hr : k % 64 < 64 := Nat.mod_lt _ (by norm_num)
  have h64 : (2 : ℕ) ^ 64 = 2 ^ (k % 64) * 2 ^ (64 - k % 64) := by
    rw [← pow_add]; congr 1; omega
  rw [h64, Nat.mod_mul_right_div_self, Nat.div_div_eq_div_mul, ← pow_add]
  have hk : 64 * (k / 64) + k % 64 = k := Nat.div_add_mod k 64
  rw [hk]
  apply Nat.mod_mod_of_dvd
  exact dvd_pow_self 2 (by omega)

theorem ToRegular_length {p : ℕ} (limbs : ℕ) (x : ZMod p) : (ToRegular limbs x).length = limbs := by
  simp [ToRegular]

theorem ToRegular_getElem? {p : ℕ} (limbs : ℕ) (x : ZMod p) (i : ℕ) (hi : i < limbs) :
    (ToRegular limbs x)[i]? = some (x.val / 2 ^ (64 * i) % 2 ^ 64) := by
  simp [ToRegular, List.getElem?_range hi]

/-- Inside the limbs, the bit read at position `k` is bit `k` of the regular representative. -/
theorem wordBit_ToRegular {p : ℕ} (limbs : ℕ) (x : ZMod p) (k : ℕ) (hk : k < 64 * limbs) :
    wordBit (ToRegular limbs x) k = x.val / 2 ^ k % 2 := by
  unfold wordBit
  rw [ToRegular_getElem? limbs x (k / 64) (by omega), Option.getD_some, word_bit]

theorem binaryDecLoop_cons {p : ℕ} (n : List ℕ) (k : ℕ) (t : Term) (ts : List Term)
    (wI : List Bool) (wV : List (ZMod p)) :
    binaryDecLoop n k (t :: ts) wI wV =
      match readAt n (k / 64) with
      | .error e => .error e
      | .ok word =>
        match readAt wI t.ConstraintID with
        | .error e => .error e
        | .ok true => binaryDecLoop n (k + 1) ts wI wV
        | .ok false =>
          match writeAt wV t.ConstraintID (SetUint64 ((word >>> (k % 64)) &&& 1)) with
          | .error e => .error e
          | .ok wV1 => binaryDecLoop n (k + 1) ts (wI.set t.ConstraintID true) wV1 := by
  rw [binaryDecLoop]

/-- The `BinaryDec` loop completes when the positions it visits lie inside the words and the wires
inside the vectors; every wire of `r.L` that was not marked then holds the bit of its position
and is marked, provided the wires of `r.L` are pairwise distinct. -/
theorem binaryDecLoop_spec {p : ℕ} (n : List ℕ) :
    ∀ (ts : List Term) (k : ℕ) (wI : List Bool) (wV : List (ZMod p)),
      k + ts.length ≤ 64 * n.length → wI.length = wV.length →
      (∀ t ∈ ts, t.ConstraintID < wV.length) → (ts.map Term.ConstraintID).Nodup →
      ∃ wI1 wV1, binaryDecLoop n k ts wI wV = .ok (wI1, wV1) ∧
        ∀ j t, ts[j]? = some t → wI[t.ConstraintID]? = some false →
          wV1[t.ConstraintID]? = some (SetUint64 (wordBit n (k + j))) ∧
            wI1[t.ConstraintID]? = some true := by
  intro ts
  induction ts with
  | nil =>
    intro k wI wV _ _ _ _
    exact ⟨wI, wV, rfl, fun j t h => by simp at h⟩
  | cons t ts ih =>
    intro k wI wV hk hlen hwires hnd
    simp only [List.length_cons] at hk
    simp only [List.map_cons, List.nodup_cons] at hnd
    obtain ⟨hnot, hnd1⟩ := hnd
    have ht : t.ConstraintID < wV.length := hwires t (List.mem_cons_self _ _)
    have hwires1 : ∀ t1 ∈ ts, t1.ConstraintID < wV.length :=
      fun t1 h1 => hwires t1 (List.mem_cons_of_mem _ h1)
    obtain ⟨word, hword⟩ : ∃ word, n[k / 64]? = some word := by
      have : k / 64 < n.length := by omega
      exact ⟨n[k / 64], List.getElem?_eq_getElem this⟩
    have hbit : (word >>> (k % 64)) &&& 1 = wordBit n k := by
      unfold wordBit
      rw [hword, Option.getD_some]
    obtain ⟨flag, hflag⟩ : ∃ flag, wI[t.ConstraintID]? = some flag := by
      have : t.ConstraintID < wI.length := by omega
      exact ⟨wI[t.ConstraintID], List.getElem?_eq_getElem this⟩
    rw [binaryDecLoop_cons, readAt_of_getElem? hword, readAt_of_getElem? hflag]
    cases flag with
    | true =>
      obtain ⟨wI1, wV1, hrun, hres⟩ := ih (k + 1) wI wV (by omega) hlen hwires1 hnd1
      refine ⟨wI1, wV1, hrun, ?_⟩
      intro j t1 hj hfalse
      cases j with
      | zero =>
        simp only [List.getElem?_cons_zero, Option.some.injEq] at hj
        subst hj
        rw [hflag] at hfalse
        cases hfalse
      | succ j =>
        simp only [List.getElem?_cons_succ] at hj
        have e : k + (j + 1) = k + 1 + j := by omega
        rw [e]
        exact hres j t1 hj hfalse
    | false =>
      simp only
      rw [writeAt_of_lt _ ht]
      simp only
      obtain ⟨wI1, wV1, hrun, hres⟩ := ih (k + 1) (wI.set t.ConstraintID true)
        (wV.set t.ConstraintID (SetUint64 ((word >>> (k % 64)) &&& 1))) (by omega)
        (by rw [List.length_set, List.length_set]; exact hlen)
        (fun t1 h1 => by rw [List.length_set]; exact hwires1 t1 h1) hnd1
      refine ⟨wI1, wV1, hrun, ?_⟩
      intro j t1 hj hfalse
      cases j with
      | zero =>
        simp only [List.getElem?_cons_zero, Option.some.injEq] at hj
        subst hj
        obtain ⟨-, -, hext⟩ := binaryDecLoop_extends _ _ _ _ _ _ _ hrun
        have hset : (wI.set t.ConstraintID true)[t.ConstraintID]? = some true := by
          rw [List.getElem?_set_self (by omega)]
        obtain ⟨h1, h2⟩ := hext _ hset
        rw [h2, List.getElem?_set_self ht, hbit]
        exact ⟨rfl, h1⟩
      | succ j =>
        simp only [List.getElem?_cons_succ] at hj
        have hmem : t1 ∈ ts := List.getElem?_mem hj
        have hne : t.ConstraintID ≠ t1.ConstraintID := by
          intro hc
          apply hnot
          rw [hc]
          exact List.mem_map_of_mem _ hmem
        have e : k + (j + 1) = k + 1 + j := by omega
        rw [e]
        apply hres j t1 hj
        rw [List.getElem?_set_ne hne]
        exact hfalse

/-- The `BinaryDec` loop changes no flag of a wire that is not a wire of the terms it visits. -/
theorem binaryDecLoop_frame {p : ℕ} (n : List ℕ) :
    ∀ (ts : List Term) (k : ℕ) (wI wI1 : List Bool) (wV wV1 : List (ZMod p)),
      binaryDecLoop n k ts wI wV = .ok (wI1, wV1) →
      ∀ q : ℕ, (∀ t ∈ ts, t.ConstraintID ≠ q) → wI1[q]? = wI[q]? := by
  intro ts
  induction ts with
  | nil =>
    intro k wI wI1 wV wV1 h q _
    simp only [binaryDecLoop, Except.ok.injEq, Prod.mk.injEq] at h
    rw [h.1]
  | cons t ts ih =>
    intro k wI wI1 wV wV1 h q hq
    have hqt : t.ConstraintID ≠ q := hq t (List.mem_cons_self _ _)
    have hqts : ∀ t1 ∈ ts, t1.ConstraintID ≠ q := fun t1 h1 => hq t1 (List.mem_cons_of_mem _ h1)
    rw [binaryDecLoop_cons] at h
    cases h1 : readAt n (k / 64) with
    | error e => simp [h1] at h
    | ok word =>
      simp only [h1] at h
      cases h2 : readAt wI t.ConstraintID with
      | error e => simp [h2] at h
      | ok flag =>
        cases flag with
        | true =>
          simp only [h2] at h
          exact ih _ _ _ _ _ h q hqts
        | false =>
          simp only [h2] at h
          split at h
          · cases h
          · rw [ih _ _ _ _ _ h q hqts, List.getElem?_set_ne hqt]

/-- A `BinaryDec` constraint whose `O` starts with a term on a wire holding `n`, with pairwise
distinct wires in `L`, all inside the wire vector, and no more of them than the limbs have bits:
`solveR1C` completes, extends the state, gives every unmarked wire of `L` the bit of its position
and marks it, and changes no flag outside `L`. -/
theorem binaryDec_run {p : ℕ} (limbs : ℕ) (r1cs : R1CS p) (r : R1C) (wI : List Bool)
    (wV : List (ZMod p)) (o : Term) (os : List Term) (n : ZMod p)
    (hsolver : r.Solver = .BinaryDec) (hO : r.O = o :: os)
    (hn : wV[o.ConstraintID]? = some n) (hlen : wI.length = wV.length)
    (hwires : ∀ t ∈ r.L, t.ConstraintID < wV.length)
    (hdist : (r.L.map Term.ConstraintID).Nodup) (hm : r.L.length ≤ 64 * limbs) :
    ∃ wI1 wV1, solveR1C limbs r1cs r wI wV = .ok (wI1, wV1) ∧
      (∀ j t, r.L[j]? = some t → wI[t.ConstraintID]? = some false →
        wV1[t.ConstraintID]? = some ((n.val / 2 ^ j % 2 : ℕ) : ZMod p) ∧
          wI1[t.ConstraintID]? = some true) ∧
      Extends wI wV wI1 wV1 ∧
      (∀ q : ℕ, (∀ t ∈ r.L, t.ConstraintID ≠ q) → wI1[q]? = wI[q]?) := by
  obtain ⟨wI1, wV1, hrun, hres⟩ := binaryDecLoop_spec (ToRegular limbs n) r.L 0 wI wV
    (by rw [ToRegular_length]; omega) hlen hwires hdist
  have hsolve : solveR1C limbs r1cs r wI wV = .ok (wI1, wV1) := by
    unfold solveR1C
    simp only [hsolver, hO, readAt_of_getElem? hn]
    exact hrun
  refine ⟨wI1, wV1, hsolve, ?_, solveR1C_extends hsolve, binaryDecLoop_frame _ _ _ _ _ _ _ hrun⟩
  intro j t hj hfalse
  obtain ⟨h1, h2⟩ := hres j t hj hfalse
  have hjlt : j < r.L.length := by
    by_contra hc
    rw [List.getElem?_eq_none (by omega)] at hj
    cases hj
  rw [Nat.zero_add, wordBit_ToRegular limbs n j (by omega)] at h1
  exact ⟨h1, h2⟩

/-- Claim C10.  For a `BinaryDec` constraint whose `O` has a first term on a wire holding `n`,
whose `L` lists pairwise distinct wires of the wire vector, no more of them than the limbs have
bits: `solveR1C` completes; every wire of `L` at a position `j` that was not marked before the
call holds bit `j` of the regular representative of `n` (the field element `0` or `1`) and is
marked; and every wire that was marked before the call is still marked and keeps its value. -/
theorem solveR1C_binaryDec {p : ℕ} (limbs : ℕ) (r1cs : R1CS p) (r : R1C) (wI : List Bool)
    (wV : List (ZMod p)) (o : Term) (os : List Term) (n : ZMod p)
    (hsolver : r.Solver = .BinaryDec) (hO : r.O = o :: os)
    (hn : wV[o.ConstraintID]? = some n) (hlen : wI.length = wV.length)
    (hwires : ∀ t ∈ r.L, t.ConstraintID < wV.length)
    (hdist : (r.L.map Term.ConstraintID).Nodup) (hm : r.L.length ≤ 64 * limbs) :
    ∃ wI1 wV1, solveR1C limbs r1cs r wI wV = .ok (wI1, wV1) ∧
      (∀ j t, r.L[j]? = some t → wI[t.ConstraintID]? = some false →
        wV1[t.ConstraintID]? = some ((n.val / 2 ^ j % 2 : ℕ) : ZMod p) ∧
          n.val / 2 ^ j % 2 < 2 ∧ wI1[t.ConstraintID]? = some true) ∧
      (∀ q : ℕ, wI[q]? = some true → wI1[q]? = some true ∧ wV1[q]? = wV[q]?) := by
  obtain ⟨wI1, wV1, hsolve, hbits, hext, -⟩ :=
    binaryDec_run limbs r1cs r wI wV o os n hsolver hO hn hlen hwires hdist hm
  refine ⟨wI1, wV1, hsolve, ?_, hext.2.2⟩
  intro j t hj hfalse
  obtain ⟨h1, h2⟩ := hbits j t hj hfalse
  exact ⟨h1, Nat.mod_lt _ (by norm_num), h2⟩

/-! ## The shape of a call of Solve -/

/-- The three ways a call of `Solve` ends without aborting: the size check fails; an input is not
set; or the inputs are bound, the main loop runs and the logs are printed. -/
theorem Solve_ok_cases {p : ℕ} {limbs : ℕ} {r1cs : R1CS p} {assignment : Assignment}
    {a b c wireValues : List (ZMod p)} {res : SolveResult p}
    (h : Solve limbs r1cs assignment a b c wireValues = .ok res) :
    (((a.length : ℤ) ≠ r1cs.NbConstraints ∨ (b.length : ℤ) ≠ r1cs.NbConstraints ∨
        (c.length : ℤ) ≠ r1cs.NbConstraints ∨ (wireValues.length : ℤ) ≠ r1cs.NbWires) ∧
      res = { err := some .invalidInputSize,
              buffers := { a := a, b := b, c := c, wireValues := wireValues,
                           wireInstantiated := [] },
              logs := none }) ∨
    (((a.length : ℤ) = r1cs.NbConstraints ∧ (b.length : ℤ) = r1cs.NbConstraints ∧
        (c.length : ℤ) = r1cs.NbConstraints ∧ (wireValues.length : ℤ) = r1cs.NbWires) ∧
      ∃ name wI1 wV1,
        bindInputs r1cs assignment (List.replicate r1cs.NbWires.toNat false) wireValues
          = .ok (some name, wI1, wV1) ∧
        res = { err := some (.inputNotSet name),
                buffers := { a := a, b := b, c := c, wireValues := wV1,
                             wireInstantiated := wI1 },
                logs := none }) ∨
    (((a.length : ℤ) = r1cs.NbConstraints ∧ (b.length : ℤ) = r1cs.NbConstraints ∧
        (c.length : ℤ) = r1cs.NbConstraints ∧ (wireValues.length : ℤ) = r1cs.NbWires) ∧
      ∃ wI1 wV1 e s out,
        bindInputs r1cs assignment (List.replicate r1cs.NbWires.toNat false) wireValues
          = .ok (none, wI1, wV1) ∧
        solveLoop limbs r1cs 0 r1cs.Constraints
          { a := a, b := b, c := c, wireValues := wV1, wireInstantiated := wI1 } = .ok (e, s) ∧
        printLogs s.wireValues s.wireInstantiated r1cs.Logs = .ok out ∧
        res = { err := e, buffers := s, logs := some out }) := by
  unfold Solve at h
  by_cases hsz : (a.length : ℤ) ≠ r1cs.NbConstraints ∨ (b.length : ℤ) ≠ r1cs.NbConstraints ∨
        (c.length : ℤ) ≠ r1cs.NbConstraints ∨ (wireValues.length : ℤ) ≠ r1cs.NbWires
  · rw [if_pos hsz] at h
    left
    exact ⟨hsz, (Except.ok.inj h).symm⟩
  · rw [if_neg hsz] at h
    have hsz1 : (a.length : ℤ) = r1cs.NbConstraints ∧ (b.length : ℤ) = r1cs.NbConstraints ∧
        (c.length : ℤ) = r1cs.NbConstraints ∧ (wireValues.length : ℤ) = r1cs.NbWires := by
      simp only [ne_eq, not_or, not_not] at hsz
      exact hsz
    right
    cases h1 : bindInputs r1cs assignment (List.replicate r1cs.NbWires.toNat false) wireValues with
    | error e1 => simp [h1] at h
    | ok w =>
      obtain ⟨o, wI1, wV1⟩ := w
      cases o with
      | some name =>
        left
        simp only [h1] at h
        exact ⟨hsz1, name, wI1, wV1, rfl, (Except.ok.inj h).symm⟩
      | none =>
        right
        simp only [h1] at h
        cases h2 : solveLoop limbs r1cs 0 r1cs.Constraints
            { a := a, b := b, c := c, wireValues := wV1, wireInstantiated := wI1 } with
        | error e2 => simp [h2] at h
        | ok w2 =>
          obtain ⟨e, s⟩ := w2
          simp only [h2] at h
          cases h3 : printLogs s.wireValues s.wireInstantiated r1cs.Logs with
          | error e3 => simp [h3] at h
          | ok out =>
            simp only [h3] at h
            exact ⟨hsz1, wI1, wV1, e, s, out, rfl, h2, h3, (Except.ok.inj h).symm⟩

/-- Claim C1.  If `Solve` returns success on an R1CS whose constraint list has `NbConstraints`
entries, then for every constraint index `i` the returned vectors satisfy `a[i] * b[i] = c[i]`,
whatever the assignment and the buffers were. -/
theorem Solve_success_products {p : ℕ} (limbs : ℕ) (r1cs : R1CS p) (assignment : Assignment)
    (a b c wireValues : List (ZMod p)) (res : SolveResult p)
    (hlen : (r1cs.Constraints.length : ℤ) = r1cs.NbConstraints)
    (h : Solve limbs r1cs assignment a b c wireValues = .ok res) (herr : res.err = none) :
    ∀ i : ℕ, (i : ℤ) < r1cs.NbConstraints →
      ∃ x y z, res.buffers.a[i]? = some x ∧ res.buffers.b[i]? = some y ∧
        res.buffers.c[i]? = some z ∧ x * y = z := by
  intro i hi
  rcases Solve_ok_cases h with ⟨-, rfl⟩ | ⟨-, name, wI1, wV1, -, rfl⟩ |
    ⟨-, wI1, wV1, e, s, out, -, hloop, -, rfl⟩
  · simp at herr
  · simp at herr
  · simp only at herr
    subst herr
    obtain ⟨-, -, hvis⟩ := solveLoop_none _ _ _ _ hloop
    apply hvis i (Nat.zero_le _)
    have : (i : ℤ) < (r1cs.Constraints.length : ℤ) := by rw [hlen]; exact hi
    omega

/-- Claim C5.  When the length of `a`, `b` or `c` differs from `NbConstraints` or the length of
`wireValues` differs from `NbWires`, `Solve` returns the size error and hands the four buffers
back as they were; when the four lengths are right, `Solve` does not return that error. -/
theorem Solve_invalidInputSize {p : ℕ} (limbs : ℕ) (r1cs : R1CS p) (assignment : Assignment)
    (a b c wireValues : List (ZMod p)) :
    (((a.length : ℤ) ≠ r1cs.NbConstraints ∨ (b.length : ℤ) ≠ r1cs.NbConstraints ∨
        (c.length : ℤ) ≠ r1cs.NbConstraints ∨ (wireValues.length : ℤ) ≠ r1cs.NbWires) →
      ∃ res, Solve limbs r1cs assignment a b c wireValues = .ok res ∧
        res.err = some .invalidInputSize ∧ res.buffers.a = a ∧ res.buffers.b = b ∧
        res.buffers.c = c ∧ res.buffers.wireValues = wireValues) ∧
    (((a.length : ℤ) = r1cs.NbConstraints ∧ (b.length : ℤ) = r1cs.NbConstraints ∧
        (c.length : ℤ) = r1cs.NbConstraints ∧ (wireValues.length : ℤ) = r1cs.NbWires) →
      ∀ res, Solve limbs r1cs assignment a b c wireValues = .ok res →
        res.err ≠ some .invalidInputSize) := by
  constructor
  · intro hsz
    refine ⟨{ err := some .invalidInputSize,
              buffers := { a := a, b := b, c := c, wireValues := wireValues,
                           wireInstantiated := [] },
              logs := none }, ?_, rfl, rfl, rfl, rfl, rfl⟩
    unfold Solve
    rw [if_pos hsz]
  · intro hsz res h
    rcases Solve_ok_cases h with ⟨hbad, -⟩ | ⟨-, name, wI1, wV1, -, rfl⟩ |
      ⟨-, wI1, wV1, e, s, out, -, hloop, -, rfl⟩
    · exfalso
      obtain ⟨h1, h2, h3, h4⟩ := hsz
      rcases hbad with hb | hb | hb | hb
      · exact hb h1
      · exact hb h2
      · exact hb h3
      · exact hb h4
    · simp
    · rcases solveLoop_err _ _ _ _ _ hloop with rfl | ⟨x, y, z, rfl⟩ <;> simp

/-! ## Solving a SingleOutput constraint -/

/-- The method `mulWireByCoeff` multiplies by the coefficient of the term. -/
theorem mulWireByCoeff_eq {p : ℕ} (r1cs : R1CS p) (x : ZMod p) (t : Term) :
    mulWireByCoeff r1cs x t =
      match termCoefficient r1cs t with
      | .error e => .error e
      | .ok k => .ok (x * k) := by
  unfold mulWireByCoeff termCoefficient
  by_cases h1 : t.CoeffValue = 1
  · simp [h1]
  by_cases h2 : t.CoeffValue = -1
  · simp [h2]
  by_cases h3 : t.CoeffValue = 0
  · simp [h3]
  by_cases h4 : t.CoeffValue = 2
  · simp [h4, mul_comm]
  simp only [h1, h2, h3, h4, if_false, readAt]
  cases r1cs.Coefficients[t.CoeffID]? <;> rfl

theorem accumulate_append {p : ℕ} (r1cs : R1CS p) (wV : List (ZMod p)) :
    ∀ (xs ys : List Term) (val : ZMod p),
      accumulate r1cs wV (xs ++ ys) val =
        match accumulate r1cs wV xs val with
        | .error e => .error e
        | .ok v => accumulate r1cs wV ys v := by
  intro xs
  induction xs with
  | nil => intro ys val; rfl
  | cons x xs ih =>
    intro ys val
    rw [List.cons_append, accumulate, accumulate]
    cases readAt wV x.ConstraintID with
    | error e => rfl
    | ok v =>
      simp only
      cases AddTerm r1cs val x v with
      | error e => rfl
      | ok acc => simp only; rw [ih]

theorem processTerms_append {p : ℕ} (r1cs : R1CS p) (wI : List Bool) (wV : List (ZMod p))
    (lv : ℕ) :
    ∀ (xs ys : List Term) (val : ZMod p) (u : Unknown),
      processTerms r1cs wI wV lv (xs ++ ys) val u =
        match processTerms r1cs wI wV lv xs val u with
        | .error e => .error e
        | .ok (v, u1) => processTerms r1cs wI wV lv ys v u1 := by
  intro xs
  induction xs with
  | nil => intro ys val u; rfl
  | cons x xs ih =>
    intro ys val u
    rw [List.cons_append, processTerms, processTerms]
    cases processTerm r1cs wI wV x val lv u with
    | error e => rfl
    | ok w =>
      obtain ⟨v, u1⟩ := w
      simp only
      rw [ih]

/-- Scanning terms whose wires all have a value adds them up and records nothing. -/
theorem processTerms_known {p : ℕ} (r1cs : R1CS p) (wI : List Bool) (wV : List (ZMod p))
    (lv : ℕ) :
    ∀ (ts : List Term) (val : ZMod p) (u : Unknown), Known wI ts →
      processTerms r1cs wI wV lv ts val u =
        match accumulate r1cs wV ts val with
        | .error e => .error e
        | .ok v => .ok (v, u) := by
  intro ts
  induction ts with
  | nil => intro val u _; rfl
  | cons t ts ih =>
    intro val u hk
    have ht : wI[t.ConstraintID]? = some true := hk t (List.mem_cons_self _ _)
    have hts : Known wI ts := fun t1 h1 => hk t1 (List.mem_cons_of_mem _ h1)
    rw [processTerms, accumulate, processTerm, readAt_of_getElem? ht]
    simp only
    cases readAt wV t.ConstraintID with
    | error e => rfl
    | ok v =>
      simp only
      cases AddTerm r1cs val t v with
      | error e => rfl
      | ok acc =>
        simp only
        rw [ih _ _ hts]

/-- Scanning terms of which exactly one, `t`, is on a wire without a value, when nothing was
recorded before: the other terms are added up and `t` is recorded. -/
theorem processTerms_one_unknown {p : ℕ} (r1cs : R1CS p) (wI : List Bool) (wV : List (ZMod p))
    (lv : ℕ) (pre post : List Term) (t : Term) (val : ZMod p) (u : Unknown)
    (hpre : Known wI pre) (hpost : Known wI post) (ht : wI[t.ConstraintID]? = some false)
    (hu : u.loc = 0) :
    processTerms r1cs wI wV lv (pre ++ t :: post) val u =
      match accumulate r1cs wV (pre ++ post) val with
      | .error e => .error e
      | .ok v => .ok (v, { loc := lv, termToCompute := t }) := by
  rw [processTerms_append, processTerms_known r1cs wI wV lv pre val u hpre, accumulate_append]
  cases accumulate r1cs wV pre val with
  | error e => rfl
  | ok v =>
    simp only
    rw [processTerms, processTerm, readAt_of_getElem? ht]
    simp only [hu, ne_eq, not_true_eq_false, if_false]
    rw [processTerms_known r1cs wI wV lv post v _ hpost]

/-- A `SingleOutput` constraint whose terms are all on wires with a value is left alone. -/
theorem solveR1C_all_known {p : ℕ} (limbs : ℕ) (r1cs : R1CS p) (r : R1C) (wI : List Bool)
    (wV : List (ZMod p)) (a b c : ZMod p) (hs : r.Solver = .SingleOutput)
    (hL : Known wI r.L) (hR : Known wI r.R) (hO : Known wI r.O)
    (ha : accumulate r1cs wV r.L 0 = .ok a) (hb : accumulate r1cs wV r.R 0 = .ok b)
    (hc : accumulate r1cs wV r.O 0 = .ok c) :
    solveR1C limbs r1cs r wI wV = .ok (wI, wV) := by
  unfold solveR1C
  simp only [hs]
  rw [processTerms_known r1cs wI wV 1 r.L 0 _ hL, ha]
  simp only
  rw [processTerms_known r1cs wI wV 2 r.R 0 _ hR, hb]
  simp only
  rw [processTerms_known r1cs wI wV 3 r.O 0 _ hO, hc]
  simp [solveSingleOutput]

/-- A `SingleOutput` constraint whose only term on a wire without a value is the term `t` of `O`:
the wire of `t` is marked and receives `(a*b - c)` times the coefficient of `t`, where `a`, `b`,
`c` are the sums of the other terms of `L`, `R`, `O`. -/
theorem solveR1C_unknown_O {p : ℕ} (limbs : ℕ) (r1cs : R1CS p) (r : R1C) (wI : List Bool)
    (wV : List (ZMod p)) (pre post : List Term) (t : Term) (a b c : ZMod p)
    (hs : r.Solver = .SingleOutput) (hL : Known wI r.L) (hR : Known wI r.R)
    (hO : r.O = pre ++ t :: post) (hpre : Known wI pre) (hpost : Known wI post)
    (ht : wI[t.ConstraintID]? = some false)
    (ha : accumulate r1cs wV r.L 0 = .ok a) (hb : accumulate r1cs wV r.R 0 = .ok b)
    (hc : accumulate r1cs wV (pre ++ post) 0 = .ok c) :
    solveR1C limbs r1cs r wI wV =
      match termCoefficient r1cs t with
      | .error e => .error e
      | .ok k =>
        match writeAt wV t.ConstraintID ((a * b - c) * k) with
        | .error e => .error e
        | .ok wV1 => .ok (wI.set t.ConstraintID true, wV1) := by
  have hlt : t.ConstraintID < wI.length := by
    by_contra hcon
    rw [List.getElem?_eq_none (by omega)] at ht
    cases ht
  unfold solveR1C
  simp only [hs]
  rw [processTerms_known r1cs wI wV 1 r.L 0 _ hL, ha]
  simp only
  rw [processTerms_known r1cs wI wV 2 r.R 0 _ hR, hb]
  simp only
  rw [hO, processTerms_one_unknown r1cs wI wV 3 pre post t 0 _ hpre hpost ht rfl, hc]
  simp only [solveSingleOutput, OfNat.ofNat_ne_zero, if_false, OfNat.ofNat_ne_one,
    Nat.succ_ne_self, if_true, mulWireByCoeff_eq, writeAt_of_lt true hlt]
  cases termCoefficient r1cs t with
  | error e => rfl
  | ok k => rfl

/-- A `SingleOutput` constraint whose only term on a wire without a value is the term `t` of `L`:
the wire of `t` is marked; when the sum `b` of `R` is not zero it receives `(c/b - a)` times the
coefficient of `t`, and when `b` is zero it is left as it is. -/
theorem solveR1C_unknown_L {p : ℕ} (limbs : ℕ) (r1cs : R1CS p) (r : R1C) (wI : List Bool)
    (wV : List (ZMod p)) (pre post : List Term) (t : Term) (a b c : ZMod p)
    (hs : r.Solver = .SingleOutput) (hL : r.L = pre ++ t :: post) (hpre : Known wI pre)
    (hpost : Known wI post) (ht : wI[t.ConstraintID]? = some false)
    (hR : Known wI r.R) (hO : Known wI r.O)
    (ha : accumulate r1cs wV (pre ++ post) 0 = .ok a) (hb : accumulate r1cs wV r.R 0 = .ok b)
    (hc : accumulate r1cs wV r.O 0 = .ok c) :
    solveR1C limbs r1cs r wI wV =
      if b ≠ 0 then
        match termCoefficient r1cs t with
        | .error e => .error e
        | .ok k =>
          match writeAt wV t.ConstraintID ((Div c b - a) * k) with
          | .error e => .error e
          | .ok wV1 => .ok (wI.set t.ConstraintID true, wV1)
      else .ok (wI.set t.ConstraintID true, wV) := by
  have hlt : t.ConstraintID < wI.length := by
    by_contra hcon
    rw [List.getElem?_eq_none (by omega)] at ht
    cases ht
  unfold solveR1C
  simp only [hs]
  rw [hL, processTerms_one_unknown r1cs wI wV 1 pre post t 0 _ hpre hpost ht rfl, ha]
  simp only
  rw [processTerms_known r1cs wI wV 2 r.R 0 _ hR, hb]
  simp only
  rw [processTerms_known r1cs wI wV 3 r.O 0 _ hO, hc]
  simp only [solveSingleOutput, one_ne_zero, if_false, if_true, mulWireByCoeff_eq,
    writeAt_of_lt true hlt]
  by_cases hb0 : b = 0
  · simp [hb0]
  · simp only [ne_eq, hb0, not_false_eq_true, if_true]
    cases termCoefficient r1cs t with
    | error e => rfl
    | ok k => rfl

/-- A `SingleOutput` constraint whose only term on a wire without a value is the term `t` of `R`:
the wire of `t` is marked; when the sum `a` of `L` is not zero it receives `(c/a - b)` times the
coefficient of `t`, and when `a` is zero it is left as it is. -/
theorem solveR1C_unknown_R {p : ℕ} (limbs : ℕ) (r1cs : R1CS p) (r : R1C) (wI : List Bool)
    (wV : List (ZMod p)) (pre post : List Term) (t : Term) (a b c : ZMod p)
    (hs : r.Solver = .SingleOutput) (hL : Known wI r.L) (hR : r.R = pre ++ t :: post)
    (hpre : Known wI pre) (hpost : Known wI post) (ht : wI[t.ConstraintID]? = some false)
    (hO : Known wI r.O)
    (ha : accumulate r1cs wV r.L 0 = .ok a) (hb : accumulate r1cs wV (pre ++ post) 0 = .ok b)
    (hc : accumulate r1cs wV r.O 0 = .ok c) :
    solveR1C limbs r1cs r wI wV =
      if a ≠ 0 then
        match termCoefficient r1cs t with
        | .error e => .error e
        | .ok k =>
          match writeAt wV t.ConstraintID ((Div c a - b) * k) with
          | .error e => .error e
          | .ok wV1 => .ok (wI.set t.ConstraintID true, wV1)
      else .ok (wI.set t.ConstraintID true, wV) := by
  have hlt : t.ConstraintID < wI.length := by
    by_contra hcon
    rw [List.getElem?_eq_none (by omega)] at ht
    cases ht
  unfold solveR1C
  simp only [hs]
  rw [processTerms_known r1cs wI wV 1 r.L 0 _ hL, ha]
  simp only
  rw [hR, processTerms_one_unknown r1cs wI wV 2 pre post t 0 _ hpre hpost ht rfl, hb]
  simp only
  rw [processTerms_known r1cs wI wV 3 r.O 0 _ hO, hc]
  simp only [solveSingleOutput, OfNat.ofNat_ne_zero, if_false, OfNat.ofNat_ne_one, if_true,
    mulWireByCoeff_eq, writeAt_of_lt true hlt]
  by_cases ha0 : a = 0
  · simp [ha0]
  · simp only [ne_eq, ha0, not_false_eq_true, if_true]
    cases termCoefficient r1cs t with
    | error e => rfl
    | ok k => rfl

/-! ## A missing input -/

/-- Claim C4.  With correctly sized buffers and a well-formed wire table, when the name at
position `j` of the secret names followed by the public names is not the reserved name and is
absent from the assignment, and every name before it is reserved or present, `Solve` returns
`InputNotSet` with that name; the wires of the names before it hold their values (one for the
reserved name, the converted assigned number else); the wire of the missing name, every later
input wire and every internal wire are as the caller passed them, and so are `a`, `b`, `c`. -/
theorem Solve_inputNotSet {p : ℕ} (limbs : ℕ) (r1cs : R1CS p) (assignment : Assignment)
    (a b c wireValues : List (ZMod p))
    (hsz : (a.length : ℤ) = r1cs.NbConstraints ∧ (b.length : ℤ) = r1cs.NbConstraints ∧
      (c.length : ℤ) = r1cs.NbConstraints ∧ (wireValues.length : ℤ) = r1cs.NbWires)
    (hwt : WireTableOK r1cs) (j : ℕ) (name : String)
    (hj : (inputNames r1cs)[j]? = some name) (hne : name ≠ OneWire)
    (habs : assignment name = none)
    (hfirst : ∀ i n, i < j → (inputNames r1cs)[i]? = some n → n = OneWire ∨ assignment n ≠ none) :
    ∃ res, Solve limbs r1cs assignment a b c wireValues = .ok res ∧
      res.err = some (.inputNotSet name) ∧
      res.buffers.a = a ∧ res.buffers.b = b ∧ res.buffers.c = c ∧
      (∀ i n, i < j → (inputNames r1cs)[i]? = some n →
        res.buffers.wireValues[inputOffset r1cs + i]? = inputValue assignment n) ∧
      (∀ q, q < inputOffset r1cs ∨ inputOffset r1cs + j ≤ q →
        res.buffers.wireValues[q]? = wireValues[q]?) := by
  obtain ⟨hs, hp, hle⟩ := id hwt
  obtain ⟨h1, h2, h3, h4⟩ := hsz
  have hnames : (inputNames r1cs).length = r1cs.SecretWires.length + r1cs.PublicWires.length := by
    simp [inputNames]
  have hoff : ((inputOffset r1cs : ℕ) : ℤ) =
      r1cs.NbWires - r1cs.NbPublicWires - r1cs.NbSecretWires := by
    unfold inputOffset
    rw [Int.toNat_of_nonneg]
    omega
  have hfit : 0 + inputOffset r1cs + (inputNames r1cs).length ≤ wireValues.length := by
    rw [hnames]; omega
  have hrep : (List.replicate r1cs.NbWires.toNat false).length = wireValues.length := by
    rw [List.length_replicate]; omega
  obtain ⟨⟨o, wI1, wV1⟩, hres⟩ := instantiateInputs_total assignment (inputOffset r1cs)
    (inputNames r1cs) 0 (List.replicate r1cs.NbWires.toNat false) wireValues hfit hrep
  obtain ⟨k, hk, hcase, -, -, hbound, hrest⟩ := instantiateInputs_result assignment _ _ _ _ _ _ _ _ hres
  have hnone : inputValue (p := p) assignment name = none := inputValue_eq_none.2 ⟨hne, habs⟩
  have hjk : ¬ j < k := by
    intro hlt
    obtain ⟨n, v, hn, hv, -, -⟩ := hbound j hlt
    rw [hj] at hn
    cases hn
    rw [hnone] at hv
    cases hv
  have hjlt : j < (inputNames r1cs).length := by
    by_contra hc
    rw [List.getElem?_eq_none (by omega)] at hj
    cases hj
  rcases hcase with ⟨rfl, rfl⟩ | ⟨m, rfl, hm, hmv⟩
  · exact absurd hjlt hjk
  · have hkj : ¬ k < j := by
      intro hlt
      obtain ⟨hm1, hm2⟩ := inputValue_eq_none.1 hmv
      rcases hfirst k m hlt hm with h | h
      · exact hm1 h
      · exact h hm2
    have hkeq : k = j := by omega
    subst hkeq
    rw [hj] at hm
    cases hm
    refine ⟨{ err := some (.inputNotSet name),
              buffers := { a := a, b := b, c := c, wireValues := wV1,
                           wireInstantiated := wI1 },
              logs := none }, ?_, rfl, rfl, rfl, rfl, ?_, ?_⟩
    · unfold Solve
      have hsz' : ¬ ((a.length : ℤ) ≠ r1cs.NbConstraints ∨ (b.length : ℤ) ≠ r1cs.NbConstraints ∨
          (c.length : ℤ) ≠ r1cs.NbConstraints ∨ (wireValues.length : ℤ) ≠ r1cs.NbWires) := by
        simp [h1, h2, h3, h4]
      rw [if_neg hsz', bindInputs_eq r1cs hwt, hres]
    · intro i n hi hn
      obtain ⟨n1, v, hn1, hv, hw, -⟩ := hbound i hi
      rw [hn] at hn1
      cases hn1
      simp only [Nat.zero_add] at hw
      rw [hw, hv]
    · intro q hq
      exact (hrest q (by omega)).1

/-! ## The input wires after a call that got past input binding -/

theorem inputValue_eq_some {p : ℕ} {assignment : Assignment} {name : String} {v : ZMod p}
    (h : inputValue assignment name = some v) :
    (name = OneWire → v = 1) ∧
      (name ≠ OneWire → ∃ x, assignment name = some x ∧ v = SetInterface x) := by
  unfold inputValue at h
  by_cases hn : name = OneWire
  · simp only [hn, if_true, Option.some.injEq] at h
    exact ⟨fun _ => h.symm, fun hc => absurd hn hc⟩
  · simp only [hn, if_false] at h
    refine ⟨fun hc => absurd hc hn, fun _ => ?_⟩
    cases hx : assignment name with
    | none => simp [hx] at h
    | some x =>
      simp only [hx, Option.map_some', Option.some.injEq] at h
      exact ⟨x, rfl, h.symm⟩

/-- After a call of `Solve` that got past input binding, every input wire holds the value of its
name, in the order secret names then public names from the first input wire on. -/
theorem Solve_inputNames_bound {p : ℕ} {limbs : ℕ} {r1cs : R1CS p} {assignment : Assignment}
    {a b c wireValues : List (ZMod p)} {res : SolveResult p} (hwt : WireTableOK r1cs)
    (h : Solve limbs r1cs assignment a b c wireValues = .ok res)
    (hpast : res.err = none ∨ ∃ x y z, res.err = some (.unsatisfiedConstraint x y z)) :
    ∀ j n, (inputNames r1cs)[j]? = some n →
      ∃ v, inputValue assignment n = some v ∧
        res.buffers.wireValues[inputOffset r1cs + j]? = some v := by
  intro j n hn
  rcases Solve_ok_cases h with ⟨-, rfl⟩ | ⟨-, name, wI1, wV1, -, rfl⟩ |
    ⟨-, wI1, wV1, e, s, out, hbind, hloop, -, rfl⟩
  · rcases hpast with h1 | ⟨x, y, z, h1⟩ <;> simp at h1
  · rcases hpast with h1 | ⟨x, y, z, h1⟩ <;> simp at h1
  · rw [bindInputs_eq r1cs hwt] at hbind
    obtain ⟨k, -, hcase, -, -, hbound, -⟩ :=
      instantiateInputs_result assignment _ _ _ _ _ _ _ _ hbind
    have hk : k = (inputNames r1cs).length := by
      rcases hcase with ⟨-, hk⟩ | ⟨m, hm, -, -⟩
      · exact hk
      · cases hm
    have hj : j < k := by
      rw [hk]
      by_contra hc
      rw [List.getElem?_eq_none (by omega)] at hn
      cases hn
    obtain ⟨n1, v, hn1, hv, hw, hflag⟩ := hbound j hj
    rw [hn] at hn1
    cases hn1
    simp only [Nat.zero_add] at hw hflag
    obtain ⟨-, -, hext⟩ := solveLoop_extends _ _ _ _ _ hloop
    exact ⟨v, hv, by rw [(hext _ hflag).2]; exact hw⟩

/-- Claim C6.  With a well-formed wire table, after any call of `Solve` that gets past input
binding (it returns success or `UnsatisfiedConstraint`), the returned wire vector holds at index
`secretOffset + i` the conversion of the number assigned to the `i`-th secret name and at
`publicOffset + i` that of the `i`-th public name, except that a wire with the reserved name holds
one whatever the assignment says; so no solving step has overwritten an input wire. -/
theorem Solve_input_wires {p : ℕ} (limbs : ℕ) (r1cs : R1CS p) (assignment : Assignment)
    (a b c wireValues : List (ZMod p)) (res : SolveResult p) (hwt : WireTableOK r1cs)
    (h : Solve limbs r1cs assignment a b c wireValues = .ok res)
    (hpast : res.err = none ∨ ∃ x y z, res.err = some (.unsatisfiedConstraint x y z)) :
    (∀ i n, r1cs.SecretWires[i]? = some n →
      (n = OneWire → res.buffers.wireValues[
          (r1cs.NbWires - r1cs.NbPublicWires - r1cs.NbSecretWires).toNat + i]? = some 1) ∧
      (n ≠ OneWire → ∃ x, assignment n = some x ∧ res.buffers.wireValues[
          (r1cs.NbWires - r1cs.NbPublicWires - r1cs.NbSecretWires).toNat + i]?
            = some (SetInterface x))) ∧
    (∀ i n, r1cs.PublicWires[i]? = some n →
      (n = OneWire → res.buffers.wireValues[
          (r1cs.NbWires - r1cs.NbPublicWires).toNat + i]? = some 1) ∧
      (n ≠ OneWire → ∃ x, assignment n = some x ∧ res.buffers.wireValues[
          (r1cs.NbWires - r1cs.NbPublicWires).toNat + i]? = some (SetInterface x))) := by
  have key := Solve_inputNames_bound hwt h hpast
  obtain ⟨hs, hp, hle⟩ := hwt
  constructor
  · intro i n hn
    have hn1 : (inputNames r1cs)[i]? = some n := by
      have hi : i < r1cs.SecretWires.length := by
        by_contra hc
        rw [List.getElem?_eq_none (by omega)] at hn
        cases hn
      unfold inputNames
      rw [List.getElem?_append_left hi]
      exact hn
    obtain ⟨v, hv, hw⟩ := key i n hn1
    obtain ⟨h1, h2⟩ := inputValue_eq_some hv
    have hoff : inputOffset r1cs = (r1cs.NbWires - r1cs.NbPublicWires - r1cs.NbSecretWires).toNat :=
      rfl
    rw [← hoff]
    refine ⟨fun hc => ?_, fun hc => ?_⟩
    · rw [hw, h1 hc]
    · obtain ⟨x, hx, rfl⟩ := h2 hc
      exact ⟨x, hx, hw⟩
  · intro i n hn
    have hn1 : (inputNames r1cs)[r1cs.SecretWires.length + i]? = some n := by
      unfold inputNames
      rw [List.getElem?_append_right (by omega)]
      simpa using hn
    obtain ⟨v, hv, hw⟩ := key _ n hn1
    obtain ⟨h1, h2⟩ := inputValue_eq_some hv
    have hoff : (r1cs.NbWires - r1cs.NbPublicWires).toNat + i =
        inputOffset r1cs + (r1cs.SecretWires.length + i) := by
      unfold inputOffset
      omega
    rw [hoff]
    refine ⟨fun hc => ?_, fun hc => ?_⟩
    · rw [hw, h1 hc]
    · obtain ⟨x, hx, rfl⟩ := h2 hc
      exact ⟨x, hx, hw⟩

/-! ## The first unsatisfied constraint -/

/-- One turn of the main loop, computed from the outcome of its solving step and of its
evaluation. -/
theorem solveStep_eq {p : ℕ} {limbs : ℕ} {r1cs : R1CS p} {i : ℕ} {r : R1C} {s : Buffers p}
    {wI1 : List Bool} {wV1 : List (ZMod p)} {x y z : ZMod p}
    (h1 : solveComputed limbs r1cs i r s.wireInstantiated s.wireValues = .ok (wI1, wV1))
    (h2 : instantiateR1C r r1cs wV1 = .ok (x, y, z))
    (ha : i < s.a.length) (hb : i < s.b.length) (hc : i < s.c.length) :
    solveStep limbs r1cs i r s =
      .ok (if x * y ≠ z then
            some (.unsatisfiedConstraint (ElementString x) (ElementString y) (ElementString z))
          else none,
        { a := s.a.set i x, b := s.b.set i y, c := s.c.set i z, wireValues := wV1,
          wireInstantiated := wI1 }) := by
  unfold solveStep
  simp only [h1, h2, writeAt_of_lt _ ha, writeAt_of_lt _ hb, writeAt_of_lt _ hc]
  by_cases hprod : x * y = z
  · simp [hprod]
  · simp [hprod]

theorem stateBefore_succ {p : ℕ} {limbs : ℕ} {r1cs : R1CS p} {wI0 wI : List Bool}
    {wV0 wV : List (ZMod p)} {k : ℕ} {r : R1C}
    (h : stateBefore limbs r1cs wI0 wV0 k = .ok (wI, wV)) (hr : r1cs.Constraints[k]? = some r) :
    stateBefore limbs r1cs wI0 wV0 (k + 1) = solveComputed limbs r1cs k r wI wV := by
  rw [stateBefore, h]
  simp only [hr]

/-- The main loop, started at constraint `i` in the state the solving steps before `i` leave,
when the evaluated triples of the constraints `i..k-1` satisfy the product and that of constraint
`k` does not: the loop stops at `k` with the error of that triple; the entries `i..k` hold the
evaluated triples, the other entries are untouched. -/
theorem solveLoop_stops_at {p : ℕ} {limbs : ℕ} {r1cs : R1CS p} {wI0 : List Bool}
    {wV0 : List (ZMod p)} {k : ℕ} {x y z : ZMod p} {wIk : List Bool} {wVk : List (ZMod p)}
    (hstate : stateBefore limbs r1cs wI0 wV0 (k + 1) = .ok (wIk, wVk))
    (hbad : evaluatedTriple limbs r1cs wI0 wV0 k = .ok (x, y, z)) (hne : x * y ≠ z)
    (hgood : ∀ j, j < k → ∃ xj yj zj,
      evaluatedTriple limbs r1cs wI0 wV0 j = .ok (xj, yj, zj) ∧ xj * yj = zj) :
    ∀ (rest : List R1C) (i : ℕ) (s : Buffers p),
      (∀ j, rest[j]? = r1cs.Constraints[i + j]?) → i ≤ k → k < i + rest.length →
      stateBefore limbs r1cs wI0 wV0 i = .ok (s.wireInstantiated, s.wireValues) →
      k < s.a.length → k < s.b.length → k < s.c.length →
      ∃ s1, solveLoop limbs r1cs i rest s =
          .ok (some (.unsatisfiedConstraint (ElementString x) (ElementString y)
            (ElementString z)), s1) ∧
        s1.wireInstantiated = wIk ∧ s1.wireValues = wVk ∧
        s1.a[k]? = some x ∧ s1.b[k]? = some y ∧ s1.c[k]? = some z ∧
        (∀ j, i ≤ j → j < k → ∃ xj yj zj,
          evaluatedTriple limbs r1cs wI0 wV0 j = .ok (xj, yj, zj) ∧ xj * yj = zj ∧
          s1.a[j]? = some xj ∧ s1.b[j]? = some yj ∧ s1.c[j]? = some zj) ∧
        (∀ j, j < i ∨ k < j → s1.a[j]? = s.a[j]? ∧ s1.b[j]? = s.b[j]? ∧ s1.c[j]? = s.c[j]?) := by
  intro rest
  induction rest with
  | nil =>
    intro i s _ h1 h2
    simp only [List.length_nil] at h2
    omega
  | cons r rest ih =>
    intro i s hsuf hik hk hbefore hla hlb hlc
    have hr : r1cs.Constraints[i]? = some r := by
      have := hsuf 0
      simpa using this.symm
    have hsuf1 : ∀ j, rest[j]? = r1cs.Constraints[i + 1 + j]? := by
      intro j
      have := hsuf (j + 1)
      rw [List.getElem?_cons_succ] at this
      rw [this]
      congr 1
      omega
    have hnext := stateBefore_succ hbefore hr
    rw [solveLoop_cons]
    by_cases hik1 : i = k
    · subst hik1
      rw [hstate] at hnext
      have htriple : instantiateR1C r r1cs wVk = .ok (x, y, z) := by
        unfold evaluatedTriple at hbad
        rw [hstate] at hbad
        simpa only [hr] using hbad
      rw [solveStep_eq hnext.symm htriple hla hlb hlc]
      simp only [ne_eq, hne, not_false_eq_true, if_true]
      refine ⟨_, rfl, rfl, rfl, ?_, ?_, ?_, ?_, ?_⟩
      · exact List.getElem?_set_self hla
      · exact List.getElem?_set_self hlb
      · exact List.getElem?_set_self hlc
      · intro j h1 h2
        omega
      · intro j hj
        have hneq : i ≠ j := by omega
        simp [List.getElem?_set_ne hneq]
    · have hlt : i < k := by omega
      obtain ⟨xi, yi, zi, htri, hprod⟩ := hgood i hlt
      cases hst : stateBefore limbs r1cs wI0 wV0 (i + 1) with
      | error e =>
        unfold evaluatedTriple at htri
        rw [hst] at htri
        cases htri
      | ok w =>
        obtain ⟨wI1, wV1⟩ := w
        rw [hst] at hnext
        have htriple : instantiateR1C r r1cs wV1 = .ok (xi, yi, zi) := by
          unfold evaluatedTriple at htri
          rw [hst] at htri
          simpa only [hr] using htri
        rw [solveStep_eq hnext.symm htriple (by omega) (by omega) (by omega)]
        simp only [ne_eq, hprod, not_true_eq_false, if_false]
        obtain ⟨s1, hrun, hwI, hwV, hxa, hxb, hxc, hmid, hout⟩ :=
          ih (i + 1) { a := s.a.set i xi, b := s.b.set i yi, c := s.c.set i zi,
                       wireValues := wV1, wireInstantiated := wI1 }
            hsuf1 (by omega) (by simp only [List.length_cons] at hk; omega) hst
            (by simp only [List.length_set]; exact hla)
            (by simp only [List.length_set]; exact hlb)
            (by simp only [List.length_set]; exact hlc)
        refine ⟨s1, hrun, hwI, hwV, hxa, hxb, hxc, ?_, ?_⟩
        · intro j h1 h2
          by_cases hji : j = i
          · subst hji
            obtain ⟨e1, e2, e3⟩ := hout j (Or.inl (by omega))
            simp only at e1 e2 e3
            refine ⟨xi, yi, zi, htri, hprod, ?_, ?_, ?_⟩
            · rw [e1, List.getElem?_set_self (by omega)]
            · rw [e2, List.getElem?_set_self (by omega)]
            · rw [e3, List.getElem?_set_self (by omega)]
          · exact hmid j (by omega) h2
        · intro j hj
          obtain ⟨e1, e2, e3⟩ := hout j (by omega)
          simp only at e1 e2 e3
          have hneq : i ≠ j := by omega
          rw [e1, e2, e3]
          simp [List.getElem?_set_ne hneq]

/-! ## Evaluation on a state that agrees with a wire vector -/

/-- Adding up terms from an accumulator is the accumulator plus the sum from zero. -/
theorem accumulate_val {p : ℕ} (r1cs : R1CS p) (w : List (ZMod p)) :
    ∀ (ts : List Term) (val : ZMod p),
      accumulate r1cs w ts val =
        match accumulate r1cs w ts 0 with
        | .error e => .error e
        | .ok s => .ok (val + s) := by
  intro ts
  induction ts with
  | nil => intro val; simp [accumulate]
  | cons t ts ih =>
    intro val
    rw [accumulate, accumulate]
    cases readAt w t.ConstraintID with
    | error e => rfl
    | ok v =>
      simp only [AddTerm_eq]
      cases termCoefficient r1cs t with
      | error e => rfl
      | ok k =>
        simp only
        rw [ih (val + k * v), ih (0 + k * v)]
        cases accumulate r1cs w ts 0 with
        | error e => rfl
        | ok s =>
          simp only [Except.ok.injEq]
          ring

/-- The sum of a linear expression with a distinguished term `t` is the sum of the other terms
plus the coefficient of `t` times the value of its wire. -/
theorem accumulate_split {p : ℕ} {r1cs : R1CS p} {w : List (ZMod p)} {pre post : List Term}
    {t : Term} {x : ZMod p} (h : accumulate r1cs w (pre ++ t :: post) 0 = .ok x) :
    ∃ s k v, accumulate r1cs w (pre ++ post) 0 = .ok s ∧ termCoefficient r1cs t = .ok k ∧
      w[t.ConstraintID]? = some v ∧ x = s + k * v := by
  rw [accumulate_append] at h
  rw [accumulate_append]
  cases h1 : accumulate r1cs w pre 0 with
  | error e => simp [h1] at h
  | ok s1 =>
    simp only [h1] at h ⊢
    rw [accumulate] at h
    cases h2 : readAt w t.ConstraintID with
    | error e => simp [h2] at h
    | ok v =>
      simp only [h2, AddTerm_eq] at h
      cases h3 : termCoefficient r1cs t with
      | error e => simp [h3] at h
      | ok k =>
        simp only [h3] at h
        rw [accumulate_val] at h
        rw [accumulate_val r1cs w post s1]
        cases h4 : accumulate r1cs w post 0 with
        | error e => simp [h4] at h
        | ok s3 =>
          simp only [h4, Except.ok.injEq] at h
          refine ⟨s1 + s3, k, v, rfl, rfl, readAt_eq_ok.1 h2, ?_⟩
          rw [← h]
          ring

/-- On terms whose wires are all marked, a state that agrees with `w` gives the sum `w` gives. -/
theorem accumulate_agree {p : ℕ} {r1cs : R1CS p} {wI : List Bool} {wV w : List (ZMod p)}
    (hag : Agree wI wV w) :
    ∀ (ts : List Term) (val : ZMod p), Known wI ts →
      accumulate r1cs wV ts val = accumulate r1cs w ts val := by
  intro ts
  induction ts with
  | nil => intro val _; rfl
  | cons t ts ih =>
    intro val hk
    have ht : wV[t.ConstraintID]? = w[t.ConstraintID]? :=
      hag.2.2 _ (hk t (List.mem_cons_self _ _))
    have hts : Known wI ts := fun t1 h1 => hk t1 (List.mem_cons_of_mem _ h1)
    rw [accumulate, accumulate]
    have hread : readAt wV t.ConstraintID = readAt w t.ConstraintID := by
      unfold readAt
      rw [ht]
    rw [hread]
    cases readAt w t.ConstraintID with
    | error e => rfl
    | ok v =>
      simp only
      cases AddTerm r1cs val t v with
      | error e => rfl
      | ok acc => simp only; exact ih acc hts

theorem instantiateR1C_agree {p : ℕ} {r1cs : R1CS p} {wI : List Bool} {wV w : List (ZMod p)}
    (hag : Agree wI wV w) (r : R1C) (hL : Known wI r.L) (hR : Known wI r.R)
    (hO : Known wI r.O) : instantiateR1C r r1cs wV = instantiateR1C r r1cs w := by
  unfold instantiateR1C
  rw [accumulate_agree hag r.L 0 hL, accumulate_agree hag r.R 0 hR,
    accumulate_agree hag r.O 0 hO]

/-- The three sums of a constraint that evaluates. -/
theorem instantiateR1C_ok {p : ℕ} {r1cs : R1CS p} {w : List (ZMod p)} {r : R1C}
    {x y z : ZMod p} (h : instantiateR1C r r1cs w = .ok (x, y, z)) :
    accumulate r1cs w r.L 0 = .ok x ∧ accumulate r1cs w r.R 0 = .ok y ∧
      accumulate r1cs w r.O 0 = .ok z := by
  unfold instantiateR1C at h
  cases h1 : accumulate r1cs w r.L 0 with
  | error e => simp [h1] at h
  | ok a =>
    simp only [h1] at h
    cases h2 : accumulate r1cs w r.R 0 with
    | error e => simp [h2] at h
    | ok b =>
      simp only [h2] at h
      cases h3 : accumulate r1cs w r.O 0 with
      | error e => simp [h3] at h
      | ok c =>
        simp only [h3, Except.ok.injEq, Prod.mk.injEq] at h
        obtain ⟨rfl, rfl, rfl⟩ := h
        exact ⟨rfl, rfl, rfl⟩

/-- Marking an unmarked wire and storing in it the value it has in `w` keeps the agreement. -/
theorem Agree.store {p : ℕ} {wI : List Bool} {wV w : List (ZMod p)} {cID : ℕ} {v : ZMod p}
    (hag : Agree wI wV w) (hv : w[cID]? = some v) :
    Agree (wI.set cID true) (wV.set cID v) w := by
  obtain ⟨h1, h2, h3⟩ := hag
  refine ⟨by simp only [List.length_set]; exact h1, by simp only [List.length_set]; exact h2, ?_⟩
  intro q hq
  by_cases hqc : cID = q
  · subst hqc
    have hlt : cID < w.length := by
      by_contra hc
      rw [List.getElem?_eq_none (by omega)] at hv
      cases hv
    rw [List.getElem?_set_self (by omega), hv]
  · rw [List.getElem?_set_ne hqc] at hq ⊢
    exact h3 q hq

/-- The coefficient of a term with the fast-path value `1` or `-1` squares to one. -/
theorem termCoefficient_unit {p : ℕ} (r1cs : R1CS p) {t : Term}
    (h : t.CoeffValue = 1 ∨ t.CoeffValue = -1) :
    ∃ k : ZMod p, termCoefficient r1cs t = .ok k ∧ k * k = 1 := by
  unfold termCoefficient
  rcases h with h | h
  · exact ⟨1, by simp [h], by ring⟩
  · exact ⟨-1, by simp [h], by ring⟩

/-- Division undoes a multiplication by a non-zero element of a prime field. -/
theorem Div_mul_cancel {p : ℕ} [Fact p.Prime] (x y : ZMod p) (hy : y ≠ 0) :
    Div (x * y) y = x := by
  unfold Div
  rw [mul_assoc, ZMod.mul_inv_of_unit y (IsUnit.mk0 y hy), mul_one]

/-! ## A solving step computes the values of a satisfying wire vector -/

theorem Known.append {wI : List Bool} {pre post : List Term} (h1 : Known wI pre)
    (h2 : Known wI post) : Known wI (pre ++ post) := by
  intro t ht
  rcases List.mem_append.1 ht with h | h
  · exact h1 t h
  · exact h2 t h

theorem lt_length_of_getElem? {α : Type} {l : List α} {i : ℕ} {v : α} (h : l[i]? = some v) :
    i < l.length := by
  by_contra hc
  rw [List.getElem?_eq_none (by omega)] at h
  cases h

/-- The `SingleOutput` step with the wire to compute in `L`. -/
theorem solveR1C_agree_L {p : ℕ} [Fact p.Prime] {limbs : ℕ} {r1cs : R1CS p} {r : R1C}
    {wI : List Bool} {wV w : List (ZMod p)} {pre post : List Term} {t : Term}
    (hag : Agree wI wV w) (hsat : Satisfies r1cs w r) (hs : r.Solver = .SingleOutput)
    (hL : r.L = pre ++ t :: post) (hone : OneUnknown wI pre t post) (hR : Known wI r.R)
    (hO : Known wI r.O) (hnz : accumulate r1cs w r.R 0 ≠ .ok 0) :
    ∃ wI1 wV1, solveR1C limbs r1cs r wI wV = .ok (wI1, wV1) ∧ Agree wI1 wV1 w := by
  obtain ⟨x, y, z, heval, hprod⟩ := hsat
  obtain ⟨hx, hy, hz⟩ := instantiateR1C_ok heval
  obtain ⟨hpre, hpost, ht, hcoef⟩ := hone
  rw [hL] at hx
  obtain ⟨s, k, v, hsum, hk, hv, hxe⟩ := accumulate_split hx
  obtain ⟨k1, hk1, hunit⟩ := termCoefficient_unit r1cs hcoef
  rw [hk] at hk1
  cases hk1
  have hy0 : y ≠ 0 := by
    intro hc
    apply hnz
    rw [hy, hc]
  have hlt : t.ConstraintID < wV.length := by
    have := lt_length_of_getElem? ht
    rw [← hag.1]
    exact this
  have hval : (Div z y - s) * k = v := by
    rw [← hprod, Div_mul_cancel x y hy0, hxe]
    have : (s + k * v - s) * k = (k * k) * v := by ring
    rw [this, hunit, one_mul]
  refine ⟨wI.set t.ConstraintID true, wV.set t.ConstraintID v, ?_, hag.store hv⟩
  rw [solveR1C_unknown_L limbs r1cs r wI wV pre post t s y z hs hL hpre hpost ht hR hO
    (by rw [accumulate_agree hag _ 0 (hpre.append hpost)]; exact hsum)
    (by rw [accumulate_agree hag _ 0 hR]; exact hy)
    (by rw [accumulate_agree hag _ 0 hO]; exact hz)]
  simp only [ne_eq, hy0, not_false_eq_true, if_true, hk, hval, writeAt_of_lt v hlt]

/-- The `SingleOutput` step with the wire to compute in `R`. -/
theorem solveR1C_agree_R {p : ℕ} [Fact p.Prime] {limbs : ℕ} {r1cs : R1CS p} {r : R1C}
    {wI : List Bool} {wV w : List (ZMod p)} {pre post : List Term} {t : Term}
    (hag : Agree wI wV w) (hsat : Satisfies r1cs w r) (hs : r.Solver = .SingleOutput)
    (hR : r.R = pre ++ t :: post) (hone : OneUnknown wI pre t post) (hL : Known wI r.L)
    (hO : Known wI r.O) (hnz : accumulate r1cs w r.L 0 ≠ .ok 0) :
    ∃ wI1 wV1, solveR1C limbs r1cs r wI wV = .ok (wI1, wV1) ∧ Agree wI1 wV1 w := by
  obtain ⟨x, y, z, heval, hprod⟩ := hsat
  obtain ⟨hx, hy, hz⟩ := instantiateR1C_ok heval
  obtain ⟨hpre, hpost, ht, hcoef⟩ := hone
  rw [hR] at hy
  obtain ⟨s, k, v, hsum, hk, hv, hye⟩ := accumulate_split hy
  obtain ⟨k1, hk1, hunit⟩ := termCoefficient_unit r1cs hcoef
  rw [hk] at hk1
  cases hk1
  have hx0 : x ≠ 0 := by
    intro hc
    apply hnz
    rw [hx, hc]
  have hlt : t.ConstraintID < wV.length := by
    have := lt_length_of_getElem? ht
    rw [← hag.1]
    exact this
  have hval : (Div z x - s) * k = v := by
    rw [← hprod, mul_comm x y, Div_mul_cancel y x hx0, hye]
    have : (s + k * v - s) * k = (k * k) * v := by ring
    rw [this, hunit, one_mul]
  refine ⟨wI.set t.ConstraintID true, wV.set t.ConstraintID v, ?_, hag.store hv⟩
  rw [solveR1C_unknown_R limbs r1cs r wI wV pre post t x s z hs hL hR hpre hpost ht hO
    (by rw [accumulate_agree hag _ 0 hL]; exact hx)
    (by rw [accumulate_agree hag _ 0 (hpre.append hpost)]; exact hsum)
    (by rw [accumulate_agree hag _ 0 hO]; exact hz)]
  simp only [ne_eq, hx0, not_false_eq_true, if_true, hk, hval, writeAt_of_lt v hlt]

/-- The `SingleOutput` step with the wire to compute in `O`. -/
theorem solveR1C_agree_O {p : ℕ} {limbs : ℕ} {r1cs : R1CS p} {r : R1C}
    {wI : List Bool} {wV w : List (ZMod p)} {pre post : List Term} {t : Term}
    (hag : Agree wI wV w) (hsat : Satisfies r1cs w r) (hs : r.Solver = .SingleOutput)
    (hO : r.O = pre ++ t :: post) (hone : OneUnknown wI pre t post) (hL : Known wI r.L)
    (hR : Known wI r.R) :
    ∃ wI1 wV1, solveR1C limbs r1cs r wI wV = .ok (wI1, wV1) ∧ Agree wI1 wV1 w := by
  obtain ⟨x, y, z, heval, hprod⟩ := hsat
  obtain ⟨hx, hy, hz⟩ := instantiateR1C_ok heval
  obtain ⟨hpre, hpost, ht, hcoef⟩ := hone
  rw [hO] at hz
  obtain ⟨s, k, v, hsum, hk, hv, hze⟩ := accumulate_split hz
  obtain ⟨k1, hk1, hunit⟩ := termCoefficient_unit r1cs hcoef
  rw [hk] at hk1
  cases hk1
  have hlt : t.ConstraintID < wV.length := by
    have := lt_length_of_getElem? ht
    rw [← hag.1]
    exact this
  have hval : (x * y - s) * k = v := by
    rw [hprod, hze]
    have : (s + k * v - s) * k = (k * k) * v := by ring
    rw [this, hunit, one_mul]
  refine ⟨wI.set t.ConstraintID true, wV.set t.ConstraintID v, ?_, hag.store hv⟩
  rw [solveR1C_unknown_O limbs r1cs r wI wV pre post t x y s hs hL hR hO hpre hpost ht
    (by rw [accumulate_agree hag _ 0 hL]; exact hx)
    (by rw [accumulate_agree hag _ 0 hR]; exact hy)
    (by rw [accumulate_agree hag _ 0 (hpre.append hpost)]; exact hsum)]
  simp only [hk, hval, writeAt_of_lt v hlt]

/-- The `BinaryDec` step. -/
theorem solveR1C_agree_bits {p : ℕ} {limbs : ℕ} {r1cs : R1CS p} {r : R1C}
    {wI : List Bool} {wV w : List (ZMod p)} {o : Term} {os : List Term} {n : ZMod p}
    (hag : Agree wI wV w) (hs : r.Solver = .BinaryDec) (hO : r.O = o :: os)
    (ho : wI[o.ConstraintID]? = some true) (hn : w[o.ConstraintID]? = some n)
    (hm : r.L.length ≤ 64 * limbs) (hwires : ∀ t ∈ r.L, t.ConstraintID < wI.length)
    (hdist : (r.L.map Term.ConstraintID).Nodup)
    (hbits : ∀ j t, r.L[j]? = some t → wI[t.ConstraintID]? = some false →
      w[t.ConstraintID]? = some ((n.val / 2 ^ j % 2 : ℕ) : ZMod p)) :
    ∃ wI1 wV1, solveR1C limbs r1cs r wI wV = .ok (wI1, wV1) ∧ Agree wI1 wV1 w := by
  obtain ⟨hl1, hl2, hval⟩ := hag
  have hnV : wV[o.ConstraintID]? = some n := by rw [hval _ ho]; exact hn
  obtain ⟨wI1, wV1, hrun, hset, hext, hframe⟩ :=
    binaryDec_run limbs r1cs r wI wV o os n hs hO hnV hl1
      (fun t ht => by rw [← hl1]; exact hwires t ht) hdist hm
  refine ⟨wI1, wV1, hrun, by rw [hext.1, hext.2.1]; exact hl1, by rw [hext.2.1]; exact hl2, ?_⟩
  intro q hq
  cases hflag : wI[q]? with
  | none =>
    have h1 : wI.length ≤ q := List.getElem?_eq_none_iff.1 hflag
    have h2 := lt_length_of_getElem? hq
    rw [hext.1] at h2
    omega
  | some flag =>
    cases flag with
    | true =>
      rw [(hext.2.2 q hflag).2]
      exact hval q hflag
    | false =>
      have hin : ∃ t ∈ r.L, t.ConstraintID = q := by
        by_contra hc
        have hne : ∀ t ∈ r.L, t.ConstraintID ≠ q := by
          intro t ht heq
          exact hc ⟨t, ht, heq⟩
        rw [hframe q hne, hflag] at hq
        cases hq
      obtain ⟨t, ht, rfl⟩ := hin
      obtain ⟨j, hj⟩ := List.mem_iff_getElem?.1 ht
      rw [(hset j t hj hflag).1, hbits j t hj hflag]

/-- A solving step on a state that agrees with a wire vector satisfying the constraint, under the
conditions of `StepOK`: the step completes and the new state agrees with the wire vector. -/
theorem solveR1C_agree {p : ℕ} [Fact p.Prime] {limbs : ℕ} {r1cs : R1CS p} {r : R1C}
    {wI : List Bool} {wV w : List (ZMod p)} (hag : Agree wI wV w)
    (hstep : StepOK limbs r1cs w r wI) (hsat : Satisfies r1cs w r) :
    ∃ wI1 wV1, solveR1C limbs r1cs r wI wV = .ok (wI1, wV1) ∧ Agree wI1 wV1 w := by
  unfold StepOK at hstep
  cases hs : r.Solver with
  | SingleOutput =>
    simp only [hs] at hstep
    rcases hstep with ⟨hL, hR, hO⟩ | ⟨pre, t, post, hL, hone, hR, hO, hnz⟩ |
      ⟨pre, t, post, hR, hone, hL, hO, hnz⟩ | ⟨pre, t, post, hO, hone, hL, hR⟩
    · obtain ⟨x, y, z, heval, -⟩ := hsat
      obtain ⟨hx, hy, hz⟩ := instantiateR1C_ok heval
      exact ⟨wI, wV, solveR1C_all_known limbs r1cs r wI wV x y z hs hL hR hO
        (by rw [accumulate_agree hag _ 0 hL]; exact hx)
        (by rw [accumulate_agree hag _ 0 hR]; exact hy)
        (by rw [accumulate_agree hag _ 0 hO]; exact hz), hag⟩
    · exact solveR1C_agree_L hag hsat hs hL hone hR hO hnz
    · exact solveR1C_agree_R hag hsat hs hR hone hL hO hnz
    · exact solveR1C_agree_O hag hsat hs hO hone hL hR
  | BinaryDec =>
    simp only [hs] at hstep
    obtain ⟨o, os, n, hO, ho, hn, hm, hwires, hdist, hbits⟩ := hstep
    exact solveR1C_agree_bits hag hs hO ho hn hm hwires hdist hbits
  | unimplemented =>
    simp only [hs] at hstep

/-! ## Completeness of the solver -/

theorem instantiateInputs_length {p : ℕ} (assignment : Assignment) (offset : ℤ) :
    ∀ (names : List String) (i : ℕ) (wI : List Bool) (wV : List (ZMod p))
      (o : Option String) (wI1 : List Bool) (wV1 : List (ZMod p)),
      instantiateInputs assignment offset i names wI wV = .ok (o, wI1, wV1) →
      wI1.length = wI.length ∧ wV1.length = wV.length := by
  intro names
  induction names with
  | nil =>
    intro i wI wV o wI1 wV1 h
    simp only [instantiateInputs, Except.ok.injEq, Prod.mk.injEq] at h
    obtain ⟨-, rfl, rfl⟩ := h
    exact ⟨rfl, rfl⟩
  | cons n rest ih =>
    intro i wI wV o wI1 wV1 h
    rw [instantiateInputs_cons] at h
    cases hv : inputValue (p := p) assignment n with
    | none =>
      simp only [hv, Except.ok.injEq, Prod.mk.injEq] at h
      obtain ⟨-, rfl, rfl⟩ := h
      exact ⟨rfl, rfl⟩
    | some v =>
      simp only [hv] at h
      cases hw1 : writeAtInt wV (i + offset) v with
      | error e => simp [hw1] at h
      | ok wVa =>
        simp only [hw1] at h
        cases hw2 : writeAtInt wI (i + offset) true with
        | error e => simp [hw2] at h
        | ok wIa =>
          simp only [hw2] at h
          obtain ⟨-, -, rfl⟩ := writeAtInt_eq_ok.1 hw1
          obtain ⟨-, -, rfl⟩ := writeAtInt_eq_ok.1 hw2
          obtain ⟨h1, h2⟩ := ih _ _ _ _ _ _ h
          exact ⟨by rw [h1, List.length_set], by rw [h2, List.length_set]⟩

theorem bindInputs_length {p : ℕ} {r1cs : R1CS p} {assignment : Assignment} {wI wI1 : List Bool}
    {wV wV1 : List (ZMod p)} {o : Option String}
    (h : bindInputs r1cs assignment wI wV = .ok (o, wI1, wV1)) :
    wI1.length = wI.length ∧ wV1.length = wV.length := by
  unfold bindInputs at h
  by_cases h0 : r1cs.NbSecretWires = 0
  · simp only [h0, ne_eq, not_true_eq_false, if_false] at h
    exact instantiateInputs_length _ _ _ _ _ _ _ _ _ h
  · simp only [ne_eq, h0, not_false_eq_true, if_true] at h
    cases hs : instantiateInputs assignment
        (r1cs.NbWires - r1cs.NbPublicWires - r1cs.NbSecretWires) 0 r1cs.SecretWires wI wV with
    | error e => simp [hs] at h
    | ok w1 =>
      obtain ⟨o1, wIa, wVa⟩ := w1
      obtain ⟨h1, h2⟩ := instantiateInputs_length _ _ _ _ _ _ _ _ _ hs
      cases o1 with
      | some name =>
        simp only [hs, Except.ok.injEq, Prod.mk.injEq] at h
        obtain ⟨-, rfl, rfl⟩ := h
        exact ⟨h1, h2⟩
      | none =>
        simp only [hs] at h
        obtain ⟨h3, h4⟩ := instantiateInputs_length _ _ _ _ _ _ _ _ _ h
        exact ⟨h3.trans h1, h4.trans h2⟩

theorem resolveWires_ok {p : ℕ} {wV : List (ZMod p)} {wI : List Bool}
    (hlen : wI.length = wV.length) :
    ∀ ids : List ℕ, (∀ q ∈ ids, wI[q]? = some true) →
      ∃ strs, resolveWires wV wI ids = .ok strs := by
  intro ids
  induction ids with
  | nil => intro _; exact ⟨[], rfl⟩
  | cons q rest ih =>
    intro h
    have hq : wI[q]? = some true := h q (List.mem_cons_self _ _)
    obtain ⟨strs, hrest⟩ := ih (fun q1 h1 => h q1 (List.mem_cons_of_mem _ h1))
    have hlt : q < wV.length := by rw [← hlen]; exact lt_length_of_getElem? hq
    rw [resolveWires, readAt_of_getElem? hq]
    simp only
    rw [readAt_of_getElem? (List.getElem?_eq_getElem hlt), hrest]
    exact ⟨_, rfl⟩

/-- Log resolution completes when every wire the log entries name is marked. -/
theorem printLogs_ok {p : ℕ} {wV : List (ZMod p)} {wI : List Bool}
    (hlen : wI.length = wV.length) :
    ∀ logs : List LogEntry, (∀ e ∈ logs, ∀ q ∈ e.ToResolve, wI[q]? = some true) →
      ∃ out, printLogs wV wI logs = .ok out := by
  intro logs
  induction logs with
  | nil => intro _; exact ⟨[], rfl⟩
  | cons e rest ih =>
    intro h
    obtain ⟨strs, hstrs⟩ := resolveWires_ok hlen e.ToResolve (h e (List.mem_cons_self _ _))
    obtain ⟨out, hout⟩ := ih (fun e1 h1 => h e1 (List.mem_cons_of_mem _ h1))
    rw [printLogs, hstrs]
    simp only
    rw [hout]
    exact ⟨_, rfl⟩

/-- The main loop, started at constraint `i` in the state the solving steps before `i` leave,
when that state agrees with a wire vector that satisfies every constraint, every solving step
meets the conditions of `StepOK` and every constraint is evaluated on wires with a value: the
loop runs to the end without an unsatisfied constraint, and the final state agrees with the wire
vector. -/
theorem solveLoop_complete {p : ℕ} [Fact p.Prime] {limbs : ℕ} {r1cs : R1CS p} {wI0 : List Bool}
    {wV0 w : List (ZMod p)}
    (hsat : ∀ r ∈ r1cs.Constraints, Satisfies r1cs w r)
    (hstep : ∀ (i : ℕ) r wI wV, r1cs.Constraints[i]? = some r → (i : ℤ) < r1cs.NbCOConstraints →
      stateBefore limbs r1cs wI0 wV0 i = .ok (wI, wV) → StepOK limbs r1cs w r wI)
    (hknown : ∀ (i : ℕ) r wI wV, r1cs.Constraints[i]? = some r →
      stateBefore limbs r1cs wI0 wV0 (i + 1) = .ok (wI, wV) →
      Known wI r.L ∧ Known wI r.R ∧ Known wI r.O) :
    ∀ (rest : List R1C) (i : ℕ) (s : Buffers p),
      (∀ j, rest[j]? = r1cs.Constraints[i + j]?) →
      stateBefore limbs r1cs wI0 wV0 i = .ok (s.wireInstantiated, s.wireValues) →
      Agree s.wireInstantiated s.wireValues w →
      i + rest.length ≤ s.a.length → i + rest.length ≤ s.b.length →
      i + rest.length ≤ s.c.length →
      ∃ s1, solveLoop limbs r1cs i rest s = .ok (none, s1) ∧
        stateBefore limbs r1cs wI0 wV0 (i + rest.length)
          = .ok (s1.wireInstantiated, s1.wireValues) ∧
        Agree s1.wireInstantiated s1.wireValues w := by
  intro rest
  induction rest with
  | nil =>
    intro i s _ hbefore hag _ _ _
    exact ⟨s, rfl, hbefore, hag⟩
  | cons r rest ih =>
    intro i s hsuf hbefore hag hla hlb hlc
    simp only [List.length_cons] at hla hlb hlc
    have hr : r1cs.Constraints[i]? = some r := by
      have := hsuf 0
      simpa using this.symm
    have hsuf1 : ∀ j, rest[j]? = r1cs.Constraints[i + 1 + j]? := by
      intro j
      have := hsuf (j + 1)
      rw [List.getElem?_cons_succ] at this
      rw [this]
      congr 1
      omega
    have hmem : r ∈ r1cs.Constraints := List.getElem?_mem hr
    have hnext := stateBefore_succ hbefore hr
    obtain ⟨wI1, wV1, hsolved, hag1⟩ : ∃ wI1 wV1,
        solveComputed limbs r1cs i r s.wireInstantiated s.wireValues = .ok (wI1, wV1) ∧
          Agree wI1 wV1 w := by
      unfold solveComputed
      by_cases hi : (i : ℤ) < r1cs.NbCOConstraints
      · rw [if_pos hi]
        exact solveR1C_agree hag (hstep i r _ _ hr hi hbefore) (hsat r hmem)
      · rw [if_neg hi]
        exact ⟨_, _, rfl, hag⟩
    rw [hsolved] at hnext
    obtain ⟨hL, hR, hO⟩ := hknown i r wI1 wV1 hr hnext
    obtain ⟨x, y, z, heval, hprod⟩ := hsat r hmem
    have heval1 : instantiateR1C r r1cs wV1 = .ok (x, y, z) := by
      rw [instantiateR1C_agree hag1 r hL hR hO]
      exact heval
    rw [solveLoop_cons, solveStep_eq hsolved heval1 (by omega) (by omega) (by omega)]
    simp only [ne_eq, hprod, not_true_eq_false, if_false]
    obtain ⟨s1, hrun, hfin, hag2⟩ :=
      ih (i + 1) { a := s.a.set i x, b := s.b.set i y, c := s.c.set i z,
                   wireValues := wV1, wireInstantiated := wI1 }
        hsuf1 hnext hag1
        (by simp only [List.length_set]; omega) (by simp only [List.length_set]; omega)
        (by simp only [List.length_set]; omega)
    refine ⟨s1, hrun, ?_, hag2⟩
    have e : i + (rest.length + 1) = i + 1 + rest.length := by omega
    rw [List.length_cons, e]
    exact hfin

/-! ## The claims on concrete circuits -/

/-- Witness of claim C1: `Solve` succeeds on `x * x = y` with `x = 3`, and the product holds. -/
theorem Solve_success_products_witness :
    Solve 4 squareR1CS squareAssignment [0] [0] [0] [0, 0, 0] = .ok squareResult ∧
    ∀ i : ℕ, (i : ℤ) < squareR1CS.NbConstraints →
      ∃ x y z, squareResult.buffers.a[i]? = some x ∧ squareResult.buffers.b[i]? = some y ∧
        squareResult.buffers.c[i]? = some z ∧ x * y = z :=
  ⟨rfl, Solve_success_products 4 squareR1CS squareAssignment [0] [0] [0] [0, 0, 0] squareResult
    rfl rfl rfl⟩

/-- Witness of claim C5: on `x * x = y`, an empty `a` gives the size error and leaves the
buffers alone, and correctly sized buffers give a result without that error. -/
theorem Solve_invalidInputSize_witness :
    (∃ res, Solve 4 squareR1CS squareAssignment [] [0] [0] [5, 6, 7] = .ok res ∧
      res.err = some .invalidInputSize ∧ res.buffers.a = [] ∧ res.buffers.b = [0] ∧
      res.buffers.c = [0] ∧ res.buffers.wireValues = [5, 6, 7]) ∧
    squareResult.err ≠ some .invalidInputSize :=
  ⟨(Solve_invalidInputSize 4 squareR1CS squareAssignment [] [0] [0] [5, 6, 7]).1
      (Or.inl (by decide)),
    (Solve_invalidInputSize 4 squareR1CS squareAssignment [0] [0] [0] [0, 0, 0]).2
      ⟨rfl, rfl, rfl, rfl⟩ squareResult rfl⟩

/-- Witness of claim C4: with `x = 3` and no `z`, `Solve` on `x * z = y` returns `InputNotSet`
for `z`; the wire of `x` holds `3` and the other wires are as passed. -/
theorem Solve_inputNotSet_witness :
    ∃ res, Solve 4 productR1CS squareAssignment [0] [0] [0] [5, 6, 7, 8] = .ok res ∧
      res.err = some (.inputNotSet "z") ∧
      res.buffers.a = [0] ∧ res.buffers.b = [0] ∧ res.buffers.c = [0] ∧
      (∀ i n, i < 1 → (inputNames productR1CS)[i]? = some n →
        res.buffers.wireValues[inputOffset productR1CS + i]? = inputValue squareAssignment n) ∧
      (∀ q, q < inputOffset productR1CS ∨ inputOffset productR1CS + 1 ≤ q →
        res.buffers.wireValues[q]? = ([5, 6, 7, 8] : List (ZMod frModulus))[q]?) :=
  Solve_inputNotSet 4 productR1CS squareAssignment [0] [0] [0] [5, 6, 7, 8]
    ⟨rfl, rfl, rfl, rfl⟩ ⟨rfl, rfl, by decide⟩ 1 "z" rfl (by decide) rfl
    (fun i n hi hn => by
      have h0 : i = 0 := by omega
      subst h0
      have hx : n = "x" := (Option.some.inj hn).symm
      subst hx
      exact Or.inr (by decide))

/-- Witness of claim C6: after `Solve` on `x * x = y` with `x = 3`, the wire of `x` holds `3`
and the reserved wire holds one. -/
theorem Solve_input_wires_witness :
    Solve 4 squareR1CS squareAssignment [0] [0] [0] [0, 0, 0] = .ok squareResult ∧
    ((∀ i n, squareR1CS.SecretWires[i]? = some n →
      (n = OneWire → squareResult.buffers.wireValues[
          (squareR1CS.NbWires - squareR1CS.NbPublicWires - squareR1CS.NbSecretWires).toNat + i]?
            = some 1) ∧
      (n ≠ OneWire → ∃ x, squareAssignment n = some x ∧ squareResult.buffers.wireValues[
          (squareR1CS.NbWires - squareR1CS.NbPublicWires - squareR1CS.NbSecretWires).toNat + i]?
            = some (SetInterface x))) ∧
    (∀ i n, squareR1CS.PublicWires[i]? = some n →
      (n = OneWire → squareResult.buffers.wireValues[
          (squareR1CS.NbWires - squareR1CS.NbPublicWires).toNat + i]? = some 1) ∧
      (n ≠ OneWire → ∃ x, squareAssignment n = some x ∧ squareResult.buffers.wireValues[
          (squareR1CS.NbWires - squareR1CS.NbPublicWires).toNat + i]?
            = some (SetInterface x)))) :=
  ⟨rfl, Solve_input_wires 4 squareR1CS squareAssignment [0] [0] [0] [0, 0, 0] squareResult
    ⟨rfl, rfl, by decide⟩ rfl (Or.inl rfl)⟩

/-- Witness of claim C10: the three bits of `n = 5` are `1`, `0`, `1`. -/
theorem solveR1C_binaryDec_witness :
    ∃ wI1 wV1, solveR1C 4 bitsR1CS bitsConstraint [false, false, false, true, true]
        [0, 0, 0, 5, 1] = .ok (wI1, wV1) ∧
      (∀ j t, bitsConstraint.L[j]? = some t →
        [false, false, false, true, true][t.ConstraintID]? = some false →
        wV1[t.ConstraintID]? = some (((5 : ZMod frModulus).val / 2 ^ j % 2 : ℕ) : ZMod frModulus) ∧
          (5 : ZMod frModulus).val / 2 ^ j % 2 < 2 ∧ wI1[t.ConstraintID]? = some true) ∧
      (∀ q : ℕ, [false, false, false, true, true][q]? = some true →
        wI1[q]? = some true ∧ wV1[q]? = ([0, 0, 0, 5, 1] : List (ZMod frModulus))[q]?) :=
  solveR1C_binaryDec 4 bitsR1CS bitsConstraint [false, false, false, true, true] [0, 0, 0, 5, 1]
    ⟨3, 1, 0⟩ [] 5 rfl rfl rfl rfl (by decide) (by decide) (by decide)

/-! ## The coefficient of the wire to compute -/

theorem Div_one {n : ℕ} (x : ZMod n) : Div x 1 = x := by
  unfold Div
  have h : (1 : ZMod n) * 1⁻¹ = 1 := ZMod.mul_inv_of_unit 1 isUnit_one
  rw [one_mul] at h
  rw [h, mul_one]

theorem frModulus_two_mul_inv : (2 : ZMod frModulus) * 2⁻¹ = 1 := by
  rw [ZMod.mul_inv_eq_gcd]
  have h : Nat.gcd (2 : ZMod frModulus).val frModulus = 1 := by decide
  rw [h, Nat.cast_one]

/-- Claim C8, at the input where the code departs from it.  Solving `x * 1 = 2 * y` for `y` with
`x = 6`, where the sums of the known terms are `a = 6`, `b = 1`, `c = 0` and the coefficient of
`y` is `2`: `solveR1C` stores `12`, that is `(a*b - c)` multiplied by the coefficient, whereas
`(a*b - c)` divided by the coefficient is `3`. -/
theorem solveR1C_double_multiplies :
    solveR1C 4 doubleR1CS doubleConstraint [false, true, true] [0, 6, 1]
      = .ok ([true, true, true], [12, 6, 1]) ∧
    accumulate doubleR1CS [0, 6, 1] doubleConstraint.L 0 = .ok 6 ∧
    accumulate doubleR1CS [0, 6, 1] doubleConstraint.R 0 = .ok 1 ∧
    termCoefficient doubleR1CS ⟨0, 2, 0⟩ = .ok 2 ∧
    Div ((6 : ZMod frModulus) * 1 - 0) 2 = 3 ∧
    (12 : ZMod frModulus) = (6 * 1 - 0) * 2 ∧ (12 : ZMod frModulus) ≠ 3 := by
  refine ⟨rfl, rfl, rfl, rfl, ?_, by decide, by decide⟩
  have h6 : ((6 : ZMod frModulus) * 1 - 0) = 3 * 2 := by decide
  unfold Div
  rw [h6, mul_assoc, frModulus_two_mul_inv, mul_one]

/-! ## A zero on the other side -/

/-- Counterexample to claim C9.  Solving `(y + 1) * x = 0` for `y` with `x = 0`, where the sum of
the known terms of `L` is `a = 1` and the sums of `R` and `O` are zero: the wire of `y` is marked
and keeps the value `0` of the buffer, whereas `0 - a` with the coefficient `1` divided out is
`-1`. -/
theorem solveR1C_zero_counterexample :
    solveR1C 4 zeroR1CS zeroConstraint [false, true, true] [0, 0, 1]
      = .ok ([true, true, true], [0, 0, 1]) ∧
    accumulate zeroR1CS [0, 0, 1] [⟨2, 1, 0⟩] 0 = .ok 1 ∧
    accumulate zeroR1CS [0, 0, 1] zeroConstraint.R 0 = .ok 0 ∧
    accumulate zeroR1CS [0, 0, 1] zeroConstraint.O 0 = .ok 0 ∧
    Div (Div (0 : ZMod frModulus) 0 - 1) 1 = -1 ∧ (0 : ZMod frModulus) ≠ -1 := by
  refine ⟨rfl, rfl, rfl, rfl, ?_, by decide⟩
  rw [Div_one]
  simp [Div]

/-- Claim C9, amended.  For a `SingleOutput` constraint whose only term on a wire without a value
is the term `t`: when `t` is in `L` and the sum of `R` is zero, or `t` is in `R` and the sum of
`L` is zero, `solveR1C` marks the wire of `t` and stores nothing, so that the wire keeps the value
it had. -/
theorem solveR1C_zero_side {p : ℕ} (limbs : ℕ) (r1cs : R1CS p) (r : R1C) (wI : List Bool)
    (wV : List (ZMod p)) (pre post : List Term) (t : Term) (s c : ZMod p)
    (hs : r.Solver = .SingleOutput) (hpre : Known wI pre) (hpost : Known wI post)
    (ht : wI[t.ConstraintID]? = some false) (hO : Known wI r.O)
    (hsum : accumulate r1cs wV (pre ++ post) 0 = .ok s)
    (hc : accumulate r1cs wV r.O 0 = .ok c) :
    (r.L = pre ++ t :: post → Known wI r.R → accumulate r1cs wV r.R 0 = .ok 0 →
      solveR1C limbs r1cs r wI wV = .ok (wI.set t.ConstraintID true, wV)) ∧
    (r.R = pre ++ t :: post → Known wI r.L → accumulate r1cs wV r.L 0 = .ok 0 →
      solveR1C limbs r1cs r wI wV = .ok (wI.set t.ConstraintID true, wV)) := by
  constructor
  · intro hL hR hb
    rw [solveR1C_unknown_L limbs r1cs r wI wV pre post t s 0 c hs hL hpre hpost ht hR hO hsum hb hc]
    simp
  · intro hR hL ha
    rw [solveR1C_unknown_R limbs r1cs r wI wV pre post t 0 s c hs hL hR hpre hpost ht hO ha hsum hc]
    simp

/-- Witness of claim C9 as amended: `(y + 1) * x = 0` with `x = 0` and the buffer value `7` in
the wire of `y`. -/
theorem solveR1C_zero_side_witness :
    solveR1C 4 zeroR1CS zeroConstraint [false, true, true] [7, 0, 1]
      = .ok ([false, true, true].set 0 true, [7, 0, 1]) :=
  (solveR1C_zero_side 4 zeroR1CS zeroConstraint [false, true, true] [7, 0, 1] [] [⟨2, 1, 0⟩]
    ⟨0, 1, 0⟩ 1 0 rfl (by decide) (by decide) rfl (by decide) rfl rfl).1 rfl (by decide) rfl

/-! ## Claim C3 -/

/-- Claim C3, the divergence of the code.  On `inv * x = 1`, `inv * inv = y` with `x = 0`, input
binding succeeds and constraint `0` is the first one whose evaluated triple, `(0, 0, 1)`, violates
the product.  The main loop stops there and hands back the error `UnsatisfiedConstraint` with
the strings of `0`, `0`, `1`, the error the claim says `Solve` returns; but the wire of `y`,
which only constraint `1` computes, has no value yet, the deferred `printLogs`, which is to print
`y`, aborts on it, and `Solve` returns no error value at all. -/
theorem Solve_error_lost :
    bindInputs inverseR1CS zeroAssignment (List.replicate 4 false) [0, 0, 0, 0]
      = .ok (none, [false, false, true, true], [0, 0, 0, 1]) ∧
    evaluatedTriple 4 inverseR1CS [false, false, true, true] [0, 0, 0, 1] 0 = .ok (0, 0, 1) ∧
    (0 : ZMod frModulus) * 0 ≠ 1 ∧
    solveLoop 4 inverseR1CS 0 inverseR1CS.Constraints
        { a := [0, 0], b := [0, 0], c := [0, 0], wireValues := [0, 0, 0, 1],
          wireInstantiated := [false, false, true, true] }
      = .ok (some (.unsatisfiedConstraint "0" "0" "1"),
          { a := [0, 0], b := [0, 0], c := [1, 0], wireValues := [0, 0, 0, 1],
            wireInstantiated := [true, false, true, true] }) ∧
    printLogs ([0, 0, 0, 1] : List (ZMod frModulus)) [true, false, true, true] inverseR1CS.Logs
      = .error .wireNotInstantiated ∧
    Solve 4 inverseR1CS zeroAssignment [0, 0] [0, 0] [0, 0] [0, 0, 0, 0]
      = .error .wireNotInstantiated :=
  ⟨rfl, rfl, by decide, rfl, rfl, rfl⟩

/-- The `UnsatisfiedConstraint` path of `Solve` on the calls whose deferred log resolution
completes.  When input binding succeeds, `k` is the smallest constraint index whose evaluated
triple `(x, y, z)` has `x * y ≠ z`, and the log entries resolve on the wire values the loop stops
with, `Solve` returns `UnsatisfiedConstraint` with the decimal strings of `x`, `y`,
`z`; the entries `k` of `a`, `b`, `c` hold `x`, `y`, `z`; every entry `j < k` holds the evaluated
triple of constraint `j`, which satisfies the product; every entry `j > k` is as the caller
passed it. -/
theorem Solve_unsatisfied {p : ℕ} (limbs : ℕ) (r1cs : R1CS p) (assignment : Assignment)
    (a b c wireValues : List (ZMod p)) (wI0 : List Bool) (wV0 : List (ZMod p)) (k : ℕ)
    (x y z : ZMod p) (wIk : List Bool) (wVk : List (ZMod p)) (out : List (String × List String))
    (hsz : (a.length : ℤ) = r1cs.NbConstraints ∧ (b.length : ℤ) = r1cs.NbConstraints ∧
      (c.length : ℤ) = r1cs.NbConstraints ∧ (wireValues.length : ℤ) = r1cs.NbWires)
    (hlen : (r1cs.Constraints.length : ℤ) = r1cs.NbConstraints)
    (hbind : bindInputs r1cs assignment (List.replicate r1cs.NbWires.toNat false) wireValues
      = .ok (none, wI0, wV0))
    (hbad : evaluatedTriple limbs r1cs wI0 wV0 k = .ok (x, y, z)) (hne : x * y ≠ z)
    (hgood : ∀ j, j < k → ∃ xj yj zj,
      evaluatedTriple limbs r1cs wI0 wV0 j = .ok (xj, yj, zj) ∧ xj * yj = zj)
    (hstate : stateBefore limbs r1cs wI0 wV0 (k + 1) = .ok (wIk, wVk))
    (hlogs : printLogs wVk wIk r1cs.Logs = .ok out) :
    ∃ res, Solve limbs r1cs assignment a b c wireValues = .ok res ∧
      res.err = some (.unsatisfiedConstraint (ElementString x) (ElementString y)
        (ElementString z)) ∧
      res.buffers.a[k]? = some x ∧ res.buffers.b[k]? = some y ∧ res.buffers.c[k]? = some z ∧
      (∀ j, j < k → ∃ xj yj zj,
        evaluatedTriple limbs r1cs wI0 wV0 j = .ok (xj, yj, zj) ∧ xj * yj = zj ∧
        res.buffers.a[j]? = some xj ∧ res.buffers.b[j]? = some yj ∧
        res.buffers.c[j]? = some zj) ∧
      (∀ j, k < j → res.buffers.a[j]? = a[j]? ∧ res.buffers.b[j]? = b[j]? ∧
        res.buffers.c[j]? = (c)[j]?) ∧
      res.logs = some out := by
  obtain ⟨h1, h2, h3, h4⟩ := hsz
  have hk : k < r1cs.Constraints.length := by
    by_contra hcon
    unfold evaluatedTriple at hbad
    rw [hstate] at hbad
    simp only [List.getElem?_eq_none (Nat.le_of_not_lt hcon)] at hbad
    cases hbad
  obtain ⟨s1, hrun, hwI, hwV, hxa, hxb, hxc, hmid, hout⟩ :=
    solveLoop_stops_at hstate hbad hne hgood r1cs.Constraints 0
      { a := a, b := b, c := c, wireValues := wV0, wireInstantiated := wI0 }
      (fun j => by rw [Nat.zero_add]) (Nat.zero_le _) (by omega) rfl
      (by simp only; omega) (by simp only; omega) (by simp only; omega)
  refine ⟨{ err := some (.unsatisfiedConstraint (ElementString x) (ElementString y)
              (ElementString z)), buffers := s1, logs := some out }, ?_, rfl, hxa, hxb, hxc,
    fun j hj => hmid j (Nat.zero_le _) hj, fun j hj => hout j (Or.inr hj), rfl⟩
  unfold Solve
  have hsz' : ¬ ((a.length : ℤ) ≠ r1cs.NbConstraints ∨ (b.length : ℤ) ≠ r1cs.NbConstraints ∨
      (c.length : ℤ) ≠ r1cs.NbConstraints ∨ (wireValues.length : ℤ) ≠ r1cs.NbWires) := by
    simp [h1, h2, h3, h4]
  rw [if_neg hsz', hbind]
  simp only [hrun, hwI, hwV, hlogs]

/-- The `UnsatisfiedConstraint` path on a call whose log resolves: on `x * x = y` followed by the check `y * 1 = 10`, with
`x = 3`, constraint `1` is the first unsatisfied one and `Solve` reports `9 * 1 != 10`. -/
theorem Solve_unsatisfied_witness :
    ∃ res, Solve 4 checkR1CS squareAssignment [0, 0] [0, 0] [0, 0] [0, 0, 0] = .ok res ∧
      res.err = some (.unsatisfiedConstraint "9" "1" "10") ∧
      res.buffers.a[1]? = some 9 ∧ res.buffers.b[1]? = some 1 ∧ res.buffers.c[1]? = some 10 ∧
      (∀ j, j < 1 → ∃ xj yj zj,
        evaluatedTriple 4 checkR1CS [false, true, true] [0, 3, 1] j = .ok (xj, yj, zj) ∧
        xj * yj = zj ∧ res.buffers.a[j]? = some xj ∧ res.buffers.b[j]? = some yj ∧
        res.buffers.c[j]? = some zj) ∧
      (∀ j, 1 < j → res.buffers.a[j]? = ([0, 0] : List (ZMod frModulus))[j]? ∧
        res.buffers.b[j]? = ([0, 0] : List (ZMod frModulus))[j]? ∧
        res.buffers.c[j]? = ([0, 0] : List (ZMod frModulus))[j]?) ∧
      res.logs = some [("y = %s", ["9"])] :=
  Solve_unsatisfied 4 checkR1CS squareAssignment [0, 0] [0, 0] [0, 0] [0, 0, 0]
    [false, true, true] [0, 3, 1] 1 9 1 10 [true, true, true] [9, 3, 1] [("y = %s", ["9"])]
    ⟨rfl, rfl, rfl, rfl⟩ rfl rfl rfl (by decide)
    (fun j hj => by
      have h0 : j = 0 := by omega
      subst h0
      exact ⟨3, 3, 9, rfl, by decide⟩)
    rfl rfl

/-! ## Claim C2 -/

/-- Counterexample to claim C2.  The circuit `y * x = 0`, `y * 1 = 5` with `x = 0` has a
well-formed wire table; its first constraint, the computed one, is visited with one wire without
a value, `y`; the assignment is complete and the wire vector `[5, 0, 1]` extends it and satisfies
both constraints.  The solving step finds the sum of `R` zero and stores nothing, `y` stays `0`,
and `Solve` returns `UnsatisfiedConstraint` for the second constraint. -/
theorem Solve_complete_counterexample :
    WireTableOK guardR1CS ∧
    bindInputs guardR1CS zeroAssignment (List.replicate 3 false) [0, 0, 0]
      = .ok (none, [false, true, true], [0, 0, 1]) ∧
    (∀ r ∈ guardR1CS.Constraints, Satisfies guardR1CS [5, 0, 1] r) ∧
    ∃ res, Solve 4 guardR1CS zeroAssignment [0, 0] [0, 0] [0, 0] [0, 0, 0] = .ok res ∧
      res.err = some (.unsatisfiedConstraint "0" "1" "5") ∧
      res.buffers.wireValues = [0, 0, 1] := by
  refine ⟨⟨rfl, rfl, by decide⟩, rfl, ?_, ⟨_, rfl, rfl, rfl⟩⟩
  intro r hr
  simp only [guardR1CS, List.mem_cons, List.mem_singleton, List.not_mem_nil, or_false] at hr
  rcases hr with rfl | rfl
  · exact ⟨5, 0, 0, rfl, by decide⟩
  · exact ⟨5, 1, 5, rfl, by decide⟩

/-- Claim C2, amended.  Over a prime field, when input binding succeeds, the wire vector `w`
extends the bound inputs and satisfies every constraint, every solving step of the computed
prefix meets the conditions of `StepOK` with the flags it is visited with (at most one term on a
wire without a value, with coefficient `1` or `-1` and a non-zero other factor when it is in `L`
or `R`; or a binary decomposition whose bits `w` holds), every constraint is evaluated on wires
with a value, and the log entries name wires with a value: `Solve` returns success, the product
holds at every index, and the marked wires of the returned vector hold the values of `w`. -/
theorem Solve_complete {p : ℕ} [Fact p.Prime] (limbs : ℕ) (r1cs : R1CS p)
    (assignment : Assignment) (a b c wireValues w : List (ZMod p)) (wI0 : List Bool)
    (wV0 : List (ZMod p))
    (hsz : (a.length : ℤ) = r1cs.NbConstraints ∧ (b.length : ℤ) = r1cs.NbConstraints ∧
      (c.length : ℤ) = r1cs.NbConstraints ∧ (wireValues.length : ℤ) = r1cs.NbWires)
    (hlen : (r1cs.Constraints.length : ℤ) = r1cs.NbConstraints)
    (hbind : bindInputs r1cs assignment (List.replicate r1cs.NbWires.toNat false) wireValues
      = .ok (none, wI0, wV0))
    (hwlen : w.length = wireValues.length)
    (hext : ∀ q : ℕ, wI0[q]? = some true → w[q]? = wV0[q]?)
    (hsat : ∀ r ∈ r1cs.Constraints, Satisfies r1cs w r)
    (hstep : ∀ (i : ℕ) r wI wV, r1cs.Constraints[i]? = some r →
      (i : ℤ) < r1cs.NbCOConstraints →
      stateBefore limbs r1cs wI0 wV0 i = .ok (wI, wV) → StepOK limbs r1cs w r wI)
    (hknown : ∀ (i : ℕ) r wI wV, r1cs.Constraints[i]? = some r →
      stateBefore limbs r1cs wI0 wV0 (i + 1) = .ok (wI, wV) →
      Known wI r.L ∧ Known wI r.R ∧ Known wI r.O)
    (hlogs : ∀ wI wV, stateBefore limbs r1cs wI0 wV0 r1cs.Constraints.length = .ok (wI, wV) →
      ∀ e ∈ r1cs.Logs, ∀ q ∈ e.ToResolve, wI[q]? = some true) :
    ∃ res, Solve limbs r1cs assignment a b c wireValues = .ok res ∧ res.err = none ∧
      (∀ i, i < r1cs.Constraints.length →
        ∃ x y z, res.buffers.a[i]? = some x ∧ res.buffers.b[i]? = some y ∧
          res.buffers.c[i]? = some z ∧ x * y = z) ∧
      (∀ q : ℕ, res.buffers.wireInstantiated[q]? = some true →
        res.buffers.wireValues[q]? = w[q]?) := by
  obtain ⟨h1, h2, h3, h4⟩ := hsz
  obtain ⟨hl1, hl2⟩ := bindInputs_length hbind
  have hag0 : Agree wI0 wV0 w := by
    refine ⟨?_, by rw [hl2]; exact hwlen, fun q hq => (hext q hq).symm⟩
    rw [hl1, hl2, List.length_replicate]
    omega
  obtain ⟨s1, hrun, hfin, hag1⟩ :=
    solveLoop_complete hsat hstep hknown r1cs.Constraints 0
      { a := a, b := b, c := c, wireValues := wV0, wireInstantiated := wI0 }
      (fun j => by rw [Nat.zero_add]) rfl hag0
      (by simp only; omega) (by simp only; omega) (by simp only; omega)
  rw [Nat.zero_add] at hfin
  obtain ⟨out, hout⟩ := printLogs_ok hag1.1 r1cs.Logs (hlogs _ _ hfin)
  obtain ⟨-, -, hvis⟩ := solveLoop_none _ _ _ _ hrun
  refine ⟨{ err := none, buffers := s1, logs := some out }, ?_, rfl, ?_, hag1.2.2⟩
  · unfold Solve
    have hsz' : ¬ ((a.length : ℤ) ≠ r1cs.NbConstraints ∨ (b.length : ℤ) ≠ r1cs.NbConstraints ∨
        (c.length : ℤ) ≠ r1cs.NbConstraints ∨ (wireValues.length : ℤ) ≠ r1cs.NbWires) := by
      simp [h1, h2, h3, h4]
    rw [if_neg hsz', hbind]
    simp only [hrun, hout]
  · intro i hi
    exact hvis i (Nat.zero_le _) (by omega)

/-- Witness of claim C2 as amended: `x * x = y` followed by the check `y * 1 = 9`, with `x = 3`
and the wire vector `[9, 3, 1]`. -/
theorem Solve_complete_witness :
    ∃ res, Solve 1 smallR1CS squareAssignment [0, 0] [0, 0] [0, 0] [0, 0, 0] = .ok res ∧
      res.err = none ∧
      (∀ i, i < smallR1CS.Constraints.length →
        ∃ x y z, res.buffers.a[i]? = some x ∧ res.buffers.b[i]? = some y ∧
          res.buffers.c[i]? = some z ∧ x * y = z) ∧
      (∀ q : ℕ, res.buffers.wireInstantiated[q]? = some true →
        res.buffers.wireValues[q]? = ([9, 3, 1] : List (ZMod smallModulus))[q]?) :=
  Solve_complete 1 smallR1CS squareAssignment [0, 0] [0, 0] [0, 0] [0, 0, 0] [9, 3, 1]
    [false, true, true] [0, 3, 1] ⟨rfl, rfl, rfl, rfl⟩ rfl rfl rfl
    (fun q hq => by
      match q, hq with
      | 1, _ => rfl
      | 2, _ => rfl)
    (fun r hr => by
      simp only [smallR1CS, List.mem_cons, List.mem_singleton, List.not_mem_nil, or_false] at hr
      rcases hr with rfl | rfl
      · exact ⟨3, 3, 9, rfl, by decide⟩
      · exact ⟨9, 1, 9, rfl, by decide⟩)
    (fun i r wI wV hr hi hst => by
      have hi0 : i = 0 := by
        have : (i : ℤ) < 1 := hi
        omega
      subst hi0
      have hr0 : r = { L := [⟨1, 1, 0⟩], R := [⟨1, 1, 0⟩], O := [⟨0, 1, 0⟩],
                       Solver := .SingleOutput } := (Option.some.inj hr).symm
      have hw : wI = [false, true, true] := by
        have := Except.ok.inj hst
        exact (congrArg Prod.fst this).symm
      subst hr0 hw
      exact Or.inr (Or.inr (Or.inr ⟨[], ⟨0, 1, 0⟩, [], rfl,
        ⟨by decide, by decide, rfl, Or.inl rfl⟩, by decide, by decide⟩)))
    (fun i r wI wV hr hst => by
      match i, hr, hst with
      | 0, hr, hst =>
        have hr0 := (Option.some.inj hr).symm
        have hw : wI = [true, true, true] := (congrArg Prod.fst (Except.ok.inj hst)).symm
        subst hr0 hw
        exact ⟨by decide, by decide, by decide⟩
      | 1, hr, hst =>
        have hr0 := (Option.some.inj hr).symm
        have hw : wI = [true, true, true] := (congrArg Prod.fst (Except.ok.inj hst)).symm
        subst hr0 hw
        exact ⟨by decide, by decide, by decide⟩)
    (fun wI wV hst => by
      have hw : wI = [true, true, true] := (congrArg Prod.fst (Except.ok.inj hst)).symm
      subst hw
      decide)

/-! ## Marked wires are frozen -/

/-- The `BinaryDec` loop stores values only in wires that were not marked when it began. -/
theorem binaryDecLoop_writes {p : ℕ} (n : List ℕ) :
    ∀ (ts : List Term) (k : ℕ) (wI wI1 : List Bool) (wV wV1 : List (ZMod p)),
      binaryDecLoop n k ts wI wV = .ok (wI1, wV1) →
      ∀ q : ℕ, wV1[q]? ≠ wV[q]? → wI[q]? = some false := by
  intro ts
  induction ts with
  | nil =>
    intro k wI wI1 wV wV1 h q hq
    simp only [binaryDecLoop, Except.ok.injEq, Prod.mk.injEq] at h
    rw [h.2] at hq
    exact absurd rfl hq
  | cons t ts ih =>
    intro k wI wI1 wV wV1 h q hq
    rw [binaryDecLoop_cons] at h
    cases h1 : readAt n (k / 64) with
    | error e => simp [h1] at h
    | ok word =>
      simp only [h1] at h
      cases h2 : readAt wI t.ConstraintID with
      | error e => simp [h2] at h
      | ok flag =>
        cases flag with
        | true =>
          simp only [h2] at h
          exact ih _ _ _ _ _ h q hq
        | false =>
          simp only [h2] at h
          split at h
          · cases h
          · rename_i wVa h3
            obtain ⟨_, rfl⟩ := writeAt_eq_ok.1 h3
            by_cases hqc : t.ConstraintID = q
            · rw [← hqc]
              exact readAt_eq_ok.1 h2
            · have := ih _ _ _ _ _ h q (by rw [List.getElem?_set_ne hqc]; exact hq)
              rw [List.getElem?_set_ne hqc] at this
              exact this

/-- A solving step stores values only in wires that were not marked when it began. -/
theorem solveR1C_writes {p : ℕ} {limbs : ℕ} {r1cs : R1CS p} {r : R1C} {wI wI1 : List Bool}
    {wV wV1 : List (ZMod p)} (h : solveR1C limbs r1cs r wI wV = .ok (wI1, wV1)) :
    ∀ q : ℕ, wV1[q]? ≠ wV[q]? → wI[q]? = some false := by
  intro q hq
  unfold solveR1C at h
  cases hs : r.Solver with
  | SingleOutput =>
    simp only [hs] at h
    cases h1 : processTerms r1cs wI wV 1 r.L 0 ⟨0, default⟩ with
    | error e => simp [h1] at h
    | ok w1 =>
      obtain ⟨a, u1⟩ := w1
      simp only [h1] at h
      cases h2 : processTerms r1cs wI wV 2 r.R 0 u1 with
      | error e => simp [h2] at h
      | ok w2 =>
        obtain ⟨b, u2⟩ := w2
        simp only [h2] at h
        cases h3 : processTerms r1cs wI wV 3 r.O 0 u2 with
        | error e => simp [h3] at h
        | ok w3 =>
          obtain ⟨c, u3⟩ := w3
          simp only [h3] at h
          have hu0 : UnknownOK wI ⟨0, default⟩ := fun hc => absurd rfl hc
          have hu3 : UnknownOK wI u3 :=
            processTerms_unknownOK _ _ _ _ _ h3
              (processTerms_unknownOK _ _ _ _ _ h2 (processTerms_unknownOK _ _ _ _ _ h1 hu0))
          rcases solveSingleOutput_cases h with ⟨-, -, rfl⟩ | ⟨hl, -, rfl | ⟨v, rfl⟩⟩
          · exact absurd rfl hq
          · exact absurd rfl hq
          · by_cases hqc : u3.termToCompute.ConstraintID = q
            · rw [← hqc]
              exact hu3 hl
            · rw [List.getElem?_set_ne hqc] at hq
              exact absurd rfl hq
  | BinaryDec =>
    simp only [hs] at h
    cases hO : r.O with
    | nil => simp [hO] at h
    | cons o os =>
      simp only [hO] at h
      cases h1 : readAt wV o.ConstraintID with
      | error e => simp [h1] at h
      | ok v =>
        simp only [h1] at h
        exact binaryDecLoop_writes _ _ _ _ _ _ _ h q hq
  | unimplemented => simp [hs] at h

/-- A `SingleOutput` step on a constraint whose terms are all on marked wires changes nothing. -/
theorem solveR1C_no_unknown {p : ℕ} {limbs : ℕ} {r1cs : R1CS p} {r : R1C} {wI wI1 : List Bool}
    {wV wV1 : List (ZMod p)} (h : solveR1C limbs r1cs r wI wV = .ok (wI1, wV1))
    (hs : r.Solver = .SingleOutput) (hL : Known wI r.L) (hR : Known wI r.R)
    (hO : Known wI r.O) : wI1 = wI ∧ wV1 = wV := by
  unfold solveR1C at h
  simp only [hs] at h
  rw [processTerms_known r1cs wI wV 1 r.L 0 _ hL] at h
  cases ha : accumulate r1cs wV r.L 0 with
  | error e => simp [ha] at h
  | ok a =>
    simp only [ha] at h
    rw [processTerms_known r1cs wI wV 2 r.R 0 _ hR] at h
    cases hb : accumulate r1cs wV r.R 0 with
    | error e => simp [hb] at h
    | ok b =>
      simp only [hb] at h
      rw [processTerms_known r1cs wI wV 3 r.O 0 _ hO] at h
      cases hc : accumulate r1cs wV r.O 0 with
      | error e => simp [hc] at h
      | ok c =>
        simp only [hc, solveSingleOutput, if_true, Except.ok.injEq, Prod.mk.injEq] at h
        exact ⟨h.1.symm, h.2.symm⟩

/-- Claim C15.  A wire-resolution step (`SingleOutput` or `BinaryDec`) that completes keeps the
marked wires frozen: a flag set before the step is set after it, and the wire keeps its value;
the step stores values only in wires that were not marked when it began; and a `SingleOutput`
step on a constraint whose terms are all on marked wires changes neither flags nor values. -/
theorem solveR1C_frozen {p : ℕ} (limbs : ℕ) (r1cs : R1CS p) (r : R1C) (wI wI1 : List Bool)
    (wV wV1 : List (ZMod p)) (h : solveR1C limbs r1cs r wI wV = .ok (wI1, wV1)) :
    (∀ q : ℕ, wI[q]? = some true → wI1[q]? = some true ∧ wV1[q]? = wV[q]?) ∧
    (∀ q : ℕ, wV1[q]? ≠ wV[q]? → wI[q]? = some false) ∧
    (r.Solver = .SingleOutput → Known wI r.L → Known wI r.R → Known wI r.O →
      wI1 = wI ∧ wV1 = wV) := by
  refine ⟨?_, ?_, ?_⟩
  · exact (solveR1C_extends h).2.2
  · exact solveR1C_writes h
  · intro hs hL hR hO
    exact solveR1C_no_unknown h hs hL hR hO

/-! ## Log resolution and the scenario of a public output -/

/-- Counterexample to claim C12.  On `x * x = y`, which has a log entry, a call of `Solve` with
an empty `a` returns the size error, and a call without `x` returns `InputNotSet`; both return
before `printLogs` is deferred, and nothing is printed. -/
theorem Solve_logs_counterexample :
    squareR1CS.Logs ≠ [] ∧
    (∃ res, Solve 4 squareR1CS squareAssignment [] [0] [0] [0, 0, 0] = .ok res ∧
      res.err = some .invalidInputSize ∧ res.logs = none) ∧
    (∃ res, Solve 4 squareR1CS emptyAssignment [0] [0] [0] [0, 0, 0] = .ok res ∧
      res.err = some (.inputNotSet "x") ∧ res.logs = none) :=
  ⟨by decide, ⟨_, rfl, rfl, rfl⟩, ⟨_, rfl, rfl, rfl⟩⟩

/-- Claim C12, amended.  A call of `Solve` that returns success or `UnsatisfiedConstraint` has
performed log resolution once, on the wire vector it returns; a call that returns the size error
or `InputNotSet` has not performed it. -/
theorem Solve_logs {p : ℕ} (limbs : ℕ) (r1cs : R1CS p) (assignment : Assignment)
    (a b c wireValues : List (ZMod p)) (res : SolveResult p)
    (h : Solve limbs r1cs assignment a b c wireValues = .ok res) :
    ((res.err = none ∨ ∃ x y z, res.err = some (.unsatisfiedConstraint x y z)) →
      ∃ out, res.logs = some out ∧
        printLogs res.buffers.wireValues res.buffers.wireInstantiated r1cs.Logs = .ok out) ∧
    ((res.err = some .invalidInputSize ∨ ∃ name, res.err = some (.inputNotSet name)) →
      res.logs = none) := by
  rcases Solve_ok_cases h with ⟨-, rfl⟩ | ⟨-, name, wI1, wV1, -, rfl⟩ |
    ⟨-, wI1, wV1, e, s, out, -, hloop, hlogs, rfl⟩
  · refine ⟨?_, fun _ => rfl⟩
    rintro (h1 | ⟨x, y, z, h1⟩) <;> simp at h1
  · refine ⟨?_, fun _ => rfl⟩
    rintro (h1 | ⟨x, y, z, h1⟩) <;> simp at h1
  · refine ⟨fun _ => ⟨out, rfl, hlogs⟩, ?_⟩
    rcases solveLoop_err _ _ _ _ _ hloop with rfl | ⟨x, y, z, rfl⟩
    · rintro (h1 | ⟨n, h1⟩) <;> simp at h1
    · rintro (h1 | ⟨n, h1⟩) <;> simp at h1

/-- Witness of claim C12 as amended: the successful call on `x * x = y` with `x = 3` printed the
log entry once. -/
theorem Solve_logs_witness :
    ∃ out, squareResult.logs = some out ∧
      printLogs squareResult.buffers.wireValues squareResult.buffers.wireInstantiated
        squareR1CS.Logs = .ok out :=
  (Solve_logs 4 squareR1CS squareAssignment [0] [0] [0] [0, 0, 0] squareResult rfl).1
    (Or.inl rfl)

/-- Counterexample to claim C14.  On `x * x = y` with `x` secret and `y` public, the assignment
`x = 3` leaves the public input `y` unset: `Solve` returns `InputNotSet` for `y`, the wire of
`y` and the vectors `a`, `b`, `c` are as passed. -/
theorem Solve_scenario_counterexample :
    Solve 4 publicSquareR1CS squareAssignment [0] [0] [0] [0, 0, 0] =
      .ok { err := some (.inputNotSet "y"),
            buffers := { a := [0], b := [0], c := [0], wireValues := [3, 1, 0],
                         wireInstantiated := [true, true, false] },
            logs := none } :=
  rfl

/-- Claim C14, amended.  On the circuit with the single constraint `x * x = y`, `x` a secret
input and `y` a public input: with the assignment `x = 3` the call returns `InputNotSet` for
`y`; with the assignment `x = 3`, `y = 9` it succeeds with `wireValues[y] = 9`, `a = [3]`,
`b = [3]`, `c = [9]`. -/
theorem Solve_scenario :
    (∃ res, Solve 4 publicSquareR1CS squareAssignment [0] [0] [0] [0, 0, 0] = .ok res ∧
      res.err = some (.inputNotSet "y")) ∧
    (∃ res, Solve 4 publicSquareR1CS squareFullAssignment [0] [0] [0] [0, 0, 0] = .ok res ∧
      res.err = none ∧ res.buffers.wireValues[2]? = some 9 ∧ res.buffers.a = [3] ∧
      res.buffers.b = [3] ∧ res.buffers.c = [9]) :=
  ⟨⟨_, rfl, rfl⟩, ⟨_, rfl, rfl, rfl, rfl, rfl, rfl⟩⟩

/-- Witness of claim C15: the binary decomposition of `n = 5` marks the three bit wires and
leaves the wires of `n` and of the constant as they were. -/
theorem solveR1C_frozen_witness :
    (∀ q : ℕ, [false, false, false, true, true][q]? = some true →
      [true, true, true, true, true][q]? = some true ∧
        ([1, 0, 1, 5, 1] : List (ZMod frModulus))[q]? =
          ([0, 0, 0, 5, 1] : List (ZMod frModulus))[q]?) ∧
    (∀ q : ℕ, ([1, 0, 1, 5, 1] : List (ZMod frModulus))[q]? ≠
        ([0, 0, 0, 5, 1] : List (ZMod frModulus))[q]? →
      [false, false, false, true, true][q]? = some false) ∧
    (bitsConstraint.Solver = .SingleOutput →
      Known [false, false, false, true, true] bitsConstraint.L →
      Known [false, false, false, true, true] bitsConstraint.R →
      Known [false, false, false, true, true] bitsConstraint.O →
      [true, true, true, true, true] = [false, false, false, true, true] ∧
        ([1, 0, 1, 5, 1] : List (ZMod frModulus)) = [0, 0, 0, 5, 1]) :=
  solveR1C_frozen 4 bitsR1CS bitsConstraint [false, false, false, true, true]
    [true, true, true, true, true] [0, 0, 0, 5, 1] [1, 0, 1, 5, 1] rfl

/-! ## A solved constraint is satisfied -/

/-- Two wire vectors that hold the same values in the wires of the terms give the same sum. -/
theorem accumulate_congr {p : ℕ} {r1cs : R1CS p} {wV w : List (ZMod p)} :
    ∀ (ts : List Term) (val : ZMod p),
      (∀ t ∈ ts, wV[t.ConstraintID]? = w[t.ConstraintID]?) →
      accumulate r1cs wV ts val = accumulate r1cs w ts val := by
  intro ts
  induction ts with
  | nil => intro val _; rfl
  | cons t ts ih =>
    intro val h
    have ht := h t (List.mem_cons_self _ _)
    have hread : readAt wV t.ConstraintID = readAt w t.ConstraintID := by
      unfold readAt
      rw [ht]
    rw [accumulate, accumulate, hread]
    cases readAt w t.ConstraintID with
    | error e => rfl
    | ok v =>
      simp only
      cases AddTerm r1cs val t v with
      | error e => rfl
      | ok acc => simp only; exact ih acc (fun t1 h1 => h t1 (List.mem_cons_of_mem _ h1))

/-- The sum of a linear expression with a distinguished term, from the sum of the other terms. -/
theorem accumulate_join {p : ℕ} {r1cs : R1CS p} {w : List (ZMod p)} {pre post : List Term}
    {t : Term} {s k v : ZMod p} (hsum : accumulate r1cs w (pre ++ post) 0 = .ok s)
    (hk : termCoefficient r1cs t = .ok k) (hv : w[t.ConstraintID]? = some v) :
    accumulate r1cs w (pre ++ t :: post) 0 = .ok (s + k * v) := by
  rw [accumulate_append] at hsum ⊢
  cases h1 : accumulate r1cs w pre 0 with
  | error e => simp [h1] at hsum
  | ok s1 =>
    simp only [h1] at hsum ⊢
    rw [accumulate, readAt_of_getElem? hv]
    simp only [AddTerm_eq, hk]
    rw [accumulate_val] at hsum ⊢
    cases h2 : accumulate r1cs w post 0 with
    | error e => simp [h2] at hsum
    | ok s3 =>
      simp only [h2, Except.ok.injEq] at hsum ⊢
      rw [← hsum]
      ring

/-- Storing a value in an unmarked wire does not change the sum of terms on marked wires. -/
theorem accumulate_set {p : ℕ} {r1cs : R1CS p} {wI : List Bool} {wV : List (ZMod p)} {cID : ℕ}
    (hc : wI[cID]? = some false) (v : ZMod p) (ts : List Term) (val : ZMod p)
    (hk : Known wI ts) :
    accumulate r1cs (wV.set cID v) ts val = accumulate r1cs wV ts val := by
  apply accumulate_congr
  intro t ht
  have hne : cID ≠ t.ConstraintID := by
    intro heq
    have := hk t ht
    rw [← heq, hc] at this
    cases this
  rw [List.getElem?_set_ne hne]

theorem Div_mul_self {p : ℕ} [Fact p.Prime] (x y : ZMod p) (hy : y ≠ 0) :
    Div x y * y = x := by
  unfold Div
  rw [mul_assoc, mul_comm y⁻¹ y, ZMod.mul_inv_of_unit y (IsUnit.mk0 y hy), mul_one]

/-- Claim C20.  For a `SingleOutput` constraint with exactly one term `t` on a wire without a
value, of fast-path coefficient `1` or `-1`, whose known sums `a`, `b`, `c` of `L`, `R`, `O`
evaluate, and with `t` in `O`, or in `L` with `b` not zero, or in `R` with `a` not zero: the
resolution step completes, and on the wire values it leaves the constraint evaluates to a triple
with `Evaluate(L) * Evaluate(R) = Evaluate(O)`. -/
theorem solveR1C_satisfies {p : ℕ} [Fact p.Prime] (limbs : ℕ) (r1cs : R1CS p) (r : R1C)
    (wI : List Bool) (wV : List (ZMod p)) (pre post : List Term) (t : Term) (a b c : ZMod p)
    (hs : r.Solver = .SingleOutput) (hlen : wI.length = wV.length)
    (hone : OneUnknown wI pre t post)
    (hcase :
      (r.O = pre ++ t :: post ∧ Known wI r.L ∧ Known wI r.R ∧
        accumulate r1cs wV r.L 0 = .ok a ∧ accumulate r1cs wV r.R 0 = .ok b ∧
        accumulate r1cs wV (pre ++ post) 0 = .ok c) ∨
      (r.L = pre ++ t :: post ∧ Known wI r.R ∧ Known wI r.O ∧
        accumulate r1cs wV (pre ++ post) 0 = .ok a ∧ accumulate r1cs wV r.R 0 = .ok b ∧
        accumulate r1cs wV r.O 0 = .ok c ∧ b ≠ 0) ∨
      (r.R = pre ++ t :: post ∧ Known wI r.L ∧ Known wI r.O ∧
        accumulate r1cs wV r.L 0 = .ok a ∧ accumulate r1cs wV (pre ++ post) 0 = .ok b ∧
        accumulate r1cs wV r.O 0 = .ok c ∧ a ≠ 0)) :
    ∃ wI1 wV1 x y z, solveR1C limbs r1cs r wI wV = .ok (wI1, wV1) ∧
      instantiateR1C r r1cs wV1 = .ok (x, y, z) ∧ x * y = z := by
  obtain ⟨hpre, hpost, ht, hcoef⟩ := hone
  obtain ⟨k, hk, hunit⟩ := termCoefficient_unit r1cs hcoef
  have hlt : t.ConstraintID < wV.length := by
    rw [← hlen]
    exact lt_length_of_getElem? ht
  have hkk : ∀ u : ZMod p, k * (u * k) = u := by
    intro u
    have : k * (u * k) = (k * k) * u := by ring
    rw [this, hunit, one_mul]
  rcases hcase with ⟨hO, hL, hR, ha, hb, hc⟩ | ⟨hL, hR, hO, ha, hb, hc, hb0⟩ |
    ⟨hR, hL, hO, ha, hb, hc, ha0⟩
  · refine ⟨wI.set t.ConstraintID true, wV.set t.ConstraintID ((a * b - c) * k),
      a, b, c + k * ((a * b - c) * k), ?_, ?_, ?_⟩
    · rw [solveR1C_unknown_O limbs r1cs r wI wV pre post t a b c hs hL hR hO hpre hpost ht
        ha hb hc]
      simp only [hk, writeAt_of_lt _ hlt]
    · unfold instantiateR1C
      rw [accumulate_set ht _ _ _ hL, ha, accumulate_set ht _ _ _ hR, hb, hO,
        accumulate_join (by rw [accumulate_set ht _ _ _ (hpre.append hpost)]; exact hc) hk
          (List.getElem?_set_self hlt)]
    · rw [hkk]
      ring
  · refine ⟨wI.set t.ConstraintID true, wV.set t.ConstraintID ((Div c b - a) * k),
      a + k * ((Div c b - a) * k), b, c, ?_, ?_, ?_⟩
    · rw [solveR1C_unknown_L limbs r1cs r wI wV pre post t a b c hs hL hpre hpost ht hR hO
        ha hb hc]
      simp only [ne_eq, hb0, not_false_eq_true, if_true, hk, writeAt_of_lt _ hlt]
    · unfold instantiateR1C
      rw [hL, accumulate_join (by rw [accumulate_set ht _ _ _ (hpre.append hpost)]; exact ha) hk
          (List.getElem?_set_self hlt),
        accumulate_set ht _ _ _ hR, hb, accumulate_set ht _ _ _ hO, hc]
    · rw [hkk]
      have : a + (Div c b - a) = Div c b := by ring
      rw [this, Div_mul_self c b hb0]
  · refine ⟨wI.set t.ConstraintID true, wV.set t.ConstraintID ((Div c a - b) * k),
      a, b + k * ((Div c a - b) * k), c, ?_, ?_, ?_⟩
    · rw [solveR1C_unknown_R limbs r1cs r wI wV pre post t a b c hs hL hR hpre hpost ht hO
        ha hb hc]
      simp only [ne_eq, ha0, not_false_eq_true, if_true, hk, writeAt_of_lt _ hlt]
    · unfold instantiateR1C
      rw [accumulate_set ht _ _ _ hL, ha, hR,
        accumulate_join (by rw [accumulate_set ht _ _ _ (hpre.append hpost)]; exact hb) hk
          (List.getElem?_set_self hlt),
        accumulate_set ht _ _ _ hO, hc]
    · rw [hkk]
      have : b + (Div c a - b) = Div c a := by ring
      rw [this, mul_comm, Div_mul_self c a ha0]

/-- Witness of claim C20: `inv * x = 1` with `x = 2` over the small field, solved for `inv`. -/
theorem solveR1C_satisfies_witness :
    ∃ wI1 wV1 x y z, solveR1C 1 smallInverseR1CS inverseConstraint [false, true, true]
        [0, 2, 1] = .ok (wI1, wV1) ∧
      instantiateR1C inverseConstraint smallInverseR1CS wV1 = .ok (x, y, z) ∧ x * y = z :=
  solveR1C_satisfies 1 smallInverseR1CS inverseConstraint [false, true, true] [0, 2, 1]
    [] [] ⟨0, 1, 0⟩ 0 2 1 rfl rfl ⟨by decide, by decide, rfl, Or.inl rfl⟩
    (Or.inr (Or.inl ⟨rfl, by decide, by decide, rfl, rfl, rfl, by decide⟩))

/-! ## The returned wire vector is a witness -/

/-- The state before constraint `k` extends the state the loop started from. -/
theorem stateBefore_extends {p : ℕ} {limbs : ℕ} {r1cs : R1CS p} {wI0 : List Bool}
    {wV0 : List (ZMod p)} :
    ∀ (k : ℕ) (wI : List Bool) (wV : List (ZMod p)),
      stateBefore limbs r1cs wI0 wV0 k = .ok (wI, wV) → Extends wI0 wV0 wI wV := by
  intro k
  induction k with
  | zero =>
    intro wI wV h
    simp only [stateBefore, Except.ok.injEq, Prod.mk.injEq] at h
    obtain ⟨rfl, rfl⟩ := h
    exact Extends.refl _ _
  | succ k ih =>
    intro wI wV h
    rw [stateBefore] at h
    cases hk : stateBefore limbs r1cs wI0 wV0 k with
    | error e => simp [hk] at h
    | ok w =>
      obtain ⟨wIk, wVk⟩ := w
      simp only [hk] at h
      cases hr : r1cs.Constraints[k]? with
      | none =>
        simp only [hr, Except.ok.injEq, Prod.mk.injEq] at h
        obtain ⟨rfl, rfl⟩ := h
        exact ih _ _ hk
      | some r =>
        simp only [hr] at h
        exact (ih _ _ hk).trans (solveComputed_extends h)

/-- A run of the main loop that finds every constraint satisfied, started at constraint `i` in
the state the solving steps before `i` leave: it ends in the state after all solving steps, and
every entry it visited holds the triple its constraint evaluated to, on a state the final state
extends. -/
theorem solveLoop_trace {p : ℕ} {limbs : ℕ} {r1cs : R1CS p} {wI0 : List Bool}
    {wV0 : List (ZMod p)} :
    ∀ (rest : List R1C) (i : ℕ) (s s1 : Buffers p),
      (∀ j, rest[j]? = r1cs.Constraints[i + j]?) →
      stateBefore limbs r1cs wI0 wV0 i = .ok (s.wireInstantiated, s.wireValues) →
      solveLoop limbs r1cs i rest s = .ok (none, s1) →
      stateBefore limbs r1cs wI0 wV0 (i + rest.length)
        = .ok (s1.wireInstantiated, s1.wireValues) ∧
      ∀ j r, i ≤ j → r1cs.Constraints[j]? = some r → j < i + rest.length →
        ∃ wIj wVj x y z, stateBefore limbs r1cs wI0 wV0 (j + 1) = .ok (wIj, wVj) ∧
          instantiateR1C r r1cs wVj = .ok (x, y, z) ∧ x * y = z ∧
          s1.a[j]? = some x ∧ s1.b[j]? = some y ∧ s1.c[j]? = some z ∧
          Extends wIj wVj s1.wireInstantiated s1.wireValues := by
  intro rest
  induction rest with
  | nil =>
    intro i s s1 _ hbefore h
    simp only [solveLoop, Except.ok.injEq, Prod.mk.injEq, true_and] at h
    subst h
    refine ⟨hbefore, ?_⟩
    intro j r h1 _ h2
    simp only [List.length_nil] at h2
    omega
  | cons r0 rest ih =>
    intro i s s1 hsuf hbefore h
    have hr : r1cs.Constraints[i]? = some r0 := by
      have := hsuf 0
      simpa using this.symm
    have hsuf1 : ∀ j, rest[j]? = r1cs.Constraints[i + 1 + j]? := by
      intro j
      have := hsuf (j + 1)
      rw [List.getElem?_cons_succ] at this
      rw [this]
      congr 1
      omega
    have hnext := stateBefore_succ hbefore hr
    rw [solveLoop_cons] at h
    cases h1 : solveStep limbs r1cs i r0 s with
    | error e1 => simp [h1] at h
    | ok w =>
      obtain ⟨e2, s2⟩ := w
      obtain ⟨va, vb, vc, hsc, heval, ha, hb, hc, ea, eb, ec, hcase⟩ := solveStep_ok h1
      rcases hcase with ⟨hprod, rfl⟩ | ⟨-, rfl⟩
      · simp only [h1] at h
        rw [hsc] at hnext
        obtain ⟨hfin, hvis⟩ := ih (i + 1) s2 s1 hsuf1 hnext h
        obtain ⟨-, hlow, -⟩ := solveLoop_none _ _ _ _ h
        have hext := solveLoop_extends _ _ _ _ _ h
        refine ⟨?_, ?_⟩
        · have e : i + (r0 :: rest).length = i + 1 + rest.length := by
            simp only [List.length_cons]; omega
          rw [e]
          exact hfin
        · intro j r hij hrj hj
          by_cases hji : j = i
          · subst hji
            rw [hr] at hrj
            cases hrj
            obtain ⟨l1, l2, l3⟩ := hlow j (by omega)
            refine ⟨s2.wireInstantiated, s2.wireValues, va, vb, vc, hnext, heval, hprod,
              ?_, ?_, ?_, hext⟩
            · rw [l1, ea, List.getElem?_set_self ha]
            · rw [l2, eb, List.getElem?_set_self hb]
            · rw [l3, ec, List.getElem?_set_self hc]
          · apply hvis j r (by omega) hrj
            simp only [List.length_cons] at hj
            omega
      · simp [h1] at h

/-- Claim C19.  If `Solve` returns success and every constraint was evaluated on wires that all
had a value by then, then for every constraint `i` the entries `a[i]`, `b[i]`, `c[i]` are the
values of `L_i`, `R_i`, `O_i` on the returned wire vector, and their product holds: the returned
wire vector satisfies every constraint. -/
theorem Solve_satisfying_vector {p : ℕ} (limbs : ℕ) (r1cs : R1CS p) (assignment : Assignment)
    (a b c wireValues : List (ZMod p)) (res : SolveResult p) (wI0 : List Bool)
    (wV0 : List (ZMod p))
    (h : Solve limbs r1cs assignment a b c wireValues = .ok res) (herr : res.err = none)
    (hbind : bindInputs r1cs assignment (List.replicate r1cs.NbWires.toNat false) wireValues
      = .ok (none, wI0, wV0))
    (hknown : ∀ (i : ℕ) r wI wV, r1cs.Constraints[i]? = some r →
      stateBefore limbs r1cs wI0 wV0 (i + 1) = .ok (wI, wV) →
      Known wI r.L ∧ Known wI r.R ∧ Known wI r.O) :
    ∀ (i : ℕ) r, r1cs.Constraints[i]? = some r →
      ∃ x y z, instantiateR1C r r1cs res.buffers.wireValues = .ok (x, y, z) ∧
        res.buffers.a[i]? = some x ∧ res.buffers.b[i]? = some y ∧
        res.buffers.c[i]? = some z ∧ x * y = z := by
  intro i r hr
  rcases Solve_ok_cases h with ⟨-, rfl⟩ | ⟨-, name, wI1, wV1, -, rfl⟩ |
    ⟨-, wI1, wV1, e, s, out, hbind1, hloop, -, rfl⟩
  · simp at herr
  · simp at herr
  · simp only at herr
    subst herr
    rw [hbind] at hbind1
    simp only [Except.ok.injEq, Prod.mk.injEq, true_and] at hbind1
    obtain ⟨rfl, rfl⟩ := hbind1
    have hi : i < r1cs.Constraints.length := lt_length_of_getElem? hr
    obtain ⟨-, hvis⟩ := solveLoop_trace r1cs.Constraints 0
      { a := a, b := b, c := c, wireValues := wV0, wireInstantiated := wI0 } s
      (fun j => by rw [Nat.zero_add]) rfl hloop
    obtain ⟨wIj, wVj, x, y, z, hst, heval, hprod, hxa, hxb, hxc, hext⟩ :=
      hvis i r (Nat.zero_le _) hr (by omega)
    obtain ⟨hL, hR, hO⟩ := hknown i r wIj wVj hr hst
    refine ⟨x, y, z, ?_, hxa, hxb, hxc, hprod⟩
    have hcong : ∀ ts : List Term, Known wIj ts →
        accumulate r1cs s.wireValues ts 0 = accumulate r1cs wVj ts 0 := by
      intro ts hk
      apply accumulate_congr
      intro t ht
      exact (hext.2.2 _ (hk t ht)).2
    rw [← heval]
    unfold instantiateR1C
    rw [hcong _ hL, hcong _ hR, hcong _ hO]

/-- Witness of claim C19: after the successful call on `x * x = y` with `x = 3`, the entries of
`a`, `b`, `c` are the values of the constraint on `[9, 3, 1]`. -/
theorem Solve_satisfying_vector_witness :
    ∃ x y z, instantiateR1C
          { L := [⟨1, 1, 0⟩], R := [⟨1, 1, 0⟩], O := [⟨0, 1, 0⟩], Solver := .SingleOutput }
          squareR1CS squareResult.buffers.wireValues = .ok (x, y, z) ∧
      squareResult.buffers.a[0]? = some x ∧ squareResult.buffers.b[0]? = some y ∧
      squareResult.buffers.c[0]? = some z ∧ x * y = z :=
  Solve_satisfying_vector 4 squareR1CS squareAssignment [0] [0] [0] [0, 0, 0] squareResult
    [false, true, true] [0, 3, 1] rfl rfl rfl
    (fun i r wI wV hr hst => by
      match i, hr, hst with
      | 0, hr, hst =>
        have hr0 := (Option.some.inj hr).symm
        have hw : wI = [true, true, true] := (congrArg Prod.fst (Except.ok.inj hst)).symm
        subst hr0 hw
        exact ⟨by decide, by decide, by decide⟩)
    0 _ rfl

/-! ## Torus exponentiation and sparse multiplication -/

/-- The loop of `nSquareTorus` raises to the power `2^k`. -/
theorem nSquareLoop_pow {M : Type} [CommMonoid M] :
    ∀ (k : ℕ) (z : M), nSquareLoop (fun y => y * y) k z = z ^ (2 ^ k) := by
  intro k
  induction k with
  | zero => intro z; simp [nSquareLoop]
  | succ k ih =>
    intro z
    rw [nSquareLoop, ih, ← pow_two, ← pow_mul, pow_succ, mul_comm]

theorem nSquareTorus_pow {M : Type} [CommMonoid M] (z : M) (n : ℤ) :
    nSquareTorus (fun y => y * y) z n = z ^ (2 ^ n.toNat) := by
  unfold nSquareTorus
  exact nSquareLoop_pow _ _

/-- Claim C16.  With `MulTorus` the multiplication of a commutative monoid and `SquareTorus y`
the product `y * y`: `ExptTorus x` is `x` raised to the seed `4965661367192848881`, and
`nSquareTorus z n` is `z` raised to `2^n`, for every count `n` of squarings. -/
theorem ExptTorus_pow {M : Type} [CommMonoid M] (x : M) :
    ExptTorus (fun y => y * y) (fun y1 y2 => y1 * y2) x = x ^ seed ∧
    ∀ (z : M) (n : ℕ), nSquareTorus (fun y => y * y) z (n : ℤ) = z ^ (2 ^ n) := by
  refine ⟨?_, fun z n => by rw [nSquareTorus_pow, Int.toNat_ofNat]⟩
  unfold ExptTorus seed
  simp only [nSquareTorus_pow]
  simp only [← pow_two, ← pow_mul, ← pow_succ, ← pow_succ', ← pow_add]
  have h6 : Int.toNat 6 = 6 := rfl
  have h7 : Int.toNat 7 = 7 := rfl
  have h8 : Int.toNat 8 = 8 := rfl
  have h10 : Int.toNat 10 = 10 := rfl
  rw [h6, h7, h8, h10]
  congr 1

/-- Claim C17.  Over the tower `E12 = E6[w]/(w^2 - v)`, `E6 = E2[v]/(v^3 - ξ)`, with `MulBy01`
the product with `b0 + b1*v` and `MulByNonResidue` the product with `v`: `MulBy034 z c3 c4` is the
full product in `E12` of `z` and the sparse element with `C0 = (1, 0, 0)` and
`C1 = (c3, c4, 0)`. -/
theorem MulBy034_eq_Mul {R : Type} [CommRing R] (ξ : R) (z : E12 R) (c3 c4 : R) :
    Ext12.MulBy034 ξ z c3 c4 = Ext12.Mul ξ z (Ext12.sparse034 c3 c4) := by
  obtain ⟨⟨a0, a1, a2⟩, ⟨b0, b1, b2⟩⟩ := z
  simp only [Ext12.MulBy034, Ext12.Mul, Ext12.sparse034, Ext6.MulBy01, Ext6.MulByNonResidue,
    Ext6.Mul, Ext6.Add, Ext6.Neg, E12.mk.injEq, E6.mk.injEq]
  refine ⟨⟨?_, ?_, ?_⟩, ⟨?_, ?_, ?_⟩⟩ <;> ring

/-! ## When the scan aborts -/

/-- How many of the terms are on a wire without a value. -/
theorem filter_unknown_cons (wI : List Bool) (t : Term) (ts : List Term) :
    ((t :: ts).filter fun t => wI[t.ConstraintID]? = some false).length =
      (if wI[t.ConstraintID]? = some false then 1 else 0) +
        (ts.filter fun t => wI[t.ConstraintID]? = some false).length := by
  by_cases h : wI[t.ConstraintID]? = some false
  · simp [List.filter_cons, h]; omega
  · simp [List.filter_cons, h]

/-- The scan of a list of well-formed terms: it aborts when, with the term recorded before, two
terms are on a wire without a value, and completes otherwise; it then has recorded a term exactly
when there is one, and the recorded term is well formed. -/
theorem processTerms_count {p : ℕ} (r1cs : R1CS p) (wI : List Bool) (wV : List (ZMod p))
    (lv : ℕ) (hlv : lv ≠ 0) (hlen : wI.length = wV.length) :
    ∀ (ts : List Term) (val : ZMod p) (u : Unknown), TermsValid r1cs wV.length ts →
      (u.loc ≠ 0 → u.termToCompute.ConstraintID < wV.length ∧
        ∃ k, termCoefficient r1cs u.termToCompute = .ok k) →
      (2 ≤ (if u.loc = 0 then 0 else 1) +
          (ts.filter fun t => wI[t.ConstraintID]? = some false).length →
        processTerms r1cs wI wV lv ts val u = .error .moreThanOneWire) ∧
      ((if u.loc = 0 then 0 else 1) +
          (ts.filter fun t => wI[t.ConstraintID]? = some false).length ≤ 1 →
        ∃ val1 u1, processTerms r1cs wI wV lv ts val u = .ok (val1, u1) ∧
          (if u1.loc = 0 then 0 else 1) = (if u.loc = 0 then 0 else 1) +
            (ts.filter fun t => wI[t.ConstraintID]? = some false).length ∧
          (u1.loc ≠ 0 → u1.termToCompute.ConstraintID < wV.length ∧
            ∃ k, termCoefficient r1cs u1.termToCompute = .ok k)) := by
  intro ts
  induction ts with
  | nil =>
    intro val u _ hu
    simp only [List.filter_nil, List.length_nil, add_zero]
    constructor
    · intro h
      split_ifs at h <;> omega
    · intro _
      exact ⟨val, u, rfl, rfl, hu⟩
  | cons t ts ih =>
    intro val u hvalid hu
    obtain ⟨htlt, k, hk⟩ := hvalid t (List.mem_cons_self _ _)
    have hvalid1 : TermsValid r1cs wV.length ts :=
      fun t1 h1 => hvalid t1 (List.mem_cons_of_mem _ h1)
    have htI : t.ConstraintID < wI.length := by omega
    obtain ⟨flag, hflag⟩ : ∃ flag, wI[t.ConstraintID]? = some flag :=
      ⟨wI[t.ConstraintID], List.getElem?_eq_getElem htI⟩
    obtain ⟨v, hv⟩ : ∃ v, wV[t.ConstraintID]? = some v :=
      ⟨wV[t.ConstraintID], List.getElem?_eq_getElem htlt⟩
    rw [filter_unknown_cons, processTerms, processTerm, readAt_of_getElem? hflag]
    cases flag with
    | true =>
      simp only [hflag, readAt_of_getElem? hv, AddTerm_eq, hk]
      have h0 : (if some true = some false then 1 else 0) = 0 := by simp
      rw [h0, Nat.zero_add]
      exact ih _ u hvalid1 hu
    | false =>
      simp only [hflag, if_true]
      by_cases hl : u.loc = 0
      · simp only [hl, ne_eq, not_true_eq_false, if_false, if_true, Nat.zero_add]
        obtain ⟨h1, h2⟩ := ih val { loc := lv, termToCompute := t } hvalid1
          (fun _ => ⟨htlt, k, hk⟩)
        simp only [hlv, if_false] at h1 h2
        exact ⟨h1, h2⟩
      · simp only [ne_eq, hl, not_false_eq_true, if_true, if_false]
        constructor
        · intro _; trivial
        · intro h; omega

/-- The end of the `SingleOutput` case completes when the recorded term, if any, is well formed. -/
theorem solveSingleOutput_total {p : ℕ} (r1cs : R1CS p) (wI : List Bool) (wV : List (ZMod p))
    (a b c : ZMod p) (u : Unknown) (hlen : wI.length = wV.length)
    (hu : u.loc ≠ 0 → u.termToCompute.ConstraintID < wV.length ∧
      ∃ k, termCoefficient r1cs u.termToCompute = .ok k) :
    ∃ res, solveSingleOutput r1cs wI wV a b c u = .ok res := by
  unfold solveSingleOutput
  by_cases h0 : u.loc = 0
  · simp only [h0, if_true]
    exact ⟨_, rfl⟩
  · obtain ⟨hlt, k, hk⟩ := hu h0
    have hltI : u.termToCompute.ConstraintID < wI.length := by omega
    simp only [h0, if_false, mulWireByCoeff_eq, hk, writeAt_of_lt _ hlt, writeAt_of_lt _ hltI]
    split_ifs <;> exact ⟨_, rfl⟩

/-- The `SingleOutput` step on well-formed terms aborts with "more than one wire" when two or
more terms are on a wire without a value, and completes when at most one is. -/
theorem solveR1C_scan {p : ℕ} (limbs : ℕ) (r1cs : R1CS p) (r : R1C) (wI : List Bool)
    (wV : List (ZMod p)) (hs : r.Solver = .SingleOutput) (hlen : wI.length = wV.length)
    (hvalid : TermsValid r1cs wV.length (r.L ++ r.R ++ r.O)) :
    (2 ≤ (unknownTerms wI r).length →
      solveR1C limbs r1cs r wI wV = .error .moreThanOneWire) ∧
    ((unknownTerms wI r).length ≤ 1 → ∃ res, solveR1C limbs r1cs r wI wV = .ok res) := by
  have hvL : TermsValid r1cs wV.length r.L :=
    fun t ht => hvalid t (List.mem_append_left _ (List.mem_append_left _ ht))
  have hvR : TermsValid r1cs wV.length r.R :=
    fun t ht => hvalid t (List.mem_append_left _ (List.mem_append_right _ ht))
  have hvO : TermsValid r1cs wV.length r.O :=
    fun t ht => hvalid t (List.mem_append_right _ ht)
  have hcount : (unknownTerms wI r).length =
      (r.L.filter fun t => wI[t.ConstraintID]? = some false).length +
      (r.R.filter fun t => wI[t.ConstraintID]? = some false).length +
      (r.O.filter fun t => wI[t.ConstraintID]? = some false).length := by
    simp only [unknownTerms, List.filter_append, List.length_append]
  rw [hcount]
  obtain ⟨hL2, hL1⟩ := processTerms_count r1cs wI wV 1 one_ne_zero hlen r.L 0 ⟨0, default⟩ hvL
    (fun hc => absurd rfl hc)
  simp only [if_true, Nat.zero_add] at hL2 hL1
  unfold solveR1C
  simp only [hs]
  by_cases hnL : 2 ≤ (r.L.filter fun t => wI[t.ConstraintID]? = some false).length
  · rw [hL2 hnL]
    exact ⟨fun _ => rfl, fun h => by omega⟩
  · obtain ⟨a, u1, hrun1, hind1, hu1⟩ := hL1 (by omega)
    rw [hrun1]
    simp only
    obtain ⟨hR2, hR1⟩ := processTerms_count r1cs wI wV 2 two_ne_zero hlen r.R 0 u1 hvR hu1
    rw [hind1] at hR2 hR1
    by_cases hnR : 2 ≤ (r.L.filter fun t => wI[t.ConstraintID]? = some false).length +
        (r.R.filter fun t => wI[t.ConstraintID]? = some false).length
    · rw [hR2 hnR]
      exact ⟨fun _ => rfl, fun h => by omega⟩
    · obtain ⟨b, u2, hrun2, hind2, hu2⟩ := hR1 (by omega)
      rw [hrun2]
      simp only
      obtain ⟨hO2, hO1⟩ := processTerms_count r1cs wI wV 3 three_ne_zero hlen r.O 0 u2 hvO hu2
      rw [hind2] at hO2 hO1
      constructor
      · intro h
        rw [hO2 h]
      · intro h
        obtain ⟨c, u3, hrun3, -, hu3⟩ := hO1 h
        rw [hrun3]
        exact solveSingleOutput_total r1cs wI wV a b c u3 hlen hu3

/-- Counterexample to claim C11.  The constraint `x * x = y`, visited when `y` has a value and
`x` has none, references one wire without a value, in two terms; the step aborts with "more than
one wire". -/
theorem solveR1C_abort_counterexample :
    unknownWires [true, false, true] squareRootConstraint = [1] ∧
    solveR1C 4 squareR1CS squareRootConstraint [true, false, true] [9, 0, 1]
      = .error .moreThanOneWire :=
  ⟨by decide, rfl⟩

/-- Claim C11, amended.  A `SingleOutput` resolution step on well-formed terms aborts with "more
than one wire" exactly when two or more of the terms of `L`, `R` and `O` are on a wire without a
value, two terms on the same wire counting twice; it completes exactly when at most one term
is. -/
theorem solveR1C_abort_iff {p : ℕ} (limbs : ℕ) (r1cs : R1CS p) (r : R1C) (wI : List Bool)
    (wV : List (ZMod p)) (hs : r.Solver = .SingleOutput) (hlen : wI.length = wV.length)
    (hvalid : TermsValid r1cs wV.length (r.L ++ r.R ++ r.O)) :
    (solveR1C limbs r1cs r wI wV = .error .moreThanOneWire ↔
      2 ≤ (unknownTerms wI r).length) ∧
    ((∃ res, solveR1C limbs r1cs r wI wV = .ok res) ↔ (unknownTerms wI r).length ≤ 1) := by
  obtain ⟨h2, h1⟩ := solveR1C_scan limbs r1cs r wI wV hs hlen hvalid
  constructor
  · constructor
    · intro herr
      by_contra hc
      obtain ⟨res, hres⟩ := h1 (by omega)
      rw [herr] at hres
      cases hres
    · exact h2
  · constructor
    · rintro ⟨res, hres⟩
      by_contra hc
      rw [h2 (by omega)] at hres
      cases hres
    · exact h1

/-- Witness of claim C11 as amended: `x * x = y` visited when `x` has a value and `y` has none
has one term on a wire without a value, and the step completes. -/
theorem solveR1C_abort_iff_witness :
    (solveR1C 4 squareR1CS squareRootConstraint [false, true, true] [0, 3, 1]
        = .error .moreThanOneWire ↔
      2 ≤ (unknownTerms [false, true, true] squareRootConstraint).length) ∧
    ((∃ res, solveR1C 4 squareR1CS squareRootConstraint [false, true, true] [0, 3, 1]
        = .ok res) ↔ (unknownTerms [false, true, true] squareRootConstraint).length ≤ 1) :=
  solveR1C_abort_iff 4 squareR1CS squareRootConstraint [false, true, true] [0, 3, 1] rfl rfl
    (fun t ht => by
      simp only [squareRootConstraint, List.cons_append, List.nil_append, List.mem_cons,
        List.mem_singleton, List.not_mem_nil, or_false] at ht
      rcases ht with rfl | rfl | rfl <;> exact ⟨by decide, 1, rfl⟩)

/-! ## Log resolution after the loop -/

/-- The states the solving steps go through extend one another. -/
theorem stateBefore_mono {p : ℕ} {limbs : ℕ} {r1cs : R1CS p} {wI0 : List Bool}
    {wV0 : List (ZMod p)} {j : ℕ} {wIj : List Bool} {wVj : List (ZMod p)}
    (hj : stateBefore limbs r1cs wI0 wV0 j = .ok (wIj, wVj)) :
    ∀ (d : ℕ) (wI : List Bool) (wV : List (ZMod p)),
      stateBefore limbs r1cs wI0 wV0 (j + d) = .ok (wI, wV) → Extends wIj wVj wI wV := by
  intro d
  induction d with
  | zero =>
    intro wI wV h
    rw [Nat.add_zero, hj] at h
    simp only [Except.ok.injEq, Prod.mk.injEq] at h
    obtain ⟨rfl, rfl⟩ := h
    exact Extends.refl _ _
  | succ d ih =>
    intro wI wV h
    rw [← Nat.add_assoc, stateBefore] at h
    cases hk : stateBefore limbs r1cs wI0 wV0 (j + d) with
    | error e => simp [hk] at h
    | ok w =>
      obtain ⟨wIk, wVk⟩ := w
      simp only [hk] at h
      cases hr : r1cs.Constraints[j + d]? with
      | none =>
        simp only [hr, Except.ok.injEq, Prod.mk.injEq] at h
        obtain ⟨rfl, rfl⟩ := h
        exact ih _ _ hk
      | some r =>
        simp only [hr] at h
        exact (ih _ _ hk).trans (solveComputed_extends h)

/-- Claim C18, the divergence of the code.  On `x * 1 = 4`, `x * x = y` with `x = 3`, the
assignment is complete, the first constraint has no wire to compute and the second one computes
`y`, and the log entry names `y`, a wire the computed prefix resolves.  The only constraint the
loop visits, the first one, is not satisfied (`3 * 1 != 4`): the loop stops with the error
`UnsatisfiedConstraint` before `y` is computed, and log resolution aborts with "wire was not
instantiated", although no constraint that was visited failed to produce a value. -/
theorem printLogs_abort_unvisited :
    bindInputs assertR1CS squareAssignment (List.replicate 3 false) [0, 0, 0]
      = .ok (none, [false, true, true], [0, 3, 1]) ∧
    assertR1CS.Constraints.map (unknownTerms [false, true, true]) = [[], [⟨0, 1, 0⟩]] ∧
    stateBefore 4 assertR1CS [false, true, true] [0, 3, 1] 1
      = .ok ([false, true, true], [0, 3, 1]) ∧
    stateBefore 4 assertR1CS [false, true, true] [0, 3, 1] 2
      = .ok ([true, true, true], [9, 3, 1]) ∧
    evaluatedTriple 4 assertR1CS [false, true, true] [0, 3, 1] 0 = .ok (3, 1, 4) ∧
    solveLoop 4 assertR1CS 0 assertR1CS.Constraints
        { a := [0, 0], b := [0, 0], c := [0, 0], wireValues := [0, 3, 1],
          wireInstantiated := [false, true, true] }
      = .ok (some (.unsatisfiedConstraint "3" "1" "4"),
          { a := [3, 0], b := [1, 0], c := [4, 0], wireValues := [0, 3, 1],
            wireInstantiated := [false, true, true] }) ∧
    printLogs ([0, 3, 1] : List (ZMod frModulus)) [false, true, true] assertR1CS.Logs
      = .error .wireNotInstantiated ∧
    Solve 4 assertR1CS squareAssignment [0, 0] [0, 0] [0, 0] [0, 0, 0]
      = .error .wireNotInstantiated :=
  ⟨rfl, rfl, rfl, rfl, rfl, rfl, rfl, rfl⟩

/-- The calls of `Solve` on which log resolution completes.  When input binding succeeds and the main loop stops after visiting `n`
constraints (all of them on the success path, the constraints up to the first unsatisfied one on
the `UnsatisfiedConstraint` path), and every wire a log entry names has a value by then (it is
an input wire, or one of the first `n` constraints resolved it), log resolution does not abort:
`Solve` returns what the loop returned and has printed the log entries. -/
theorem Solve_resolves_logs {p : ℕ} (limbs : ℕ) (r1cs : R1CS p) (assignment : Assignment)
    (a b c wireValues : List (ZMod p)) (wI0 : List Bool) (wV0 : List (ZMod p))
    (e : Option SolveError) (s : Buffers p) (n : ℕ)
    (hsz : (a.length : ℤ) = r1cs.NbConstraints ∧ (b.length : ℤ) = r1cs.NbConstraints ∧
      (c.length : ℤ) = r1cs.NbConstraints ∧ (wireValues.length : ℤ) = r1cs.NbWires)
    (hbind : bindInputs r1cs assignment (List.replicate r1cs.NbWires.toNat false) wireValues
      = .ok (none, wI0, wV0))
    (hrun : solveLoop limbs r1cs 0 r1cs.Constraints
      { a := a, b := b, c := c, wireValues := wV0, wireInstantiated := wI0 } = .ok (e, s))
    (hn : stateBefore limbs r1cs wI0 wV0 n = .ok (s.wireInstantiated, s.wireValues))
    (hlog : ∀ entry ∈ r1cs.Logs, ∀ q ∈ entry.ToResolve, ∃ j wI wV,
      j ≤ n ∧ stateBefore limbs r1cs wI0 wV0 j = .ok (wI, wV) ∧ wI[q]? = some true) :
    ∃ res out, Solve limbs r1cs assignment a b c wireValues = .ok res ∧ res.err = e ∧
      res.buffers = s ∧ res.logs = some out := by
  obtain ⟨h1, h2, h3, h4⟩ := hsz
  obtain ⟨hl1, hl2⟩ := bindInputs_length hbind
  obtain ⟨hs1, hs2, -⟩ := stateBefore_extends n _ _ hn
  have hlen : s.wireInstantiated.length = s.wireValues.length := by
    rw [hs1, hs2, hl1, hl2, List.length_replicate]
    omega
  have hflags : ∀ entry ∈ r1cs.Logs, ∀ q ∈ entry.ToResolve,
      s.wireInstantiated[q]? = some true := by
    intro entry hentry q hq
    obtain ⟨j, wI, wV, hjn, hj, hflag⟩ := hlog entry hentry q hq
    have hn1 : stateBefore limbs r1cs wI0 wV0 (j + (n - j))
        = .ok (s.wireInstantiated, s.wireValues) := by
      rw [Nat.add_sub_cancel' hjn]
      exact hn
    exact ((stateBefore_mono hj _ _ _ hn1).2.2 q hflag).1
  obtain ⟨out, hout⟩ := printLogs_ok hlen r1cs.Logs hflags
  refine ⟨{ err := e, buffers := s, logs := some out }, out, ?_, rfl, rfl, rfl⟩
  unfold Solve
  have hsz1 : ¬ ((a.length : ℤ) ≠ r1cs.NbConstraints ∨ (b.length : ℤ) ≠ r1cs.NbConstraints ∨
      (c.length : ℤ) ≠ r1cs.NbConstraints ∨ (wireValues.length : ℤ) ≠ r1cs.NbWires) := by
    simp [h1, h2, h3, h4]
  rw [if_neg hsz1, hbind]
  simp only [hrun, hout]

/-- Log resolution on the `UnsatisfiedConstraint` path when the logged wire has a value: on
`x * x = y` followed by the check `y * 1 = 10`, with
`x = 3`, the loop stops at the second constraint; the log entry names `y`, which the first
constraint resolved, and `Solve` returns `UnsatisfiedConstraint`. -/
theorem Solve_resolves_logs_witness :
    ∃ res out, Solve 4 checkR1CS squareAssignment [0, 0] [0, 0] [0, 0] [0, 0, 0] = .ok res ∧
      res.err = some (.unsatisfiedConstraint "9" "1" "10") ∧
      res.buffers = { a := [3, 9], b := [3, 1], c := [9, 10], wireValues := [9, 3, 1],
                      wireInstantiated := [true, true, true] } ∧
      res.logs = some out :=
  Solve_resolves_logs 4 checkR1CS squareAssignment [0, 0] [0, 0] [0, 0] [0, 0, 0]
    [false, true, true] [0, 3, 1] (some (.unsatisfiedConstraint "9" "1" "10"))
    { a := [3, 9], b := [3, 1], c := [9, 10], wireValues := [9, 3, 1],
      wireInstantiated := [true, true, true] } 2
    ⟨rfl, rfl, rfl, rfl⟩ rfl rfl rfl
    (fun entry hentry q hq => by
      simp only [checkR1CS, List.mem_singleton] at hentry
      subst hentry
      simp only [List.mem_singleton] at hq
      subst hq
      exact ⟨1, [true, true, true], [9, 3, 1], by omega, rfl, rfl⟩)

/-! ## Inspect: the map and the error -/

theorem inspectInputs_lookup {p : ℕ} (wV : List (ZMod p)) (offset : ℤ) :
    ∀ (names : List String) (i : ℕ) (res m : ResultMap),
      inspectInputs wV offset i names res = .ok m →
      ∀ name : String,
        (name ∉ names → m.lookup name = res.lookup name) ∧
        (∀ j : ℕ, names[j]? = some name → (∀ k : ℕ, j < k → names[k]? ≠ some name) →
          ∃ v, readAtInt wV ((i + j : ℕ) + offset) = .ok v ∧
            m.lookup name = some (ToBigIntRegular v)) := by
  intro names
  induction names with
  | nil =>
    intro i res m h name
    simp only [inspectInputs, Except.ok.injEq] at h
    subst h
    exact ⟨fun _ => rfl, fun j hj => by simp at hj⟩
  | cons n rest ih =>
    intro i res m h name
    simp only [inspectInputs] at h
    cases hr : readAtInt wV ((i : ℤ) + offset) with
    | error e => simp [hr] at h
    | ok v =>
      simp only [hr] at h
      have ih1 := ih (i + 1) _ m h name
      have hcons : name ≠ n → List.lookup name ((n, ToBigIntRegular v) :: res)
          = List.lookup name res := by
        intro hne
        rw [List.lookup_cons]
        have : (name == n) = false := by simpa using hne
        rw [this]
      refine ⟨?_, ?_⟩
      · intro hmem
        rw [List.mem_cons, not_or] at hmem
        rw [ih1.1 hmem.2, hcons hmem.1]
      · intro j hj hlast
        cases j with
        | zero =>
          simp only [List.getElem?_cons_zero, Option.some.injEq] at hj
          subst hj
          have hnot : n ∉ rest := by
            intro hin
            obtain ⟨k, hk⟩ := List.getElem?_of_mem hin
            exact hlast (k + 1) (Nat.succ_pos k) (by simpa using hk)
          refine ⟨v, by simpa using hr, ?_⟩
          rw [ih1.1 hnot]
          simp [List.lookup_cons]
        | succ j =>
          simp only [List.getElem?_cons_succ] at hj
          obtain ⟨v1, hv1, hm⟩ := ih1.2 j hj (fun k hk => by
            have := hlast (k + 1) (by omega)
            simpa using this)
          refine ⟨v1, ?_, hm⟩
          rw [← hv1]
          congr 1
          push_cast
          ring

theorem inspectInputs_total {p : ℕ} (wV : List (ZMod p)) (offset : ℤ) (h0 : 0 ≤ offset) :
    ∀ (names : List String) (i : ℕ) (res : ResultMap),
      (i : ℤ) + names.length + offset ≤ wV.length →
      ∃ m, inspectInputs wV offset i names res = .ok m := by
  intro names
  induction names with
  | nil => intro i res _; exact ⟨res, rfl⟩
  | cons n rest ih =>
    intro i res hlen
    simp only [List.length_cons, Nat.cast_add, Nat.cast_one] at hlen
    have hlt : ((i : ℤ) + offset).toNat < wV.length := by omega
    have hr : readAtInt wV ((i : ℤ) + offset) = .ok (wV[((i : ℤ) + offset).toNat]) := by
      unfold readAtInt readAt
      rw [if_pos (by omega), List.getElem?_eq_getElem hlt]
    simp only [inspectInputs, hr]
    exact ih (i + 1) _ (by push_cast; omega)

theorem inspectWireTags_spec {p : ℕ} (wV : List (ZMod p)) (w : ℕ) (v : ZMod p)
    (hv : wV[w]? = some v) :
    ∀ (tags : List String) (res : ResultMap),
      tags.Nodup → (∀ tag ∈ tags, res.lookup tag = none) →
      ∃ m, inspectWireTags wV w tags res = .ok (none, m) ∧
        ∀ k : String, m.lookup k = if k ∈ tags then some (ToBigIntRegular v) else res.lookup k := by
  intro tags
  induction tags with
  | nil => intro res _ _; exact ⟨res, rfl, fun k => by simp⟩
  | cons t rest ih =>
    intro res hnd hfree
    rw [List.nodup_cons] at hnd
    have hr : readAt wV w = .ok v := by unfold readAt; rw [hv]
    have ht : res.lookup t = none := hfree t (List.mem_cons_self _ _)
    simp only [inspectWireTags, ht, Option.isSome_none, Bool.false_eq_true, if_false, hr]
    obtain ⟨m, hm, hlook⟩ := ih ((t, ToBigIntRegular v) :: res) hnd.2 (by
      intro tag htag
      have hne : tag ≠ t := fun h => hnd.1 (h ▸ htag)
      rw [List.lookup_cons]
      have : (tag == t) = false := by simpa using hne
      rw [this]
      exact hfree tag (List.mem_cons_of_mem _ htag))
    refine ⟨m, hm, ?_⟩
    intro k
    rw [hlook k]
    by_cases hk : k ∈ rest
    · simp [hk]
    · by_cases hkt : k = t
      · subst hkt
        simp [hk, List.lookup_cons]
      · have : (k == t) = false := by simpa using hkt
        simp [hk, hkt, List.lookup_cons, this]

theorem inspectTags_spec {p : ℕ} (wV : List (ZMod p)) :
    ∀ (wts : List (ℕ × List String)) (res : ResultMap),
      (wts.map Prod.snd).flatten.Nodup →
      (∀ tag ∈ (wts.map Prod.snd).flatten, res.lookup tag = none) →
      (∀ wt ∈ wts, wt.1 < wV.length) →
      ∃ m, inspectTags wV wts res = .ok (none, m) ∧
        (∀ wt ∈ wts, ∀ tag ∈ wt.2, ∃ v, wV[wt.1]? = some v ∧
          m.lookup tag = some (ToBigIntRegular v)) ∧
        ∀ k : String, k ∉ (wts.map Prod.snd).flatten → m.lookup k = res.lookup k := by
  intro wts
  induction wts with
  | nil => intro res _ _ _; exact ⟨res, rfl, fun wt h => by simp at h, fun k _ => rfl⟩
  | cons wt rest ih =>
    intro res hnd hfree hlt
    obtain ⟨w, tags⟩ := wt
    simp only [List.map_cons, List.flatten_cons] at hnd hfree
    rw [List.nodup_append] at hnd
    obtain ⟨hnd1, hnd2, hdisj⟩ := hnd
    have hw : w < wV.length := hlt (w, tags) (List.mem_cons_self _ _)
    have hv : wV[w]? = some wV[w] := List.getElem?_eq_getElem hw
    obtain ⟨m1, hm1, hlook1⟩ := inspectWireTags_spec wV w wV[w] hv tags res hnd1
      (fun tag htag => hfree tag (List.mem_append_left _ htag))
    obtain ⟨m, hm, htags, hother⟩ := ih m1 hnd2 (by
      intro tag htag
      rw [hlook1 tag, if_neg (fun h => hdisj h htag)]
      exact hfree tag (List.mem_append_right _ htag))
      (fun wt hwt => hlt wt (List.mem_cons_of_mem _ hwt))
    refine ⟨m, ?_, ?_, ?_⟩
    · simp only [inspectTags, hm1, hm]
    · intro wt hwt tag htag
      rw [List.mem_cons] at hwt
      rcases hwt with rfl | hwt
      · refine ⟨wV[w], hv, ?_⟩
        have hnot : tag ∉ (rest.map Prod.snd).flatten := fun h => hdisj htag h
        rw [hother tag hnot, hlook1 tag, if_pos htag]
      · exact htags wt hwt tag htag
    · intro k hk
      simp only [List.map_cons, List.flatten_cons, List.mem_append, not_or] at hk
      rw [hother k hk.2, hlook1 k, if_neg hk.1]


theorem readAtInt_ok {α : Type} {l : List α} {z : ℤ} {v : α} (h : readAtInt l z = .ok v) :
    0 ≤ z ∧ l[z.toNat]? = some v := by
  unfold readAtInt at h
  by_cases hz : 0 ≤ z
  · rw [if_pos hz] at h
    unfold readAt at h
    cases hl : l[z.toNat]? with
    | none => simp [hl] at h
    | some x =>
      simp only [hl, Except.ok.injEq] at h
      exact ⟨hz, by rw [h]⟩
  · rw [if_neg hz] at h
    cases h

theorem Solve_wireValues_length {p : ℕ} {limbs : ℕ} {r1cs : R1CS p} {assignment : Assignment}
    {a b c wireValues : List (ZMod p)} {res : SolveResult p}
    (h : Solve limbs r1cs assignment a b c wireValues = .ok res) :
    res.buffers.wireValues.length = wireValues.length := by
  rcases Solve_ok_cases h with ⟨-, rfl⟩ | ⟨-, name, wI1, wV1, hb, rfl⟩ |
    ⟨-, wI1, wV1, e, s, out, hb, hl, -, rfl⟩
  · rfl
  · exact (bindInputs_length hb).2
  · have h1 := (solveLoop_extends _ _ _ _ _ hl).2.1
    exact h1.trans (bindInputs_length hb).2

/-- The two input loops of `Inspect` on a partitioned wire table: they complete, and they leave
under every input name the value of the wire of its last occurrence, and nothing under any other
key. -/
theorem inspectInputs_both {p : ℕ} (r1cs : R1CS p) (wV : List (ZMod p))
    (hlen : wV.length = r1cs.NbWires.toNat) (hok : WireTableOK r1cs) :
    ∃ m1 m2,
      inspectInputs wV (r1cs.NbWires - r1cs.NbPublicWires - r1cs.NbSecretWires) 0
        r1cs.SecretWires [] = .ok m1 ∧
      inspectInputs wV (r1cs.NbWires - r1cs.NbPublicWires) 0 r1cs.PublicWires m1 = .ok m2 ∧
      (∀ name : String, name ∉ inputNames r1cs → m2.lookup name = none) ∧
      ∀ (j : ℕ) (name : String), (inputNames r1cs)[j]? = some name →
        (∀ k : ℕ, j < k → (inputNames r1cs)[k]? ≠ some name) →
        ∃ v, wV[inputOffset r1cs + j]? = some v ∧ m2.lookup name = some (ToBigIntRegular v) := by
  obtain ⟨hs, hp, hfit⟩ := hok
  obtain ⟨m1, hm1⟩ := inspectInputs_total wV
    (r1cs.NbWires - r1cs.NbPublicWires - r1cs.NbSecretWires) (by omega) r1cs.SecretWires 0 []
    (by rw [hlen]; push_cast; omega)
  obtain ⟨m2, hm2⟩ := inspectInputs_total wV (r1cs.NbWires - r1cs.NbPublicWires) (by omega)
    r1cs.PublicWires 0 m1 (by rw [hlen]; push_cast; omega)
  have l1 := inspectInputs_lookup wV _ _ _ _ _ hm1
  have l2 := inspectInputs_lookup wV _ _ _ _ _ hm2
  refine ⟨m1, m2, hm1, hm2, ?_, ?_⟩
  · intro name hname
    simp only [inputNames, List.mem_append, not_or] at hname
    rw [(l2 name).1 hname.2, (l1 name).1 hname.1]
    rfl
  · intro j name hj hlast
    unfold inputNames at hj hlast
    by_cases hjs : j < r1cs.SecretWires.length
    · rw [List.getElem?_append_left hjs] at hj
      have hnp : name ∉ r1cs.PublicWires := by
        intro hin
        obtain ⟨k, hk⟩ := List.getElem?_of_mem hin
        refine hlast (r1cs.SecretWires.length + k) (by omega) ?_
        rw [List.getElem?_append_right (by omega)]
        simpa using hk
      obtain ⟨v, hv, hm⟩ := (l1 name).2 j hj (fun k hk hk1 => by
        have hks : k < r1cs.SecretWires.length := by
          by_contra hge
          rw [List.getElem?_eq_none (by omega)] at hk1
          cases hk1
        refine hlast k hk ?_
        rw [List.getElem?_append_left hks]
        exact hk1)
      obtain ⟨-, hv1⟩ := readAtInt_ok hv
      refine ⟨v, ?_, ?_⟩
      · rw [← hv1]
        congr 1
        unfold inputOffset
        omega
      · rw [(l2 name).1 hnp, hm]
    · have hge : r1cs.SecretWires.length ≤ j := by omega
      rw [List.getElem?_append_right hge] at hj
      obtain ⟨v, hv, hm⟩ := (l2 name).2 (j - r1cs.SecretWires.length) hj (fun k hk hk1 => by
        refine hlast (r1cs.SecretWires.length + k) (by omega) ?_
        rw [List.getElem?_append_right (by omega)]
        simpa using hk1)
      obtain ⟨-, hv1⟩ := readAtInt_ok hv
      refine ⟨v, ?_, hm⟩
      rw [← hv1]
      congr 1
      unfold inputOffset
      omega

/-- Claim C13, the duplicate tag: on `clashR1CS` with `x = 3` the call of `Solve` that `Inspect`
makes returns the error `UnsatisfiedConstraint` of constraint `0` (`3 * 1 != 4`), and `Inspect`, meeting the tag
`t` a second time, returns the `nil` map and the error `DuplicateTag` of `t`, not the error of
`Solve`; this also when the inputs are requested. -/
theorem Inspect_duplicate_counterexample :
    (∃ sres, Solve 4 clashR1CS squareAssignment [0, 0] [0, 0] [0, 0] [0, 0, 0] = .ok sres ∧
      sres.err = some (.unsatisfiedConstraint "3" "1" "4")) ∧
    Inspect 4 clashR1CS squareAssignment false = .ok (none, some (.duplicateTag "t")) ∧
    Inspect 4 clashR1CS squareAssignment true = .ok (none, some (.duplicateTag "t")) :=
  ⟨⟨_, rfl, rfl⟩, rfl, rfl⟩

/-- Claim C13, amended: let the sizes `NbWires` and `NbConstraints` be non-negative, let the call
of `Solve` that `Inspect` makes (on zeroed buffers of these sizes) return the error `e`, let the
tagged wires exist and the tags be pairwise distinct, and, when the inputs are requested, let the
wire table be partitioned and no tag be an input name.  Then `Inspect` returns a non-nil map
together with exactly the error `e`; in the map every tag is mapped to the canonical integer of
its wire in the wire vector `Solve` left, every input name, when requested, to the canonical
integer of the input wire of its last occurrence, and no other key is present. -/
theorem Inspect_partial {p : ℕ} (limbs : ℕ) (r1cs : R1CS p) (solution : Assignment)
    (showsInputs : Bool) (sres : SolveResult p) (e : SolveError)
    (hw : 0 ≤ r1cs.NbWires) (hc : 0 ≤ r1cs.NbConstraints)
    (hsolve : Solve limbs r1cs solution (List.replicate r1cs.NbConstraints.toNat 0)
      (List.replicate r1cs.NbConstraints.toNat 0) (List.replicate r1cs.NbConstraints.toNat 0)
      (List.replicate r1cs.NbWires.toNat 0) = .ok sres)
    (herr : sres.err = some e)
    (hids : ∀ wt ∈ r1cs.WireTags, (wt.1 : ℤ) < r1cs.NbWires)
    (hnodup : (allTags r1cs).Nodup)
    (hin : showsInputs = true →
      WireTableOK r1cs ∧ ∀ tag ∈ allTags r1cs, tag ∉ inputNames r1cs) :
    ∃ m, Inspect limbs r1cs solution showsInputs = .ok (some m, some (.solveError e)) ∧
      (∀ wt ∈ r1cs.WireTags, ∀ tag ∈ wt.2, ∃ v, sres.buffers.wireValues[wt.1]? = some v ∧
        m.lookup tag = some (ToBigIntRegular v)) ∧
      (showsInputs = true → ∀ (j : ℕ) (name : String), (inputNames r1cs)[j]? = some name →
        (∀ k : ℕ, j < k → (inputNames r1cs)[k]? ≠ some name) →
        ∃ v, sres.buffers.wireValues[inputOffset r1cs + j]? = some v ∧
          m.lookup name = some (ToBigIntRegular v)) ∧
      ∀ k : String, k ∉ allTags r1cs → (showsInputs = true → k ∉ inputNames r1cs) →
        m.lookup k = none := by
  have hlen : sres.buffers.wireValues.length = r1cs.NbWires.toNat := by
    rw [Solve_wireValues_length hsolve, List.length_replicate]
  have hids1 : ∀ wt ∈ r1cs.WireTags, wt.1 < sres.buffers.wireValues.length := by
    intro wt hwt
    have := hids wt hwt
    omega
  have hmk1 : makeElements (p := p) r1cs.NbWires = .ok (List.replicate r1cs.NbWires.toNat 0) := by
    unfold makeElements
    rw [if_pos hw]
  have hmk2 : makeElements (p := p) r1cs.NbConstraints
      = .ok (List.replicate r1cs.NbConstraints.toNat 0) := by
    unfold makeElements
    rw [if_pos hc]
  cases hshow : showsInputs with
  | false =>
    obtain ⟨m, hm, htags, hother⟩ := inspectTags_spec sres.buffers.wireValues r1cs.WireTags []
      hnodup (fun _ _ => rfl) hids1
    refine ⟨m, ?_, htags, fun h => Bool.noConfusion h, ?_⟩
    · simp only [Inspect, hmk1, hmk2, hsolve, Bool.false_eq_true, if_false, hm, herr,
        Option.map_some']
    · intro k hk _
      rw [hother k hk]
      rfl
  | true =>
    obtain ⟨hok, hdisj⟩ := hin hshow
    obtain ⟨m1, m2, hm1, hm2, hnone, hinputs⟩ :=
      inspectInputs_both r1cs sres.buffers.wireValues hlen hok
    obtain ⟨m, hm, htags, hother⟩ := inspectTags_spec sres.buffers.wireValues r1cs.WireTags m2
      hnodup (fun tag htag => hnone tag (hdisj tag htag)) hids1
    refine ⟨m, ?_, htags, ?_, ?_⟩
    · simp only [Inspect, hmk1, hmk2, hsolve, if_true, hm1, hm2, hm, herr, Option.map_some']
    · intro _ j name hj hlast
      obtain ⟨v, hv, hl⟩ := hinputs j name hj hlast
      refine ⟨v, hv, ?_⟩
      have hmem : name ∈ inputNames r1cs := List.getElem?_mem hj
      rw [hother name (fun h => hdisj name h hmem), hl]
    · intro k hk hk1
      rw [hother k hk, hnone k (hk1 rfl)]

/-- The amended claim C13 on `taggedR1CS` with `x = 3`, the inputs requested: `Solve` returns the
error `UnsatisfiedConstraint` of constraint `0` (`3 * 1 != 4`) and leaves the wire values `[0, 3, 1]`. -/
theorem Inspect_partial_witness :
    ∃ m, Inspect 4 taggedR1CS squareAssignment true
        = .ok (some m, some (.solveError (.unsatisfiedConstraint "3" "1" "4"))) ∧
      m.lookup "in" = some 3 ∧ m.lookup "out" = some 0 ∧ m.lookup "x" = some 3 := by
  obtain ⟨m, hm, htags, hinputs, -⟩ := Inspect_partial 4 taggedR1CS squareAssignment true
    { err := some (.unsatisfiedConstraint "3" "1" "4"),
      buffers := { a := [3, 0], b := [1, 0], c := [4, 0], wireValues := [0, 3, 1],
                   wireInstantiated := [false, true, true] },
      logs := some [] }
    (.unsatisfiedConstraint "3" "1" "4") (by decide) (by decide) rfl rfl (by decide) (by decide)
    (fun _ => ⟨⟨rfl, rfl, by decide⟩, by decide⟩)
  refine ⟨m, hm, ?_, ?_, ?_⟩
  · obtain ⟨v, hv, hl⟩ := htags (1, ["in"]) (by decide) "in" (by decide)
    cases hv
    exact hl
  · obtain ⟨v, hv, hl⟩ := htags (0, ["out"]) (by decide) "out" (by decide)
    cases hv
    exact hl
  · obtain ⟨v, hv, hl⟩ := hinputs rfl 0 "x" rfl (fun k hk => by
      rcases k with _ | _ | k
      · omega
      · decide
      · simp [inputNames, taggedR1CS, assertR1CS])
    cases hv
    exact hl

/-! ## The limb reads of the binary decomposition -/

theorem binaryDecLoop_append {p : ℕ} (n : List ℕ) :
    ∀ (ts1 ts2 : List Term) (k : ℕ) (wI : List Bool) (wV : List (ZMod p)),
      binaryDecLoop n k (ts1 ++ ts2) wI wV =
        match binaryDecLoop n k ts1 wI wV with
        | .error e => .error e
        | .ok (wI1, wV1) => binaryDecLoop n (k + ts1.length) ts2 wI1 wV1 := by
  intro ts1
  induction ts1 with
  | nil => intro ts2 k wI wV; simp [binaryDecLoop]
  | cons t ts ih =>
    intro ts2 k wI wV
    rw [List.cons_append, binaryDecLoop_cons, binaryDecLoop_cons]
    have hk : k + (t :: ts).length = k + 1 + ts.length := by
      simp only [List.length_cons]; omega
    rw [hk]
    cases h1 : readAt n (k / 64) with
    | error e => rfl
    | ok word =>
      dsimp only
      cases h2 : readAt wI t.ConstraintID with
      | error e => rfl
      | ok flag =>
        cases flag with
        | true => exact ih ts2 (k + 1) wI wV
        | false =>
          dsimp only
          cases h3 : writeAt wV t.ConstraintID (SetUint64 ((word >>> (k % 64)) &&& 1)) with
          | error e => rfl
          | ok wV1 => exact ih ts2 (k + 1) _ wV1

/-- With the limb reads inside the words and the wire indices inside the two vectors, the loops
of the binary decomposition complete. -/
theorem binaryDecLoop_total {p : ℕ} (n : List ℕ) :
    ∀ (ts : List Term) (k : ℕ) (wI : List Bool) (wV : List (ZMod p)),
      k + ts.length ≤ 64 * n.length →
      (∀ t ∈ ts, t.ConstraintID < wI.length ∧ t.ConstraintID < wV.length) →
      ∃ wI1 wV1, binaryDecLoop n k ts wI wV = .ok (wI1, wV1) := by
  intro ts
  induction ts with
  | nil => intro k wI wV _ _; exact ⟨wI, wV, rfl⟩
  | cons t ts ih =>
    intro k wI wV hk hw
    simp only [List.length_cons] at hk
    obtain ⟨htI, htV⟩ := hw t (List.mem_cons_self _ _)
    have hrest : ∀ u ∈ ts, u.ConstraintID < wI.length ∧ u.ConstraintID < wV.length :=
      fun u hu => hw u (List.mem_cons_of_mem _ hu)
    have hword : k / 64 < n.length := by omega
    rw [binaryDecLoop_cons, readAt_of_getElem? (List.getElem?_eq_getElem hword),
      readAt_of_getElem? (List.getElem?_eq_getElem htI)]
    cases wI[t.ConstraintID] with
    | true => exact ih (k + 1) wI wV (by omega) hrest
    | false =>
      dsimp only
      rw [writeAt_of_lt _ htV]
      exact ih (k + 1) _ _ (by omega) (by
        intro u hu
        rw [List.length_set, List.length_set]
        exact hrest u hu)

/-- The read of the word at a position past the last bit of the words aborts the loops. -/
theorem binaryDecLoop_past {p : ℕ} (n : List ℕ) (k : ℕ) (t : Term) (ts : List Term)
    (wI : List Bool) (wV : List (ZMod p)) (hk : 64 * n.length ≤ k) :
    binaryDecLoop n k (t :: ts) wI wV = .error .indexOutOfRange := by
  have hword : n.length ≤ k / 64 := by omega
  rw [binaryDecLoop_cons, readAt_eq_error.2 ⟨hword, rfl⟩]

/-- Claim C21.  Take a `BinaryDec` constraint whose `O` is not empty, with the wire of `O[0]`
inside the wire values (it holds `v`) and the wires of `L` inside the flags and the wire values;
let `m` be the number of terms of `L`.
* If `m ≤ 64 * limbs`, every position `k < m` reads a word `n[k / 64]` inside the `limbs` words
  of `v`, and the step completes without aborting.
* If `m > 64 * limbs`, the positions before `64 * limbs` are processed, the read at position
  `64 * limbs` is the read of the word `n[limbs]` past the end, and the step aborts with an index
  out of range. -/
theorem binaryDec_limb_bound {p : ℕ} (limbs : ℕ) (r1cs : R1CS p) (r : R1C) (wI : List Bool)
    (wV : List (ZMod p)) (o : Term) (os : List Term) (v : ZMod p)
    (hsolver : r.Solver = .BinaryDec) (hO : r.O = o :: os)
    (hv : wV[o.ConstraintID]? = some v)
    (hwires : ∀ t ∈ r.L, t.ConstraintID < wI.length ∧ t.ConstraintID < wV.length) :
    (r.L.length ≤ 64 * limbs →
      (∀ k : ℕ, k < r.L.length → ∃ word, readAt (ToRegular limbs v) (k / 64) = .ok word) ∧
      ∃ wI1 wV1, solveR1C limbs r1cs r wI wV = .ok (wI1, wV1)) ∧
    (64 * limbs < r.L.length →
      (∃ wI1 wV1, binaryDecLoop (ToRegular limbs v) 0 (r.L.take (64 * limbs)) wI wV
        = .ok (wI1, wV1)) ∧
      readAt (ToRegular limbs v) (64 * limbs / 64) = .error .indexOutOfRange ∧
      solveR1C limbs r1cs r wI wV = .error .indexOutOfRange) := by
  have hstep : solveR1C limbs r1cs r wI wV
      = binaryDecLoop (ToRegular limbs v) 0 r.L wI wV := by
    unfold solveR1C
    rw [hsolver]
    simp only [hO, readAt_of_getElem? hv]
  have hlen : (ToRegular limbs v).length = limbs := ToRegular_length limbs v
  refine ⟨fun hm => ⟨?_, ?_⟩, fun hm => ⟨?_, ?_, ?_⟩⟩
  · intro k hk
    have hword : k / 64 < (ToRegular limbs v).length := by rw [hlen]; omega
    exact ⟨_, readAt_of_getElem? (List.getElem?_eq_getElem hword)⟩
  · rw [hstep]
    exact binaryDecLoop_total _ r.L 0 wI wV (by rw [hlen]; omega) hwires
  · exact binaryDecLoop_total _ _ 0 wI wV
      (by rw [hlen, List.length_take]; omega)
      (fun t ht => hwires t (List.mem_of_mem_take ht))
  · exact readAt_eq_error.2 ⟨by rw [hlen]; omega, rfl⟩
  · obtain ⟨wI1, wV1, hpre⟩ := binaryDecLoop_total (ToRegular limbs v)
      (r.L.take (64 * limbs)) 0 wI wV (by rw [hlen, List.length_take]; omega)
      (fun t ht => hwires t (List.mem_of_mem_take ht))
    have hne : r.L.drop (64 * limbs) ≠ [] := by
      intro h
      have := congrArg List.length h
      rw [List.length_drop, List.length_nil] at this
      omega
    obtain ⟨t, ts, hdrop⟩ := List.exists_cons_of_ne_nil hne
    rw [hstep, ← List.take_append_drop (64 * limbs) r.L, binaryDecLoop_append, hpre, hdrop]
    exact binaryDecLoop_past _ _ t ts wI1 wV1 (by rw [hlen, List.length_take]; omega)

/-- Claim C21 on elements of four words: the three bit terms of `bitsConstraint` are inside the
`256` bits and the step completes; the `257` terms of `wideConstraint` are one too many and the
step aborts. -/
theorem binaryDec_limb_bound_witness :
    (∃ wI1 wV1, solveR1C 4 bitsR1CS bitsConstraint [false, false, false, true, true]
        [0, 0, 0, 5, 1] = .ok (wI1, wV1)) ∧
    solveR1C 4 wideR1CS wideConstraint (List.replicate 259 false) (List.replicate 259 0)
      = .error .indexOutOfRange :=
  ⟨((binaryDec_limb_bound 4 bitsR1CS bitsConstraint [false, false, false, true, true]
      [0, 0, 0, 5, 1] ⟨3, 1, 0⟩ [] 5 rfl rfl rfl (by decide)).1 (by decide)).2,
   ((binaryDec_limb_bound 4 wideR1CS wideConstraint (List.replicate 259 false)
      (List.replicate 259 0) ⟨257, 1, 0⟩ [] 0 rfl rfl
      (by
        show (List.replicate 259 (0 : ZMod frModulus))[257]? = some 0
        rw [List.getElem?_replicate, if_pos (by decide)])
      (by
        intro t ht
        simp only [wideConstraint, List.mem_map, List.mem_range] at ht
        obtain ⟨i, hi, rfl⟩ := ht
        simp only [List.length_replicate]
        omega)).2 (by simp [wideConstraint])).2.2⟩


end Gnark
